import Mathlib

/-!
# SimpleVector (simple_vector.h)

A shallow embedding of the class template `SimpleVector<Type>` and of the free
comparison operators of `simple_vector.h`.

Conventions of the embedding:

* `size_t` values are natural numbers.  Every count that reaches `size_` or
  `capacity_` on a run without undefined behaviour is bounded by the length of
  an array that `new Type[n]` handed out, so `size_ + 1` and `capacity_ * 2`
  stay far below `2 ^ 64` and never wrap.
* A buffer is the list of its slots together with the address of its block.
  Accessing a slot that the block does not have is undefined behaviour and is
  reported as `Outcome.undefined`; a failing `assert` is `Outcome.assert_fail`;
  the exception of `At` is `Outcome.out_of_range`.
* Allocation always succeeds.  Which block `new Type[n]` returns and what its
  slots hold is not decided by the program, so each allocating operation takes
  that answer as an argument of type `Allocation`.
* Pointers (`Iterator`, `ConstIterator`) are a block address and a slot index.
-/

/-! ## Results of running a member function -/

/-- Result of running a piece of the program. -/
inductive Outcome (α : Type) where
  | ok : α → Outcome α
  | out_of_range : Outcome α
  | assert_fail : Outcome α
  | undefined : Outcome α
deriving DecidableEq, Repr

/-- Sequencing: the first failure stops the run. -/
def Outcome.bind {α β : Type} : Outcome α → (α → Outcome β) → Outcome β
  | .ok a, f => f a
  | .out_of_range, _ => .out_of_range
  | .assert_fail, _ => .assert_fail
  | .undefined, _ => .undefined

instance : Monad Outcome where
  pure := Outcome.ok
  bind := Outcome.bind

/-! ## Element types -/

/-- What the container uses of its element type `Type`: the value `Type()` and
the state in which an object is left once its value has been moved out of it
(the object itself for `int`, the empty string for `std::string`). -/
class Element (α : Type) where
  init : α
  moved_from : α → α

instance : Element Nat where
  init := 0
  moved_from := id

instance : Element String where
  init := ""
  moved_from := fun _ => ""

/-! ## Raw memory -/

/-- The answer of one `new Type[n]`: the address of the block (never null) and
the value found in each of its slots.  For a class type every slot holds
`Type()`; for a type such as `int` the slots are not initialised and hold
whatever the memory held. -/
structure Allocation (α : Type) where
  addr : Nat
  slots : Nat → α

/-- An allocation whose slots were default-constructed, as for a class type. -/
def Allocation.constructed {α : Type} [Element α] (addr : Nat) : Allocation α :=
  ⟨addr, fun _ => Element.init⟩

/-- A pointer to a slot: the address of the block and the index of the slot.
The null pointer has block address 0. -/
structure Iterator where
  base : Nat
  index : Nat
deriving DecidableEq, Repr

/-- The null pointer. -/
def nullptr : Iterator := ⟨0, 0⟩

/-- Pointer arithmetic `it + n` inside a block. -/
instance : HAdd Iterator Nat Iterator where
  hAdd it n := ⟨it.base, it.index + n⟩

/-- Read of slot `i`; outside the block it is undefined behaviour. -/
def load {α : Type} (cells : List α) (i : Nat) : Outcome α :=
  match cells[i]? with
  | some x => .ok x
  | none => .undefined

/-- Write of slot `i`; outside the block it is undefined behaviour. -/
def store {α : Type} (cells : List α) (i : Nat) (x : α) : Outcome (List α) :=
  if i < cells.length then .ok (cells.set i x) else .undefined

/-! ## Algorithms of the standard library used by the container

Ranges are given by slot indices.  The loops run on the number of elements
left, so that they are structurally recursive. -/

/-- Loop of `std::copy` between two distinct blocks: `*d_first++ = *first++`. -/
def copy_loop {α : Type} : Nat → List α → Nat → List α → Nat → Outcome (List α)
  | 0, _, _, dst, _ => .ok dst
  | n + 1, src, first, dst, d_first => do
    let x ← load src first
    let dst ← store dst d_first x
    copy_loop n src (first + 1) dst (d_first + 1)

/-- The call `std::copy(first, last, d_first)` from one block into another. -/
def std_copy {α : Type} (src : List α) (first last : Nat) (dst : List α) (d_first : Nat) :
    Outcome (List α) :=
  if last < first then .undefined else copy_loop (last - first) src first dst d_first

/-- Loop of `std::move` between two distinct blocks:
`*d_first++ = std::move(*first++)`.  The source slot is left moved-from. -/
def move_loop {α : Type} [Element α] :
    Nat → List α → Nat → List α → Nat → Outcome (List α × List α)
  | 0, src, _, dst, _ => .ok (src, dst)
  | n + 1, src, first, dst, d_first => do
    let x ← load src first
    let dst ← store dst d_first x
    let src ← store src first (Element.moved_from x)
    move_loop n src (first + 1) dst (d_first + 1)

/-- The call `std::move(first, last, d_first)` from one block into another; the
result is the source block and the destination block. -/
def std_move {α : Type} [Element α] (src : List α) (first last : Nat) (dst : List α)
    (d_first : Nat) : Outcome (List α × List α) :=
  if last < first then .undefined else move_loop (last - first) src first dst d_first

/-- Loop of `std::move_backward` between two distinct blocks:
`*(--d_last) = std::move(*(--last))`.  With `n + 1` elements left the next one
handled is the highest, slot `first + n`, which goes to slot `d_first + n`. -/
def move_backward_loop {α : Type} [Element α] :
    Nat → List α → Nat → List α → Nat → Outcome (List α × List α)
  | 0, src, _, dst, _ => .ok (src, dst)
  | n + 1, src, first, dst, d_first => do
    let x ← load src (first + n)
    let dst ← store dst (d_first + n) x
    let src ← store src (first + n) (Element.moved_from x)
    move_backward_loop n src first dst d_first

/-- The call `std::move_backward(first, last, d_last)` from one block into
another.  A destination range that would start before the block is undefined
behaviour. -/
def std_move_backward {α : Type} [Element α] (src : List α) (first last : Nat) (dst : List α)
    (d_last : Nat) : Outcome (List α × List α) :=
  if last < first ∨ d_last < last - first then .undefined
  else move_backward_loop (last - first) src first dst (d_last - (last - first))

/-- Loop of `std::copy_backward` inside one block: `*(--d_last) = *(--last)`,
highest slot first. -/
def copy_backward_within_loop {α : Type} : Nat → List α → Nat → Nat → Outcome (List α)
  | 0, c, _, _ => .ok c
  | n + 1, c, first, d_first => do
    let x ← load c (first + n)
    let c ← store c (d_first + n) x
    copy_backward_within_loop n c first d_first

/-- The call `std::copy_backward(first, last, d_last)` on ranges of one block. -/
def std_copy_backward_within {α : Type} (c : List α) (first last d_last : Nat) :
    Outcome (List α) :=
  if last < first ∨ d_last < last - first then .undefined
  else copy_backward_within_loop (last - first) c first (d_last - (last - first))

/-- Loop of `std::move_backward` inside one block:
`*(--d_last) = std::move(*(--last))`, highest slot first. -/
def move_backward_within_loop {α : Type} [Element α] :
    Nat → List α → Nat → Nat → Outcome (List α)
  | 0, c, _, _ => .ok c
  | n + 1, c, first, d_first => do
    let x ← load c (first + n)
    let c ← store c (d_first + n) x
    let c ← store c (first + n) (Element.moved_from x)
    move_backward_within_loop n c first d_first

/-- The call `std::move_backward(first, last, d_last)` on ranges of one block. -/
def std_move_backward_within {α : Type} [Element α] (c : List α) (first last d_last : Nat) :
    Outcome (List α) :=
  if last < first ∨ d_last < last - first then .undefined
  else move_backward_within_loop (last - first) c first (d_last - (last - first))

/-- Loop of `std::move` inside one block: `*d_first++ = std::move(*first++)`. -/
def move_within_loop {α : Type} [Element α] : Nat → List α → Nat → Nat → Outcome (List α)
  | 0, c, _, _ => .ok c
  | n + 1, c, first, d_first => do
    let x ← load c first
    let c ← store c d_first x
    let c ← store c first (Element.moved_from x)
    move_within_loop n c (first + 1) (d_first + 1)

/-- The call `std::move(first, last, d_first)` on ranges of one block. -/
def std_move_within {α : Type} [Element α] (c : List α) (first last d_first : Nat) :
    Outcome (List α) :=
  if last < first then .undefined else move_within_loop (last - first) c first d_first

/-- Loop of `std::fill`, and of the `for` loop of `Resize`: `*first++ = value`. -/
def fill_loop {α : Type} : Nat → List α → Nat → α → Outcome (List α)
  | 0, c, _, _ => .ok c
  | n + 1, c, first, value => do
    let c ← store c first value
    fill_loop n c (first + 1) value

/-- The call `std::fill(first, last, value)`. -/
def std_fill {α : Type} (c : List α) (first last : Nat) (value : α) : Outcome (List α) :=
  if last < first then .undefined else fill_loop (last - first) c first value

/-- Loop of `std::equal(first1, last1, first2)`: stops with `false` at the first
pair of slots that differ. -/
def equal_loop {α : Type} [DecidableEq α] : Nat → List α → Nat → List α → Nat → Outcome Bool
  | 0, _, _, _, _ => .ok true
  | n + 1, a, first1, b, first2 => do
    let x ← load a first1
    let y ← load b first2
    if x = y then equal_loop n a (first1 + 1) b (first2 + 1) else pure false

/-- The call `std::equal(first1, last1, first2)`. -/
def std_equal {α : Type} [DecidableEq α] (a : List α) (first1 last1 : Nat) (b : List α)
    (first2 : Nat) : Outcome Bool :=
  if last1 < first1 then .undefined else equal_loop (last1 - first1) a first1 b first2

/-- Loop of `std::lexicographical_compare(first1, last1, first2, last2)`, with
`n1` and `n2` elements left in the two ranges: it stops when either range is
exhausted, with `first1 == last1 && first2 != last2`, or at the first pair of
elements of which one is less than the other. -/
def lexicographical_compare_loop {α : Type} [LT α] [∀ x y : α, Decidable (x < y)] :
    Nat → Nat → List α → Nat → List α → Nat → Outcome Bool
  | 0, n2, _, _, _, _ => .ok (decide (n2 ≠ 0))
  | _ + 1, 0, _, _, _, _ => .ok false
  | n1 + 1, n2 + 1, a, first1, b, first2 => do
    let x ← load a first1
    let y ← load b first2
    if x < y then pure true
    else if y < x then pure false
    else lexicographical_compare_loop n1 n2 a (first1 + 1) b (first2 + 1)

/-- The call `std::lexicographical_compare(first1, last1, first2, last2)`. -/
def std_lexicographical_compare {α : Type} [LT α] [∀ x y : α, Decidable (x < y)]
    (a : List α) (first1 last1 : Nat) (b : List α) (first2 last2 : Nat) : Outcome Bool :=
  if last1 < first1 ∨ last2 < first2 then .undefined
  else lexicographical_compare_loop (last1 - first1) (last2 - first2) a first1 b first2

/-- The lexicographic order on sequences as the spec words it, not taken from
the code: the empty sequence is smaller than every non-empty one, and of two
non-empty sequences the smaller is the one with the smaller first element or,
the first elements being equal, with the smaller rest. -/
def lexicographically_smaller {α : Type} [LT α] : List α → List α → Prop
  | [], [] => False
  | [], _ :: _ => True
  | _ :: _, [] => False
  | x :: xs, y :: ys => x < y ∨ (x = y ∧ lexicographically_smaller xs ys)

/-- Modelled from the spec: the one-argument `copy` that
`Insert(ConstIterator, const Type&)` calls as `copy(value)` and that
`simple_vector.h` does not declare.  The spec has that branch "place the new
value at its slot", so the call hands back a copy of its argument. -/
def copy {α : Type} (value : α) : α := value

/-- The class `ReserveProxyObj`. -/
structure ReserveProxyObj where
  capacity_ : Nat
deriving DecidableEq, Repr

/-- The member `ReserveProxyObj::get_capacity`. -/
def ReserveProxyObj.get_capacity (p : ReserveProxyObj) : Nat := p.capacity_

/-- The free function `Reserve(size_t capacity)`. -/
def Reserve (capacity : Nat) : ReserveProxyObj := ⟨capacity⟩

/-! ## ArrayPtr -/

/-- Modelled from the spec: the class template `ArrayPtr` of `array_ptr.h`, which
is not among the sources.  It owns zero or one block: `raw_ptr_` is the address
of the block (0 for the null pointer) and `cells` are the slots of the block; the
number of allocated slots is `cells.length`. -/
structure ArrayPtr (α : Type) where
  raw_ptr_ : Nat
  cells : List α
deriving DecidableEq, Repr

/-- Modelled from the spec: the default constructor of `ArrayPtr`, owning
nothing. -/
def ArrayPtr.null {α : Type} : ArrayPtr α := ⟨0, []⟩

/-- Modelled from the spec: the constructor `ArrayPtr(size)` that is missing from
the sources, "allocates storage for `count` default-initialized elements
(count=0 ⇒ no allocation, null)". -/
def ArrayPtr.alloc {α : Type} (m : Allocation α) (size : Nat) : ArrayPtr α :=
  if size = 0 then ArrayPtr.null else ⟨m.addr, (List.range size).map m.slots⟩

/-- Modelled from the spec: `ArrayPtr::Get`, the raw pointer to the first
slot. -/
def ArrayPtr.Get {α : Type} (a : ArrayPtr α) : Iterator := ⟨a.raw_ptr_, 0⟩

/-- Modelled from the spec: read through `ArrayPtr::operator[]`, "no bounds
checking (caller's responsibility)". -/
def ArrayPtr.read {α : Type} (a : ArrayPtr α) (i : Nat) : Outcome α := load a.cells i

/-- Modelled from the spec: write through `ArrayPtr::operator[]` or through
`Get() + i`. -/
def ArrayPtr.write {α : Type} (a : ArrayPtr α) (i : Nat) (x : α) : Outcome (ArrayPtr α) := do
  let c ← store a.cells i x
  pure { a with cells := c }

/-! ## SimpleVector -/

/-- The data members of `SimpleVector<Type>`. -/
structure SimpleVector (α : Type) where
  array_ : ArrayPtr α
  size_ : Nat
  capacity_ : Nat
deriving DecidableEq, Repr

namespace SimpleVector

variable {α : Type}

/-- The constructor `SimpleVector() noexcept = default`. -/
def mk_default : SimpleVector α := ⟨ArrayPtr.null, 0, 0⟩

/-- The member `GetSize`. -/
def GetSize (v : SimpleVector α) : Nat := v.size_

/-- The member `GetCapacity`. -/
def GetCapacity (v : SimpleVector α) : Nat := v.capacity_

/-- The member `IsEmpty`. -/
def IsEmpty (v : SimpleVector α) : Bool := v.size_ == 0

/-- The members `begin` and `cbegin`. -/
def begin (v : SimpleVector α) : Iterator := v.array_.Get

/-- The members `end` and `cend`: `array_.Get() + size_`. -/
def end_ (v : SimpleVector α) : Iterator := v.array_.Get + v.size_

/-- The live elements: the slots at the indices below `size_`. -/
def live (v : SimpleVector α) : List α := v.array_.cells.take v.size_

/-- The number of slots of the owned block. -/
def slots (v : SimpleVector α) : Nat := v.array_.cells.length

/-- The invariant `size ≤ capacity` of the data model. -/
@[reducible] def size_le_capacity (v : SimpleVector α) : Prop := v.GetSize ≤ v.GetCapacity

/-- The member `operator[]`: no check of the index. -/
def index (v : SimpleVector α) (i : Nat) : Outcome α := v.array_.read i

/-- The member `PushBack(const Type& item)`. -/
def PushBack (v : SimpleVector α) (m : Allocation α) (item : α) : Outcome (SimpleVector α) :=
  if v.size_ < v.capacity_ then do
    let a ← v.array_.write v.size_ item
    pure { v with array_ := a, size_ := v.size_ + 1 }
  else do
    let new_capacity := max (v.size_ + 1) (v.capacity_ * 2)
    let new_array := ArrayPtr.alloc m new_capacity
    let c ← std_copy v.array_.cells 0 v.size_ new_array.cells 0
    let c ← store c v.size_ item
    -- array_.swap(new_array): the old block is released with new_array
    pure { array_ := { new_array with cells := c }, size_ := v.size_ + 1,
           capacity_ := new_capacity }

/-- The member `PushBack(Type&& item)`. -/
def PushBack_move [Element α] (v : SimpleVector α) (m : Allocation α) (item : α) :
    Outcome (SimpleVector α) :=
  if v.size_ < v.capacity_ then do
    let a ← v.array_.write v.size_ item
    pure { v with array_ := a, size_ := v.size_ + 1 }
  else do
    let new_capacity := max (v.size_ + 1) (v.capacity_ * 2)
    let new_array := ArrayPtr.alloc m new_capacity
    let (_, c) ← std_move v.array_.cells 0 v.size_ new_array.cells 0
    let c ← store c v.size_ item
    -- array_.swap(new_array): the old block, now moved-from, is released
    pure { array_ := { new_array with cells := c }, size_ := v.size_ + 1,
           capacity_ := new_capacity }

/-- The constructor `SimpleVector(size_t size)`: `size` slots filled with
`Type()`. -/
def mk_size [Element α] (m : Allocation α) (size : Nat) : Outcome (SimpleVector α) := do
  let array_ := ArrayPtr.alloc m size
  let c ← std_fill array_.cells 0 size Element.init
  pure { array_ := { array_ with cells := c }, size_ := size, capacity_ := size }

/-- The constructor `SimpleVector(size_t size, const Type& value)`. -/
def mk_fill (m : Allocation α) (size : Nat) (value : α) : Outcome (SimpleVector α) := do
  let array_ := ArrayPtr.alloc m size
  let c ← std_fill array_.cells 0 size value
  pure { array_ := { array_ with cells := c }, size_ := size, capacity_ := size }

/-- The constructor `SimpleVector(initializer_list<Type> init)`. -/
def mk_init (m : Allocation α) (init : List α) : Outcome (SimpleVector α) := do
  let array_ := ArrayPtr.alloc m init.length
  let c ← std_copy init 0 init.length array_.cells 0
  pure { array_ := { array_ with cells := c }, size_ := init.length,
         capacity_ := init.length }

/-- The copy constructor `SimpleVector(const SimpleVector& other)`: the result
is the new vector and `other` after the call.  The iterators of the constant
`other` point to constant elements, so the call of `std::move` on them copies
every element; nothing is written to `other`. -/
def mk_copy (m : Allocation α) (other : SimpleVector α) :
    Outcome (SimpleVector α × SimpleVector α) :=
  if other.begin ≠ nullptr then do
    let new_array := ArrayPtr.alloc m other.size_
    let c ← std_copy other.array_.cells 0 other.size_ new_array.cells 0
    -- array_.swap(new_array)
    pure ({ array_ := { new_array with cells := c }, size_ := other.size_,
            capacity_ := other.capacity_ }, other)
  else
    pure ({ array_ := ArrayPtr.null, size_ := other.size_, capacity_ := other.capacity_ },
          other)

/-- The move constructor `SimpleVector(SimpleVector&& other)`: the result is
the new vector and `other` after the call.  Modelled from the spec: the move
assignment of `ArrayPtr`, after which "source buffer becomes empty (count 0, no
storage)". -/
def mk_move (other : SimpleVector α) : SimpleVector α × SimpleVector α :=
  ({ array_ := other.array_, size_ := other.size_, capacity_ := other.capacity_ },
   { array_ := ArrayPtr.null, size_ := 0, capacity_ := 0 })

/-- The constructor `SimpleVector(ReserveProxyObj proxy_obj)`. -/
def mk_reserve (proxy_obj : ReserveProxyObj) : SimpleVector α :=
  { array_ := ArrayPtr.null, size_ := 0, capacity_ := proxy_obj.get_capacity }

/-- The member `Clear`. -/
def Clear (v : SimpleVector α) : SimpleVector α := { v with size_ := 0 }

/-- The member `swap(SimpleVector& other)`: the result is `*this` and `other`
after the call.  Modelled from the spec: `ArrayPtr::swap`, which "swaps
ownership and counts between two buffer instances". -/
def swap (v other : SimpleVector α) : SimpleVector α × SimpleVector α :=
  ({ array_ := other.array_, size_ := other.size_, capacity_ := other.capacity_ },
   { array_ := v.array_, size_ := v.size_, capacity_ := v.capacity_ })

/-- The copy assignment `operator=(const SimpleVector& rhs)`: the result is
`*this` and `rhs` after the call; `same_object` tells whether `this == &rhs`. -/
def assign [Element α] (v : SimpleVector α) (m : Allocation α) (rhs : SimpleVector α)
    (same_object : Bool) : Outcome (SimpleVector α × SimpleVector α) :=
  if same_object then pure (v, v)
  else if rhs.IsEmpty then pure (v.Clear, rhs)
  else do
    let temp ← mk_size m rhs.size_
    let c ← std_copy rhs.array_.cells 0 rhs.size_ temp.array_.cells 0
    let temp := { temp with array_ := { temp.array_ with cells := c } }
    let temp := { temp with capacity_ := rhs.capacity_ }
    pure ((v.swap temp).1, rhs)

/-- The move assignment `operator=(SimpleVector&& rhs)`: the result is `*this`
and `rhs` after the call; `same_object` tells whether `this == &rhs`. -/
def assign_move [Element α] (v : SimpleVector α) (m : Allocation α) (rhs : SimpleVector α)
    (same_object : Bool) : Outcome (SimpleVector α × SimpleVector α) :=
  if same_object then pure (v, v)
  else if rhs.IsEmpty then pure (v.Clear, rhs)
  else do
    let temp ← mk_size m rhs.size_
    let c ← std_copy rhs.array_.cells 0 rhs.size_ temp.array_.cells 0
    let temp := { temp with array_ := { temp.array_ with cells := c } }
    let temp := { temp with capacity_ := rhs.capacity_ }
    pure ((v.swap temp).1, rhs)

/-- The member `Reserve(size_t new_capacity)`. -/
def Reserve (v : SimpleVector α) (m : Allocation α) (new_capacity : Nat) :
    Outcome (SimpleVector α) :=
  if new_capacity > v.capacity_ then do
    let new_array := ArrayPtr.alloc m new_capacity
    let c ← std_copy v.array_.cells 0 v.size_ new_array.cells 0
    -- array_.swap(new_array)
    pure { array_ := { new_array with cells := c }, size_ := v.size_,
           capacity_ := new_capacity }
  else pure v

/-- The member `PopBack`. -/
def PopBack (v : SimpleVector α) : SimpleVector α :=
  if v.size_ > 0 then { v with size_ := v.size_ - 1 } else v

/-- The member `At(size_t index)`: the element read through the returned
reference, and the vector after the call. -/
def At (v : SimpleVector α) (index : Nat) : Outcome (α × SimpleVector α) :=
  if index ≥ v.size_ then .out_of_range
  else do
    let x ← v.array_.read index
    pure (x, v)

/-- The member `At(size_t index) const`. -/
def At_const (v : SimpleVector α) (index : Nat) : Outcome α :=
  if index ≥ v.size_ then .out_of_range else v.array_.read index

/-- The member `Resize(size_t new_size)`. -/
def Resize [Element α] (v : SimpleVector α) (m : Allocation α) (new_size : Nat) :
    Outcome (SimpleVector α) :=
  if new_size ≤ v.size_ then pure { v with size_ := new_size }
  else if new_size ≤ v.capacity_ then do
    let c ← fill_loop (new_size - v.size_) v.array_.cells v.size_ Element.init
    pure { v with array_ := { v.array_ with cells := c }, size_ := new_size }
  else if new_size > v.capacity_ then do
    let new_capacity := max new_size (v.capacity_ * 2)
    let new_array := ArrayPtr.alloc m new_capacity
    let (_, c) ← std_move v.array_.cells 0 v.size_ new_array.cells 0
    -- array_.swap(new_array)
    pure { array_ := { new_array with cells := c }, size_ := new_size,
           capacity_ := new_capacity }
  else pure v

/-- The condition of the `assert` that opens `Insert` and `Erase`:
`pos >= begin() && pos <= end()`. -/
def in_range (v : SimpleVector α) (pos : Iterator) : Bool :=
  pos.base == v.begin.base && v.begin.index ≤ pos.index && pos.index ≤ v.end_.index

/-- The member `Insert(ConstIterator pos, const Type& value)`: the returned
iterator and the vector after the call. -/
def Insert (v : SimpleVector α) (m : Allocation α) (pos : Iterator) (value : α) :
    Outcome (Iterator × SimpleVector α) :=
  if v.in_range pos then do
    let insert_pos := pos
    let index_insert := pos.index - v.begin.index
    if v.size_ = v.capacity_ then do
      let new_capacity := max (v.size_ + 1) (v.capacity_ * 2)
      let new_array := ArrayPtr.alloc m new_capacity
      let c ← std_copy v.array_.cells v.begin.index insert_pos.index new_array.cells 0
      let c ← store c index_insert (copy value)
      let c ← std_copy v.array_.cells insert_pos.index v.end_.index c (index_insert + 1)
      -- array_.swap(new_array); capacity_ = new_capacity; ++size_
      pure (insert_pos, { array_ := { new_array with cells := c }, size_ := v.size_ + 1,
                          capacity_ := new_capacity })
    else do
      let c ← std_copy_backward_within v.array_.cells insert_pos.index v.end_.index
                (v.end_.index + 1)
      let c ← store c index_insert value
      pure (insert_pos, { v with array_ := { v.array_ with cells := c },
                                 size_ := v.size_ + 1 })
  else .assert_fail

/-- The member `Insert(ConstIterator pos, Type&& value)`: the returned iterator
and the vector after the call. -/
def Insert_move [Element α] (v : SimpleVector α) (m : Allocation α) (pos : Iterator)
    (value : α) : Outcome (Iterator × SimpleVector α) :=
  if v.in_range pos then do
    let insert_pos := pos
    let index_insert := pos.index - v.begin.index
    if v.size_ = v.capacity_ then do
      let new_capacity := max (v.size_ + 1) (v.capacity_ * 2)
      let new_array := ArrayPtr.alloc m new_capacity
      let (old, c) ← std_move v.array_.cells v.begin.index insert_pos.index new_array.cells 0
      let (_, c) ← std_move_backward old insert_pos.index v.end_.index c (v.size_ + 1)
      let c ← store c index_insert value
      -- array_.swap(new_array); capacity_ = new_capacity; ++size_
      let w : SimpleVector α := { array_ := { new_array with cells := c },
                                  size_ := v.size_ + 1, capacity_ := new_capacity }
      pure (⟨w.array_.raw_ptr_, index_insert⟩, w)
    else do
      let c ← std_move_backward_within v.array_.cells insert_pos.index v.end_.index
                (v.end_.index + 1)
      let c ← store c index_insert value
      let w : SimpleVector α := { v with array_ := { v.array_ with cells := c },
                                         size_ := v.size_ + 1 }
      pure (⟨w.array_.raw_ptr_, index_insert⟩, w)
  else .assert_fail

/-- The member `Erase(ConstIterator pos)`: the returned iterator and the vector
after the call. -/
def Erase [Element α] (v : SimpleVector α) (pos : Iterator) :
    Outcome (Iterator × SimpleVector α) :=
  if v.in_range pos then
    if v.size_ = 0 then pure (nullptr, v)
    else
      let del_pos := pos
      if del_pos = v.end_ then
        pure (del_pos, { v with size_ := v.size_ - 1 })
      else do
        let c ← std_move_within v.array_.cells (del_pos.index + 1) v.end_.index del_pos.index
        pure (del_pos, { v with array_ := { v.array_ with cells := c },
                                size_ := v.size_ - 1 })
  else .assert_fail

/-- The free `operator==`: `equal(lhs.begin(), lhs.end(), rhs.begin())`. -/
def eq [DecidableEq α] (lhs rhs : SimpleVector α) : Outcome Bool :=
  std_equal lhs.array_.cells lhs.begin.index lhs.end_.index rhs.array_.cells rhs.begin.index

/-- The free `operator!=`. -/
def ne [DecidableEq α] (lhs rhs : SimpleVector α) : Outcome Bool := do
  let b ← eq lhs rhs
  pure (!b)

/-- The free `operator<`:
`lexicographical_compare(lhs.begin(), lhs.end(), rhs.begin(), rhs.end())`. -/
def lt [LT α] [∀ x y : α, Decidable (x < y)] (lhs rhs : SimpleVector α) : Outcome Bool :=
  std_lexicographical_compare lhs.array_.cells lhs.begin.index lhs.end_.index
    rhs.array_.cells rhs.begin.index rhs.end_.index

/-- The condition under which the accesses to the live elements are defined:
the live elements lie inside the owned block, and the block pointer is null only
when there is no block. -/
def well_formed (v : SimpleVector α) : Prop :=
  v.size_ ≤ v.slots ∧ (v.array_.raw_ptr_ = 0 → v.array_.cells = [])

/-- The vectors that a program can hold: those produced by a constructor or by a
public member function that completed on vectors the program could hold, with
`new` never handing out the null pointer. -/
inductive Reachable [Element α] : SimpleVector α → Prop
  | mk_default : Reachable mk_default
  | mk_size (m : Allocation α) (n : Nat) (w : SimpleVector α) :
      m.addr ≠ 0 → mk_size m n = .ok w → Reachable w
  | mk_fill (m : Allocation α) (n : Nat) (x : α) (w : SimpleVector α) :
      m.addr ≠ 0 → mk_fill m n x = .ok w → Reachable w
  | mk_init (m : Allocation α) (l : List α) (w : SimpleVector α) :
      m.addr ≠ 0 → mk_init m l = .ok w → Reachable w
  | mk_copy (m : Allocation α) (other w o : SimpleVector α) :
      m.addr ≠ 0 → Reachable other → mk_copy m other = .ok (w, o) → Reachable w
  | mk_move_target (other : SimpleVector α) : Reachable other → Reachable (mk_move other).1
  | mk_move_source (other : SimpleVector α) : Reachable other → Reachable (mk_move other).2
  | mk_reserve (p : ReserveProxyObj) : Reachable (mk_reserve p)
  | PushBack (m : Allocation α) (v w : SimpleVector α) (x : α) :
      m.addr ≠ 0 → Reachable v → v.PushBack m x = .ok w → Reachable w
  | PushBack_move (m : Allocation α) (v w : SimpleVector α) (x : α) :
      m.addr ≠ 0 → Reachable v → v.PushBack_move m x = .ok w → Reachable w
  | PopBack (v : SimpleVector α) : Reachable v → Reachable v.PopBack
  | Insert (m : Allocation α) (v w : SimpleVector α) (pos it : Iterator) (x : α) :
      m.addr ≠ 0 → Reachable v → v.Insert m pos x = .ok (it, w) → Reachable w
  | Insert_move (m : Allocation α) (v w : SimpleVector α) (pos it : Iterator) (x : α) :
      m.addr ≠ 0 → Reachable v → v.Insert_move m pos x = .ok (it, w) → Reachable w
  | Erase (v w : SimpleVector α) (pos it : Iterator) :
      Reachable v → v.Erase pos = .ok (it, w) → Reachable w
  | Resize (m : Allocation α) (v w : SimpleVector α) (n : Nat) :
      m.addr ≠ 0 → Reachable v → v.Resize m n = .ok w → Reachable w
  | Reserve (m : Allocation α) (v w : SimpleVector α) (n : Nat) :
      m.addr ≠ 0 → Reachable v → v.Reserve m n = .ok w → Reachable w
  | Clear (v : SimpleVector α) : Reachable v → Reachable v.Clear
  | swap_left (v other : SimpleVector α) :
      Reachable v → Reachable other → Reachable (v.swap other).1
  | swap_right (v other : SimpleVector α) :
      Reachable v → Reachable other → Reachable (v.swap other).2
  | assign (m : Allocation α) (v rhs w o : SimpleVector α) :
      m.addr ≠ 0 → Reachable v → Reachable rhs → v.assign m rhs false = .ok (w, o) →
      Reachable w
  | assign_move (m : Allocation α) (v rhs w o : SimpleVector α) :
      m.addr ≠ 0 → Reachable v → Reachable rhs → v.assign_move m rhs false = .ok (w, o) →
      Reachable w

/-- One call of `PushBack` in a run: the overload that is called, the answer
of `new` should the call allocate, and the value that is pushed. -/
structure Push (α : Type) where
  by_move : Bool
  mem : Allocation α
  item : α

/-- The call of `PushBack` described by `p`. -/
def push [Element α] (v : SimpleVector α) (p : Push α) : Outcome (SimpleVector α) :=
  if p.by_move then v.PushBack_move p.mem p.item else v.PushBack p.mem p.item

/-- Consecutive calls of `PushBack`, one for each entry of the list, in order. -/
def push_all [Element α] : SimpleVector α → List (Push α) → Outcome (SimpleVector α)
  | v, [] => pure v
  | v, p :: ps => do
    let w ← v.push p
    push_all w ps

end SimpleVector

/-! ## Lemmas on the outcome of a run and on single accesses -/

section Lemmas

variable {α β : Type}

@[simp] theorem Outcome.ok_bind (a : α) (f : α → Outcome β) : (Outcome.ok a >>= f) = f a := rfl

@[simp] theorem Outcome.pure_eq (a : α) : (pure a : Outcome α) = Outcome.ok a := rfl

@[simp] theorem Outcome.undefined_bind (f : α → Outcome β) :
    (Outcome.undefined >>= f) = Outcome.undefined := rfl

theorem load_ok (l : List α) (i : Nat) (h : i < l.length) : load l i = .ok (l[i]) := by
  simp [load, List.getElem?_eq_getElem h]

theorem store_ok (l : List α) (i : Nat) (x : α) (h : i < l.length) :
    store l i x = .ok (l.set i x) := by
  simp [store, h]

theorem store_undefined (l : List α) (i : Nat) (x : α) (h : l.length ≤ i) :
    store l i x = .undefined := by
  simp [store]; omega

theorem get_some (l : List α) (i j : Nat) (hi : i < l.length) (e : j = i) :
    some (l[i]) = l[j]? := by
  subst e; rw [List.getElem?_eq_getElem hi]

theorem get_some_map (f : α → β) (l : List α) (i j : Nat) (hi : i < l.length) (e : j = i) :
    some (f (l[i])) = (l[j]?).map f := by
  subst e; rw [List.getElem?_eq_getElem hi]; rfl

/-! ## What the loops of the standard algorithms compute -/

theorem copy_loop_spec (n : Nat) (src : List α) (first : Nat) (dst : List α) (d : Nat)
    (h1 : first + n ≤ src.length) (h2 : d + n ≤ dst.length) :
    ∃ r, copy_loop n src first dst d = .ok r ∧ r.length = dst.length ∧
      ∀ k, r[k]? = if d ≤ k ∧ k < d + n then src[first + (k - d)]? else dst[k]? := by
  induction n generalizing first dst d with
  | zero => exact ⟨dst, rfl, rfl, fun k => by rw [if_neg (by omega)]⟩
  | succ n ih =>
    obtain ⟨r, hr, hlen, hk⟩ := ih (first + 1) (dst.set d (src[first])) (d + 1) (by omega)
      (by simp; omega)
    refine ⟨r, ?_, by simpa using hlen, fun k => ?_⟩
    · rw [copy_loop, load_ok _ _ (by omega), Outcome.ok_bind, store_ok _ _ _ (by omega),
        Outcome.ok_bind, hr]
    · rw [hk k]
      simp only [List.getElem?_set, List.length_set]
      split_ifs <;> first | omega | rfl | exact get_some _ _ _ _ (by omega) | (congr 1; omega)

theorem move_loop_spec [Element α] (n : Nat) (src : List α) (first : Nat) (dst : List α)
    (d : Nat) (h1 : first + n ≤ src.length) (h2 : d + n ≤ dst.length) :
    ∃ s r, move_loop n src first dst d = .ok (s, r) ∧ r.length = dst.length ∧
      s.length = src.length ∧
      (∀ k, r[k]? = if d ≤ k ∧ k < d + n then src[first + (k - d)]? else dst[k]?) ∧
      (∀ k, s[k]? = if first ≤ k ∧ k < first + n then (src[k]?).map Element.moved_from
                    else src[k]?) := by
  induction n generalizing src first dst d with
  | zero =>
    exact ⟨src, dst, rfl, rfl, rfl, fun k => by rw [if_neg (by omega)],
      fun k => by rw [if_neg (by omega)]⟩
  | succ n ih =>
    obtain ⟨s, r, hr, hlen, hslen, hk, hs⟩ :=
      ih (src.set first (Element.moved_from (src[first]))) (first + 1)
        (dst.set d (src[first])) (d + 1) (by simp; omega) (by simp; omega)
    refine ⟨s, r, ?_, by simpa using hlen, by simpa using hslen, fun k => ?_, fun k => ?_⟩
    · rw [move_loop, load_ok _ _ (by omega), Outcome.ok_bind, store_ok _ _ _ (by omega),
        Outcome.ok_bind, store_ok _ _ _ (by omega), Outcome.ok_bind, hr]
    · rw [hk k]
      simp only [List.getElem?_set, List.length_set]
      split_ifs <;> first | omega | rfl | exact get_some _ _ _ _ (by omega) | (congr 1; omega)
    · rw [hs k]
      simp only [List.getElem?_set, List.length_set]
      split_ifs <;> first | omega | rfl | exact get_some_map _ _ _ _ _ (by omega)

theorem move_backward_loop_spec [Element α] (n : Nat) (src : List α) (first : Nat)
    (dst : List α) (d : Nat) (h1 : first + n ≤ src.length) (h2 : d + n ≤ dst.length) :
    ∃ s r, move_backward_loop n src first dst d = .ok (s, r) ∧ r.length = dst.length ∧
      ∀ k, r[k]? = if d ≤ k ∧ k < d + n then src[first + (k - d)]? else dst[k]? := by
  induction n generalizing src dst with
  | zero => exact ⟨src, dst, rfl, rfl, fun k => by rw [if_neg (by omega)]⟩
  | succ n ih =>
    obtain ⟨s, r, hr, hlen, hk⟩ :=
      ih (src.set (first + n) (Element.moved_from (src[first + n])))
        (dst.set (d + n) (src[first + n])) (by simp; omega) (by simp; omega)
    refine ⟨s, r, ?_, by simpa using hlen, fun k => ?_⟩
    · rw [move_backward_loop, load_ok _ _ (by omega), Outcome.ok_bind,
        store_ok _ _ _ (by omega), Outcome.ok_bind, store_ok _ _ _ (by omega),
        Outcome.ok_bind, hr]
    · rw [hk k]
      simp only [List.getElem?_set, List.length_set]
      split_ifs <;> first | omega | rfl | exact get_some _ _ _ _ (by omega)

theorem copy_backward_within_loop_spec (n : Nat) (l : List α) (first : Nat)
    (h : first + n + 1 ≤ l.length) :
    ∃ r, copy_backward_within_loop n l first (first + 1) = .ok r ∧ r.length = l.length ∧
      ∀ k, r[k]? = if first + 1 ≤ k ∧ k ≤ first + n then l[k - 1]? else l[k]? := by
  induction n generalizing l with
  | zero => exact ⟨l, rfl, rfl, fun k => by rw [if_neg (by omega)]⟩
  | succ n ih =>
    obtain ⟨r, hr, hlen, hk⟩ := ih (l.set (first + 1 + n) (l[first + n])) (by simp; omega)
    refine ⟨r, ?_, by simpa using hlen, fun k => ?_⟩
    · rw [copy_backward_within_loop, load_ok _ _ (by omega), Outcome.ok_bind,
        store_ok _ _ _ (by omega), Outcome.ok_bind, hr]
    · rw [hk k]
      simp only [List.getElem?_set, List.length_set]
      split_ifs <;> first | omega | rfl | exact get_some _ _ _ _ (by omega)

theorem move_backward_within_loop_spec [Element α] (n : Nat) (l : List α) (first : Nat)
    (h : first + n + 1 ≤ l.length) :
    ∃ r, move_backward_within_loop n l first (first + 1) = .ok r ∧ r.length = l.length ∧
      ∀ k, first + 1 ≤ k ∨ k < first ∨ n = 0 →
        r[k]? = if first + 1 ≤ k ∧ k ≤ first + n then l[k - 1]? else l[k]? := by
  induction n generalizing l with
  | zero => exact ⟨l, rfl, rfl, fun k _ => by rw [if_neg (by omega)]⟩
  | succ n ih =>
    obtain ⟨r, hr, hlen, hk⟩ :=
      ih ((l.set (first + 1 + n) (l[first + n])).set (first + n)
        (Element.moved_from (l[first + n]))) (by simp; omega)
    refine ⟨r, ?_, by simpa using hlen, fun k hcase => ?_⟩
    · rw [move_backward_within_loop, load_ok _ _ (by omega), Outcome.ok_bind,
        store_ok _ _ _ (by omega), Outcome.ok_bind, store_ok _ _ _ (by simp; omega),
        Outcome.ok_bind, hr]
    · rw [hk k (by omega)]
      simp only [List.getElem?_set, List.length_set]
      split_ifs <;> first | omega | rfl | exact get_some _ _ _ _ (by omega)

theorem fill_loop_spec (n : Nat) (l : List α) (first : Nat) (value : α)
    (h : first + n ≤ l.length) :
    ∃ r, fill_loop n l first value = .ok r ∧ r.length = l.length ∧
      ∀ k, r[k]? = if first ≤ k ∧ k < first + n then some value else l[k]? := by
  induction n generalizing l first with
  | zero => exact ⟨l, rfl, rfl, fun k => by rw [if_neg (by omega)]⟩
  | succ n ih =>
    obtain ⟨r, hr, hlen, hk⟩ := ih (l.set first value) (first + 1) (by simp; omega)
    refine ⟨r, ?_, by simpa using hlen, fun k => ?_⟩
    · rw [fill_loop, store_ok _ _ _ (by omega), Outcome.ok_bind, hr]
    · rw [hk k]
      simp only [List.getElem?_set, List.length_set]
      split_ifs <;> first | omega | rfl

theorem move_within_loop_spec [Element α] (n : Nat) (l : List α) (d : Nat)
    (h : d + 1 + n ≤ l.length) :
    ∃ r, move_within_loop n l (d + 1) d = .ok r ∧ r.length = l.length ∧
      ∀ k, r[k]? = if d ≤ k ∧ k < d + n then l[k + 1]?
                   else if k = d + n ∧ 0 < n then (l[k]?).map Element.moved_from
                   else l[k]? := by
  induction n generalizing l d with
  | zero => exact ⟨l, rfl, rfl, fun k => by rw [if_neg (by omega), if_neg (by omega)]⟩
  | succ n ih =>
    obtain ⟨r, hr, hlen, hk⟩ :=
      ih ((l.set d (l[d + 1])).set (d + 1) (Element.moved_from (l[d + 1]))) (d + 1)
        (by simp; omega)
    refine ⟨r, ?_, by simpa using hlen, fun k => ?_⟩
    · rw [move_within_loop, load_ok _ _ (by omega), Outcome.ok_bind,
        store_ok _ _ _ (by omega), Outcome.ok_bind, store_ok _ _ _ (by simp; omega),
        Outcome.ok_bind, hr]
    · rw [hk k]
      simp only [List.getElem?_set, List.length_set]
      split_ifs <;> first | omega | rfl | exact get_some _ _ _ _ (by omega) |
        exact get_some_map _ _ _ _ _ (by omega)

theorem equal_loop_true [DecidableEq α] (n : Nat) (a : List α) (i : Nat) (b : List α) (j : Nat)
    (h1 : i + n ≤ a.length) (h : ∀ t, t < n → a[i + t]? = b[j + t]?) :
    equal_loop n a i b j = .ok true := by
  induction n generalizing i j with
  | zero => rfl
  | succ n ih =>
    have h0 := h 0 (by omega)
    simp only [Nat.add_zero] at h0
    have hb : b[j]? = some (a[i]) := by rw [← h0]; exact (get_some _ _ _ (by omega) rfl).symm
    have hload : load b j = .ok (a[i]) := by simp [load, hb]
    rw [equal_loop, load_ok _ _ (by omega), Outcome.ok_bind, hload, Outcome.ok_bind,
      if_pos rfl]
    exact ih (i + 1) (j + 1) (by omega) (fun t ht => by
      have := h (t + 1) (by omega)
      rw [show i + 1 + t = i + (t + 1) by omega, show j + 1 + t = j + (t + 1) by omega]
      exact this)

end Lemmas

section OpLemmas
variable {α : Type}
open SimpleVector

theorem alloc_cells_length (m : Allocation α) (n : Nat) :
    (ArrayPtr.alloc m n).cells.length = n := by
  unfold ArrayPtr.alloc
  split
  · subst_vars; rfl
  · simp

theorem alloc_raw_ptr (m : Allocation α) (n : Nat) (h : 0 < n) :
    (ArrayPtr.alloc m n).raw_ptr_ = m.addr := by
  unfold ArrayPtr.alloc
  rw [if_neg (by omega)]

theorem alloc_cells_get (m : Allocation α) (n k : Nat) :
    (ArrayPtr.alloc m n).cells[k]? = if k < n then some (m.slots k) else none := by
  unfold ArrayPtr.alloc
  split
  · subst_vars; simp [ArrayPtr.null]
  · simp only [List.getElem?_map]
    split_ifs with h
    · rw [List.getElem?_range h]; rfl
    · rw [List.getElem?_eq_none (by simp; omega)]; rfl

theorem get_take_snoc (l : List α) (n : Nat) (x : α) (k : Nat) (h : n ≤ l.length) :
    (l.take n ++ [x])[k]? = if k < n then l[k]? else if k = n then some x else none := by
  simp only [List.getElem?_append, List.getElem?_take, List.length_take]
  rw [Nat.min_eq_left h]
  split_ifs with h1 h2
  · rfl
  · subst h2; simp
  · rw [List.getElem?_eq_none (by simp; omega)]

theorem get_take_insert (l : List α) (n i : Nat) (x : α) (k : Nat) (h : n ≤ l.length)
    (hi : i ≤ n) :
    ((l.take n).take i ++ x :: (l.take n).drop i)[k]?
      = if k < i then l[k]? else if k = i then some x
        else if k ≤ n then l[k - 1]? else none := by
  simp only [List.getElem?_append, List.getElem?_take, List.length_take]
  rw [Nat.min_eq_left h, Nat.min_eq_left hi]
  split_ifs with h1 h2 h3 h4
  · rfl
  · omega
  · subst h3; simp
  · obtain ⟨j, hj⟩ : ∃ j, k - i = j + 1 := ⟨k - i - 1, by omega⟩
    rw [hj, List.getElem?_cons_succ, List.getElem?_drop, List.getElem?_take,
      if_pos (by omega)]
    congr 1; omega
  · obtain ⟨j, hj⟩ : ∃ j, k - i = j + 1 := ⟨k - i - 1, by omega⟩
    rw [hj, List.getElem?_cons_succ, List.getElem?_drop, List.getElem?_take,
      if_neg (by omega)]

theorem get_take_erase (l : List α) (n i : Nat) (k : Nat) (h : n ≤ l.length) (hi : i < n) :
    ((l.take n).take i ++ (l.take n).drop (i + 1))[k]?
      = if k < i then l[k]? else if k + 1 < n then l[k + 1]? else none := by
  simp only [List.getElem?_append, List.getElem?_take, List.length_take, List.getElem?_drop]
  rw [Nat.min_eq_left h, Nat.min_eq_left (by omega)]
  split_ifs <;> first | omega | rfl | (congr 1; omega)

theorem take_ext (r : List α) (n : Nat) (L : List α)
    (h : ∀ k, (if k < n then r[k]? else none) = L[k]?) : r.take n = L := by
  apply List.ext_getElem?
  intro k
  rw [List.getElem?_take]
  exact h k

theorem SimpleVector.PushBack_spec (v : SimpleVector α) (m : Allocation α) (item : α)
    (hs : v.size_ ≤ v.capacity_) (hc : v.capacity_ = v.slots) :
    ∃ w, v.PushBack m item = .ok w ∧ w.size_ = v.size_ + 1 ∧ w.live = v.live ++ [item] ∧
      w.capacity_ = w.slots ∧
      w.capacity_ = if v.size_ < v.capacity_ then v.capacity_
                    else max (v.size_ + 1) (v.capacity_ * 2) := by
  unfold SimpleVector.slots at hc
  by_cases hlt : v.size_ < v.capacity_
  · refine ⟨{ v with array_ := { v.array_ with cells := v.array_.cells.set v.size_ item },
                     size_ := v.size_ + 1 }, ?_, rfl, ?_, ?_, ?_⟩
    · simp [PushBack, hlt, ArrayPtr.write,
        store_ok _ _ item (show v.size_ < v.array_.cells.length by omega)]
    · apply take_ext
      intro k
      rw [live, get_take_snoc _ _ _ _ (by omega)]
      simp only [List.getElem?_set]
      split_ifs <;> first | omega | rfl
    · simp [slots, hc]
    · simp [hlt]
  · obtain ⟨r, hr, hlen, hk⟩ := copy_loop_spec v.size_ v.array_.cells 0
      (ArrayPtr.alloc m (max (v.size_ + 1) (v.capacity_ * 2))).cells 0 (by omega)
      (by rw [alloc_cells_length]; omega)
    rw [alloc_cells_length] at hlen
    refine ⟨{ array_ := { ArrayPtr.alloc m (max (v.size_ + 1) (v.capacity_ * 2)) with
                          cells := r.set v.size_ item },
              size_ := v.size_ + 1, capacity_ := max (v.size_ + 1) (v.capacity_ * 2) },
      ?_, rfl, ?_, ?_, ?_⟩
    · simp [PushBack, hlt, std_copy, hr, store_ok _ _ item (show v.size_ < r.length by omega)]
    · apply take_ext
      intro k
      rw [live, get_take_snoc _ _ _ _ (by omega)]
      simp only [List.getElem?_set, hk k]
      split_ifs <;> first | omega | rfl | (congr 1; omega)
    · simp [slots, hlen]
    · simp [hlt]

theorem SimpleVector.PushBack_move_spec [Element α] (v : SimpleVector α) (m : Allocation α)
    (item : α) (hs : v.size_ ≤ v.capacity_) (hc : v.capacity_ = v.slots) :
    ∃ w, v.PushBack_move m item = .ok w ∧ w.size_ = v.size_ + 1 ∧
      w.live = v.live ++ [item] ∧ w.capacity_ = w.slots ∧
      w.capacity_ = if v.size_ < v.capacity_ then v.capacity_
                    else max (v.size_ + 1) (v.capacity_ * 2) := by
  unfold SimpleVector.slots at hc
  by_cases hlt : v.size_ < v.capacity_
  · refine ⟨{ v with array_ := { v.array_ with cells := v.array_.cells.set v.size_ item },
                     size_ := v.size_ + 1 }, ?_, rfl, ?_, ?_, ?_⟩
    · simp [PushBack_move, hlt, ArrayPtr.write,
        store_ok _ _ item (show v.size_ < v.array_.cells.length by omega)]
    · apply take_ext
      intro k
      rw [live, get_take_snoc _ _ _ _ (by omega)]
      simp only [List.getElem?_set]
      split_ifs <;> first | omega | rfl
    · simp [slots, hc]
    · simp [hlt]
  · obtain ⟨s, r, hr, hlen, -, hk, -⟩ := move_loop_spec v.size_ v.array_.cells 0
      (ArrayPtr.alloc m (max (v.size_ + 1) (v.capacity_ * 2))).cells 0 (by omega)
      (by rw [alloc_cells_length]; omega)
    rw [alloc_cells_length] at hlen
    refine ⟨{ array_ := { ArrayPtr.alloc m (max (v.size_ + 1) (v.capacity_ * 2)) with
                          cells := r.set v.size_ item },
              size_ := v.size_ + 1, capacity_ := max (v.size_ + 1) (v.capacity_ * 2) },
      ?_, rfl, ?_, ?_, ?_⟩
    · simp [PushBack_move, hlt, std_move, hr,
        store_ok _ _ item (show v.size_ < r.length by omega)]
    · apply take_ext
      intro k
      rw [live, get_take_snoc _ _ _ _ (by omega)]
      simp only [List.getElem?_set, hk k]
      split_ifs <;> first | omega | rfl | (congr 1; omega)
    · simp [slots, hlen]
    · simp [hlt]

theorem Iterator.add_def (it : Iterator) (n : Nat) : it + n = ⟨it.base, it.index + n⟩ := rfl

theorem SimpleVector.in_range_begin_add (v : SimpleVector α) (i : Nat) (hi : i ≤ v.size_) :
    v.in_range (v.begin + i) = true := by
  simp [in_range, begin, end_, ArrayPtr.Get, Iterator.add_def]
  exact hi

theorem SimpleVector.Insert_spec (v : SimpleVector α) (m : Allocation α) (i : Nat) (value : α)
    (hs : v.size_ ≤ v.capacity_) (hc : v.capacity_ = v.slots) (hi : i ≤ v.size_) :
    ∃ w, v.Insert m (v.begin + i) value = .ok (v.begin + i, w) ∧ w.size_ = v.size_ + 1 ∧
      w.live = v.live.take i ++ value :: v.live.drop i ∧ w.capacity_ = w.slots ∧
      (w.capacity_ = if v.size_ = v.capacity_ then max (v.size_ + 1) (v.capacity_ * 2)
                     else v.capacity_) ∧
      w.array_.raw_ptr_ = (if v.size_ = v.capacity_ then m.addr else v.array_.raw_ptr_) := by
  unfold SimpleVector.slots at hc
  have hidx : (v.begin + i).index = i := by simp [begin, ArrayPtr.Get, Iterator.add_def]
  have hb : v.begin.index = 0 := rfl
  have he : v.end_.index = v.size_ := by simp [end_, ArrayPtr.Get, Iterator.add_def]
  by_cases hfull : v.size_ = v.capacity_
  · obtain ⟨r1, hr1, hlen1, hk1⟩ := copy_loop_spec i v.array_.cells 0
      (ArrayPtr.alloc m (max (v.size_ + 1) (v.capacity_ * 2))).cells 0 (by omega)
      (by rw [alloc_cells_length]; omega)
    rw [alloc_cells_length] at hlen1
    obtain ⟨r2, hr2, hlen2, hk2⟩ := copy_loop_spec (v.size_ - i) v.array_.cells i
      (r1.set i value) (i + 1) (by omega) (by simp; omega)
    simp only [List.length_set] at hlen2
    refine ⟨{ array_ := { ArrayPtr.alloc m (max (v.size_ + 1) (v.capacity_ * 2)) with
                          cells := r2 },
              size_ := v.size_ + 1, capacity_ := max (v.size_ + 1) (v.capacity_ * 2) },
      ?_, rfl, ?_, ?_, ?_, ?_⟩
    · simp only [Insert, in_range_begin_add v i hi, if_true, hidx, hb, he, Nat.sub_zero,
        if_pos hfull, std_copy, Nat.not_lt_zero, if_false, hr1, Outcome.ok_bind, copy,
        store_ok _ _ value (show i < r1.length by omega), if_neg (not_lt.mpr hi), hr2,
        Outcome.pure_eq]
    · apply take_ext
      intro k
      rw [live, get_take_insert _ _ _ _ _ (by omega) hi]
      simp only [hk2 k, List.getElem?_set, hk1 k]
      split_ifs <;> first | omega | rfl | (congr 1; omega)
    · simp [slots, hlen2, hlen1]
    · simp [hfull]
    · simp [hfull, alloc_raw_ptr]
  · have hd : v.size_ + 1 - (v.size_ - i) = i + 1 := by omega
    obtain ⟨r, hr, hlen, hk⟩ := copy_backward_within_loop_spec (v.size_ - i) v.array_.cells i
      (by omega)
    refine ⟨{ v with array_ := { v.array_ with cells := r.set i value },
                     size_ := v.size_ + 1 }, ?_, rfl, ?_, ?_, ?_, ?_⟩
    · simp only [Insert, in_range_begin_add v i hi, if_true, hidx, hb, he, Nat.sub_zero,
        if_neg hfull, std_copy_backward_within, if_neg (show ¬(v.size_ < i ∨
          v.size_ + 1 < v.size_ - i) by omega), hd, hr, Outcome.ok_bind,
        store_ok _ _ value (show i < r.length by omega), Outcome.pure_eq]
    · apply take_ext
      intro k
      rw [live, get_take_insert _ _ _ _ _ (by omega) hi]
      simp only [List.getElem?_set, hk k]
      split_ifs <;> first | omega | rfl
    · simp [slots, hlen, hc]
    · simp [hfull]
    · simp [hfull]

theorem SimpleVector.Insert_move_spec [Element α] (v : SimpleVector α) (m : Allocation α)
    (i : Nat) (value : α)
    (hs : v.size_ ≤ v.capacity_) (hc : v.capacity_ = v.slots) (hi : i ≤ v.size_) :
    ∃ w, v.Insert_move m (v.begin + i) value = .ok (w.begin + i, w) ∧
      w.size_ = v.size_ + 1 ∧
      w.live = v.live.take i ++ value :: v.live.drop i ∧ w.capacity_ = w.slots ∧
      (w.capacity_ = if v.size_ = v.capacity_ then max (v.size_ + 1) (v.capacity_ * 2)
                     else v.capacity_) ∧
      w.array_.raw_ptr_ = (if v.size_ = v.capacity_ then m.addr else v.array_.raw_ptr_) := by
  unfold SimpleVector.slots at hc
  have hidx : (v.begin + i).index = i := by simp [begin, ArrayPtr.Get, Iterator.add_def]
  have hb : v.begin.index = 0 := rfl
  have he : v.end_.index = v.size_ := by simp [end_, ArrayPtr.Get, Iterator.add_def]
  by_cases hfull : v.size_ = v.capacity_
  · obtain ⟨s1, r1, hr1, hlen1, hslen1, hk1, hs1⟩ := move_loop_spec i v.array_.cells 0
      (ArrayPtr.alloc m (max (v.size_ + 1) (v.capacity_ * 2))).cells 0 (by omega)
      (by rw [alloc_cells_length]; omega)
    rw [alloc_cells_length] at hlen1
    have hd : v.size_ + 1 - (v.size_ - i) = i + 1 := by omega
    obtain ⟨s2, r2, hr2, hlen2, hk2⟩ := move_backward_loop_spec (v.size_ - i) s1 i
      r1 (i + 1) (by omega) (by omega)
    refine ⟨{ array_ := { ArrayPtr.alloc m (max (v.size_ + 1) (v.capacity_ * 2)) with
                          cells := r2.set i value },
              size_ := v.size_ + 1, capacity_ := max (v.size_ + 1) (v.capacity_ * 2) },
      ?_, rfl, ?_, ?_, ?_, ?_⟩
    · simp only [Insert_move, in_range_begin_add v i hi, if_true, hidx, hb, he, Nat.sub_zero,
        if_pos hfull, std_move, Nat.not_lt_zero, if_false, hr1, Outcome.ok_bind,
        std_move_backward, if_neg (show ¬(v.size_ < i ∨ v.size_ + 1 < v.size_ - i) by omega),
        hd, hr2, store_ok _ _ value (show i < r2.length by omega), Outcome.pure_eq]
      simp [begin, ArrayPtr.Get, Iterator.add_def]
    · apply take_ext
      intro k
      rw [live, get_take_insert _ _ _ _ _ (by omega) hi]
      simp only [List.getElem?_set, hk2 k, hs1, hk1 k]
      split_ifs <;> first | omega | rfl | (congr 1; omega)
    · simp [slots, hlen2, hlen1]
    · simp [hfull]
    · simp [hfull, alloc_raw_ptr]
  · have hd : v.size_ + 1 - (v.size_ - i) = i + 1 := by omega
    obtain ⟨r, hr, hlen, hk⟩ := move_backward_within_loop_spec (v.size_ - i) v.array_.cells i
      (by omega)
    refine ⟨{ v with array_ := { v.array_ with cells := r.set i value },
                     size_ := v.size_ + 1 }, ?_, rfl, ?_, ?_, ?_, ?_⟩
    · simp only [Insert_move, in_range_begin_add v i hi, if_true, hidx, hb, he, Nat.sub_zero,
        if_neg hfull, std_move_backward_within, if_neg (show ¬(v.size_ < i ∨
          v.size_ + 1 < v.size_ - i) by omega), hd, hr, Outcome.ok_bind,
        store_ok _ _ value (show i < r.length by omega), Outcome.pure_eq]
      simp [begin, ArrayPtr.Get, Iterator.add_def]
    · apply take_ext
      intro k
      rw [live, get_take_insert _ _ _ _ _ (by omega) hi]
      simp only [List.getElem?_set]
      by_cases hki : i = k
      · subst hki; simp; omega
      · rw [if_neg hki, hk k (by omega)]
        split_ifs <;> first | omega | rfl
    · simp [slots, hlen, hc]
    · simp [hfull]
    · simp [hfull]
end OpLemmas

section OpLemmas2
variable {α : Type}
open SimpleVector

theorem SimpleVector.Erase_spec [Element α] (v : SimpleVector α) (i : Nat)
    (hfit : v.size_ ≤ v.slots) (hi : i < v.size_) :
    ∃ w, v.Erase (v.begin + i) = .ok (v.begin + i, w) ∧ w.size_ = v.size_ - 1 ∧
      w.live = v.live.take i ++ v.live.drop (i + 1) ∧ w.capacity_ = v.capacity_ ∧
      w.slots = v.slots ∧ w.array_.raw_ptr_ = v.array_.raw_ptr_ := by
  unfold SimpleVector.slots at hfit
  have hidx : (v.begin + i).index = i := by simp [begin, ArrayPtr.Get, Iterator.add_def]
  have he : v.end_.index = v.size_ := by simp [end_, ArrayPtr.Get, Iterator.add_def]
  have hne : v.begin + i ≠ v.end_ := by
    intro h
    have := congrArg Iterator.index h
    rw [hidx, he] at this
    omega
  obtain ⟨r, hr, hlen, hk⟩ := move_within_loop_spec (v.size_ - (i + 1)) v.array_.cells i
    (by omega)
  refine ⟨{ v with array_ := { v.array_ with cells := r }, size_ := v.size_ - 1 },
    ?_, rfl, ?_, rfl, ?_, rfl⟩
  · simp only [Erase, in_range_begin_add v i (le_of_lt hi), if_true,
      if_neg (show ¬ v.size_ = 0 by omega), if_neg hne, std_move_within, hidx, he,
      if_neg (show ¬ v.size_ < i + 1 by omega), hr, Outcome.ok_bind, Outcome.pure_eq]
  · apply take_ext
    intro k
    rw [live, get_take_erase _ _ _ _ (by omega) hi]
    simp only [hk k]
    split_ifs <;> first | omega | rfl
  · simp [slots, hlen]

theorem SimpleVector.Reserve_spec (v : SimpleVector α) (m : Allocation α) (new_capacity : Nat)
    (hfit : v.size_ ≤ v.slots) (hs : v.size_ ≤ v.capacity_) :
    ∃ w, v.Reserve m new_capacity = .ok w ∧ w.size_ = v.size_ ∧ w.live = v.live ∧
      w.capacity_ = max v.capacity_ new_capacity ∧
      (v.capacity_ < new_capacity → w.slots = new_capacity) ∧
      (new_capacity ≤ v.capacity_ → w = v) := by
  unfold SimpleVector.slots at hfit
  by_cases hgt : new_capacity > v.capacity_
  · obtain ⟨r, hr, hlen, hk⟩ := copy_loop_spec v.size_ v.array_.cells 0
      (ArrayPtr.alloc m new_capacity).cells 0 (by omega)
      (by rw [alloc_cells_length]; omega)
    rw [alloc_cells_length] at hlen
    refine ⟨{ array_ := { ArrayPtr.alloc m new_capacity with cells := r },
              size_ := v.size_, capacity_ := new_capacity }, ?_, rfl, ?_, ?_, ?_, ?_⟩
    · simp only [Reserve, if_pos hgt, std_copy, Nat.not_lt_zero, if_false, Nat.sub_zero, hr,
        Outcome.ok_bind, Outcome.pure_eq]
    · apply take_ext
      intro k
      simp only [live, List.getElem?_take, hk k]
      split_ifs <;> first | omega | rfl | (congr 1; omega)
    · simp only []
      omega
    · intro _; simp [slots, hlen]
    · intro h; omega
  · refine ⟨v, ?_, rfl, rfl, ?_, ?_, fun _ => rfl⟩
    · simp only [Reserve, if_neg hgt, Outcome.pure_eq]
    · omega
    · intro h; omega

theorem SimpleVector.Resize_shrink [Element α] (v : SimpleVector α) (m : Allocation α)
    (n : Nat) (h : n ≤ v.size_) : v.Resize m n = .ok { v with size_ := n } := by
  simp only [Resize, if_pos h, Outcome.pure_eq]

theorem SimpleVector.Resize_in_place [Element α] (v : SimpleVector α) (m : Allocation α)
    (n : Nat) (h1 : v.size_ < n) (h2 : n ≤ v.capacity_) (hc : n ≤ v.slots) :
    ∃ w, v.Resize m n = .ok w ∧ w.size_ = n ∧ w.capacity_ = v.capacity_ ∧
      w.slots = v.slots ∧
      w.live = v.live ++ List.replicate (n - v.size_) Element.init := by
  unfold SimpleVector.slots at hc
  obtain ⟨r, hr, hlen, hk⟩ := fill_loop_spec (n - v.size_) v.array_.cells v.size_
    (Element.init : α) (by omega)
  refine ⟨{ v with array_ := { v.array_ with cells := r }, size_ := n }, ?_, rfl, rfl, ?_, ?_⟩
  · simp only [Resize, if_neg (show ¬ n ≤ v.size_ by omega), if_pos h2, hr, Outcome.ok_bind,
      Outcome.pure_eq]
  · simp [slots, hlen]
  · apply take_ext
    intro k
    simp only [live, List.getElem?_append, List.getElem?_take, List.length_take, hk k,
      List.getElem?_replicate]
    rw [Nat.min_eq_left (by omega)]
    split_ifs <;> first | omega | rfl

theorem SimpleVector.Resize_realloc [Element α] (v : SimpleVector α) (m : Allocation α)
    (n : Nat) (h1 : v.size_ ≤ v.capacity_) (h2 : v.capacity_ < n) (hfit : v.size_ ≤ v.slots) :
    ∃ w, v.Resize m n = .ok w ∧ w.size_ = n ∧ w.capacity_ = max n (v.capacity_ * 2) ∧
      w.slots = w.capacity_ ∧
      w.live = v.live ++ (List.range (n - v.size_)).map (fun j => m.slots (v.size_ + j)) := by
  unfold SimpleVector.slots at hfit
  obtain ⟨s, r, hr, hlen, -, hk, -⟩ := move_loop_spec v.size_ v.array_.cells 0
    (ArrayPtr.alloc m (max n (v.capacity_ * 2))).cells 0 (by omega)
    (by rw [alloc_cells_length]; omega)
  rw [alloc_cells_length] at hlen
  refine ⟨{ array_ := { ArrayPtr.alloc m (max n (v.capacity_ * 2)) with cells := r },
            size_ := n, capacity_ := max n (v.capacity_ * 2) }, ?_, rfl, rfl, ?_, ?_⟩
  · simp only [Resize, if_neg (show ¬ n ≤ v.size_ by omega),
      if_neg (show ¬ n ≤ v.capacity_ by omega), if_pos (show n > v.capacity_ from h2),
      std_move, Nat.not_lt_zero, if_false, Nat.sub_zero, hr, Outcome.ok_bind, Outcome.pure_eq]
  · simp [slots, hlen]
  · apply take_ext
    intro k
    simp only [live, List.getElem?_append, List.getElem?_take, List.length_take, hk k,
      alloc_cells_get, List.getElem?_map]
    rw [Nat.min_eq_left (by omega)]
    split_ifs with a1 a2 a3 a4 a5 <;> first | omega | rfl | (congr 1; omega) | skip
    · rw [List.getElem?_range (by omega)]
      show some (m.slots k) = some (m.slots (v.size_ + (k - v.size_)))
      congr 2; omega
    · rw [List.getElem?_eq_none (by simp; omega)]
      rfl

end OpLemmas2

/-! ## Reading elements -/

section Reading
variable {α : Type}
open SimpleVector

theorem SimpleVector.live_get (v : SimpleVector α) (i : Nat) (hi : i < v.size_) :
    v.live[i]? = v.array_.cells[i]? := by
  rw [live, List.getElem?_take, if_pos hi]

theorem SimpleVector.length_live (v : SimpleVector α) (hfit : v.size_ ≤ v.slots) :
    v.live.length = v.size_ := by
  unfold slots at hfit
  simp [live, hfit]

theorem SimpleVector.index_of_live (v : SimpleVector α) (i : Nat) (x : α)
    (h : v.live[i]? = some x) : v.index i = .ok x := by
  have hi : i < v.size_ := by
    by_contra hn
    rw [live, List.getElem?_take, if_neg hn] at h
    exact Option.noConfusion h
  rw [live_get v i hi] at h
  simp [index, ArrayPtr.read, load, h]

theorem SimpleVector.At_of_live (v : SimpleVector α) (i : Nat) (x : α)
    (h : v.live[i]? = some x) : v.At i = .ok (x, v) ∧ v.At_const i = .ok x := by
  have hi : i < v.size_ := by
    by_contra hn
    rw [live, List.getElem?_take, if_neg hn] at h
    exact Option.noConfusion h
  rw [live_get v i hi] at h
  simp [At, At_const, ArrayPtr.read, load, h, hi]

end Reading

/-! ## Consecutive appends -/

section Appends
variable {α : Type} [Element α]
open SimpleVector

theorem SimpleVector.push_spec (v : SimpleVector α) (p : Push α)
    (hs : v.size_ ≤ v.capacity_) (hc : v.capacity_ = v.slots) :
    ∃ w, v.push p = .ok w ∧ w.size_ = v.size_ + 1 ∧ w.live = v.live ++ [p.item] ∧
      w.capacity_ = w.slots ∧
      w.capacity_ = if v.size_ < v.capacity_ then v.capacity_
                    else max (v.size_ + 1) (v.capacity_ * 2) := by
  unfold push
  split
  · exact PushBack_move_spec v p.mem p.item hs hc
  · exact PushBack_spec v p.mem p.item hs hc

theorem SimpleVector.push_all_spec (ps : List (Push α)) (v : SimpleVector α)
    (hs : v.size_ ≤ v.capacity_) (hc : v.capacity_ = v.slots) :
    ∃ w, v.push_all ps = .ok w ∧ w.size_ = v.size_ + ps.length ∧
      w.live = v.live ++ ps.map Push.item ∧ w.size_ ≤ w.capacity_ ∧
      w.capacity_ = w.slots := by
  induction ps generalizing v with
  | nil => exact ⟨v, rfl, rfl, by simp, hs, hc⟩
  | cons p ps ih =>
    obtain ⟨w, hw, hsz, hlive, hcw, hcap⟩ := push_spec v p hs hc
    have hsw : w.size_ ≤ w.capacity_ := by
      rw [hcap, hsz]
      split_ifs <;> omega
    obtain ⟨u, hu, husz, hulive, hus, huc⟩ := ih w hsw hcw
    refine ⟨u, ?_, ?_, ?_, hus, huc⟩
    · rw [push_all, hw, Outcome.ok_bind, hu]
    · rw [husz, hsz, List.length_cons]; omega
    · rw [hulive, hlive]; simp

/-- C1: for every list of pushes (N values, each pushed through the copying or
the moving overload, whatever `new` answers when a push allocates), the calls
of `PushBack` on a default-constructed vector all succeed, leave `GetSize()`
equal to N, and leave at every index `i < N` the `i`-th pushed value, read
through `operator[]` or through `At`. -/
theorem push_back_sequence_retrievable (ps : List (Push α)) :
    ∃ w, (mk_default : SimpleVector α).push_all ps = .ok w ∧ w.GetSize = ps.length ∧
      ∀ i (h : i < ps.length),
        w.index i = .ok (ps[i].item) ∧ w.At i = .ok (ps[i].item, w) := by
  obtain ⟨w, hw, hsz, hlive, -, -⟩ := push_all_spec ps (mk_default : SimpleVector α)
    (le_refl _) rfl
  refine ⟨w, hw, by simpa [GetSize, mk_default] using hsz, fun i h => ?_⟩
  have hget : w.live[i]? = some (ps[i].item) := by
    rw [hlive]
    simp [live, mk_default, ArrayPtr.null, List.getElem?_eq_getElem h]
  exact ⟨index_of_live w i _ hget, (At_of_live w i _ hget).1⟩

end Appends

/-- Witness of C1 on three pushes into a vector of `Nat`. -/
theorem push_back_sequence_retrievable_witness :
    ∃ w, (SimpleVector.mk_default : SimpleVector Nat).push_all
        [⟨false, ⟨1, fun _ => 7⟩, 10⟩, ⟨true, ⟨2, fun _ => 7⟩, 20⟩,
         ⟨false, ⟨3, fun _ => 7⟩, 30⟩] = .ok w ∧
      w.GetSize = 3 ∧ w.index 1 = .ok 20 := by
  obtain ⟨w, hw, hsz, h⟩ := push_back_sequence_retrievable
    ([⟨false, ⟨1, fun _ => 7⟩, 10⟩, ⟨true, ⟨2, fun _ => 7⟩, 20⟩,
      ⟨false, ⟨3, fun _ => 7⟩, 30⟩] : List (SimpleVector.Push Nat))
  exact ⟨w, hw, hsz, (h 1 (by decide)).1⟩

/-! ## Insert, Erase, At, Reserve -/

section IndexLemmas
variable {α : Type}
open SimpleVector

theorem SimpleVector.index_congr (v w : SimpleVector α) (i j : Nat)
    (h : w.array_.cells[i]? = v.array_.cells[j]?) : w.index i = v.index j := by
  simp [index, ArrayPtr.read, load, h]

theorem SimpleVector.index_eq_of_live_eq (v w : SimpleVector α) (h : w.live = v.live)
    (hsz : w.size_ = v.size_) (i : Nat) (hi : i < v.size_) : w.index i = v.index i := by
  apply index_congr
  rw [← live_get v i hi, ← live_get w i (by omega), h]

end IndexLemmas

section InsertErase
variable {α : Type} [Element α]
open SimpleVector

/-- C2: on a vector with `size_ ≤ capacity_` whose capacity is the number of
allocated slots, `Insert(begin() + i, value)` with `i ≤ size_` succeeds in the
copying and in the moving overload, full or not; afterwards the live elements
are the old first `i` elements, then `value`, then the old elements from index
`i` on, and the size has grown by exactly one. -/
theorem insert_places_value (v : SimpleVector α) (m : Allocation α) (i : Nat) (value : α)
    (hs : v.size_ ≤ v.capacity_) (hc : v.capacity_ = v.slots) (hi : i ≤ v.size_) :
    (∃ it w, v.Insert m (v.begin + i) value = .ok (it, w) ∧
      w.live = v.live.take i ++ value :: v.live.drop i ∧ w.size_ = v.size_ + 1) ∧
    (∃ it w, v.Insert_move m (v.begin + i) value = .ok (it, w) ∧
      w.live = v.live.take i ++ value :: v.live.drop i ∧ w.size_ = v.size_ + 1) := by
  obtain ⟨w, hw, hsz, hlive, -⟩ := Insert_spec v m i value hs hc hi
  obtain ⟨u, hu, husz, hulive, -⟩ := Insert_move_spec v m i value hs hc hi
  exact ⟨⟨_, w, hw, hlive, hsz⟩, ⟨_, u, hu, hulive, husz⟩⟩

/-- C3: on a vector whose live elements lie inside its block, `Erase(begin() + i)`
with `i < size_` succeeds; the live elements afterwards are the old ones with
index `i` deleted, the size is one less, the capacity is the same, and the
returned iterator is `begin() + i` of the vector after the call: the slot that
now holds the old element `i + 1`, or `end()` when the last element was
erased. -/
theorem erase_removes_element (v : SimpleVector α) (i : Nat)
    (hfit : v.size_ ≤ v.slots) (hi : i < v.size_) :
    ∃ w, v.Erase (v.begin + i) = .ok (w.begin + i, w) ∧
      w.live = v.live.eraseIdx i ∧ w.size_ + 1 = v.size_ ∧ w.capacity_ = v.capacity_ ∧
      (i + 1 < v.size_ → w.index i = v.index (i + 1)) ∧
      (i + 1 = v.size_ → w.begin + i = w.end_) := by
  obtain ⟨w, hw, hsz, hlive, hcap, hslots, hraw⟩ := Erase_spec v i hfit hi
  have hbegin : w.begin = v.begin := by simp [begin, ArrayPtr.Get, hraw]
  refine ⟨w, by rw [hbegin]; exact hw, ?_, by omega, hcap, fun h => ?_, fun h => ?_⟩
  · rw [hlive, List.eraseIdx_eq_take_drop_succ]
  · apply index_congr
    rw [← live_get w i (by omega), ← live_get v (i + 1) h, hlive,
      List.getElem?_append_right (by simp), List.getElem?_drop]
    congr 1
    have : (v.live.take i).length = i := by
      rw [List.length_take, length_live v hfit]; omega
    omega
  · simp only [begin, end_, ArrayPtr.Get, Iterator.add_def, hsz]
    congr 1
    omega

end InsertErase

/-- Witness of C2: insertion of 99 at index 1 of the vector 1, 2, 3 with
capacity 4. -/
theorem insert_places_value_witness :
    (∃ it w, (⟨⟨1, [1, 2, 3, 0]⟩, 3, 4⟩ : SimpleVector Nat).Insert ⟨2, fun _ => 0⟩
        ((⟨⟨1, [1, 2, 3, 0]⟩, 3, 4⟩ : SimpleVector Nat).begin + 1) 99 = .ok (it, w) ∧
      w.live = [1, 99, 2, 3] ∧ w.size_ = 4) ∧
    (∃ it w, (⟨⟨1, [1, 2, 3, 0]⟩, 3, 4⟩ : SimpleVector Nat).Insert_move ⟨2, fun _ => 0⟩
        ((⟨⟨1, [1, 2, 3, 0]⟩, 3, 4⟩ : SimpleVector Nat).begin + 1) 99 = .ok (it, w) ∧
      w.live = [1, 99, 2, 3] ∧ w.size_ = 4) :=
  insert_places_value (⟨⟨1, [1, 2, 3, 0]⟩, 3, 4⟩ : SimpleVector Nat) ⟨2, fun _ => 0⟩ 1 99
    (by decide) (by decide) (by decide)

/-- Witness of C3: erasing index 1 of the vector 1, 2, 3. -/
theorem erase_removes_element_witness :
    ∃ w, (⟨⟨1, [1, 2, 3, 0]⟩, 3, 4⟩ : SimpleVector Nat).Erase
        ((⟨⟨1, [1, 2, 3, 0]⟩, 3, 4⟩ : SimpleVector Nat).begin + 1) = .ok (w.begin + 1, w) ∧
      w.live = [1, 3] ∧ w.size_ + 1 = 3 ∧ w.capacity_ = 4 := by
  obtain ⟨w, h1, h2, h3, h4, -⟩ :=
    erase_removes_element (⟨⟨1, [1, 2, 3, 0]⟩, 3, 4⟩ : SimpleVector Nat) 1
      (by decide) (by decide)
  exact ⟨w, h1, h2, h3, h4⟩

section AtReserve
variable {α : Type}
open SimpleVector

/-- C4: `At(i)`, in the constant and in the non-constant overload, fails with
`out_of_range` exactly when `i ≥ size_`, hence for every index on an empty
vector; on a vector whose live elements lie inside its block and for `i < size_`
it gives the element at index `i` and leaves the vector as it was. -/
theorem at_checks_index (v : SimpleVector α) (i : Nat) (hfit : v.size_ ≤ v.slots) :
    (v.At i = .out_of_range ↔ i ≥ v.size_) ∧
    (v.At_const i = .out_of_range ↔ i ≥ v.size_) ∧
    (v.IsEmpty = true → v.At 0 = .out_of_range ∧ v.At i = .out_of_range) ∧
    (i < v.size_ → ∃ x, v.live[i]? = some x ∧ v.index i = .ok x ∧
      v.At i = .ok (x, v) ∧ v.At_const i = .ok x) := by
  have hsome : i < v.size_ → ∃ x, v.live[i]? = some x := by
    intro hi
    have hlt : i < v.live.length := by rw [length_live v hfit]; exact hi
    exact ⟨v.live[i], List.getElem?_eq_getElem hlt⟩
  refine ⟨⟨fun h => ?_, fun h => by simp [At, h]⟩, ⟨fun h => ?_, fun h => by simp [At_const, h]⟩,
    fun he => ?_, fun hi => ?_⟩
  · by_contra hn
    obtain ⟨x, hx⟩ := hsome (by omega)
    rw [(At_of_live v i x hx).1] at h
    exact Outcome.noConfusion h
  · by_contra hn
    obtain ⟨x, hx⟩ := hsome (by omega)
    rw [(At_of_live v i x hx).2] at h
    exact Outcome.noConfusion h
  · have h0 : v.size_ = 0 := by simpa [SimpleVector.IsEmpty] using he
    simp [At, h0]
  · obtain ⟨x, hx⟩ := hsome hi
    exact ⟨x, hx, index_of_live v i x hx, (At_of_live v i x hx).1, (At_of_live v i x hx).2⟩

/-- C5: on a vector whose live elements lie inside its block and with
`size_ ≤ capacity_`, `Reserve(c)` succeeds; afterwards the capacity is
`max (old capacity) c`, so never smaller than before and exactly `c` when `c`
exceeded the old capacity, the size is the same, and every element at an index
below the size has the value it had. -/
theorem reserve_keeps_elements (v : SimpleVector α) (m : Allocation α) (c : Nat)
    (hfit : v.size_ ≤ v.slots) (hs : v.size_ ≤ v.capacity_) :
    ∃ w, v.Reserve m c = .ok w ∧ w.GetCapacity = max v.GetCapacity c ∧
      v.GetCapacity ≤ w.GetCapacity ∧ (v.GetCapacity < c → w.GetCapacity = c) ∧
      w.GetSize = v.GetSize ∧ w.live = v.live ∧
      ∀ i, i < v.GetSize → w.index i = v.index i := by
  obtain ⟨w, hw, hsz, hlive, hcap, -, -⟩ := Reserve_spec v m c hfit hs
  simp only [GetCapacity, GetSize]
  refine ⟨w, hw, hcap, by omega, fun h => by omega, hsz, hlive, fun i hi => ?_⟩
  exact index_eq_of_live_eq v w hlive hsz i hi

end AtReserve

/-- Witness of C4: index 1 of the vector 1, 2, 3. -/
theorem at_checks_index_witness :
    ((⟨⟨1, [1, 2, 3, 0]⟩, 3, 4⟩ : SimpleVector Nat).At 1 = .out_of_range ↔ 1 ≥ 3) ∧
    ∃ x, (⟨⟨1, [1, 2, 3, 0]⟩, 3, 4⟩ : SimpleVector Nat).live[1]? = some x ∧
      (⟨⟨1, [1, 2, 3, 0]⟩, 3, 4⟩ : SimpleVector Nat).At 1
        = .ok (x, ⟨⟨1, [1, 2, 3, 0]⟩, 3, 4⟩) := by
  obtain ⟨h1, -, -, h4⟩ :=
    at_checks_index (⟨⟨1, [1, 2, 3, 0]⟩, 3, 4⟩ : SimpleVector Nat) 1 (by decide)
  obtain ⟨x, hx, -, hat, -⟩ := h4 (by decide)
  exact ⟨h1, x, hx, hat⟩

/-- Witness of C5: `Reserve(10)` on the vector 1, 2, 3 with capacity 4. -/
theorem reserve_keeps_elements_witness :
    ∃ w, (⟨⟨1, [1, 2, 3, 0]⟩, 3, 4⟩ : SimpleVector Nat).Reserve ⟨2, fun _ => 7⟩ 10 = .ok w ∧
      w.GetCapacity = 10 ∧ w.GetSize = 3 ∧ w.live = [1, 2, 3] := by
  obtain ⟨w, h1, h2, -, -, h5, h6, -⟩ :=
    reserve_keeps_elements (⟨⟨1, [1, 2, 3, 0]⟩, 3, 4⟩ : SimpleVector Nat) ⟨2, fun _ => 7⟩ 10
      (by decide) (by decide)
  exact ⟨w, h1, h2, h5, h6⟩

/-! ## Size and capacity after an operation that returned -/

section SizeCapacity
variable {α β : Type}
open SimpleVector

theorem Outcome.bind_eq_ok (x : Outcome α) (f : α → Outcome β) (b : β) :
    (x >>= f) = .ok b ↔ ∃ a, x = .ok a ∧ f a = .ok b := by
  cases x with
  | ok a => simp
  | out_of_range => exact ⟨fun h => Outcome.noConfusion h, fun ⟨a, h, _⟩ => Outcome.noConfusion h⟩
  | assert_fail => exact ⟨fun h => Outcome.noConfusion h, fun ⟨a, h, _⟩ => Outcome.noConfusion h⟩
  | undefined => exact ⟨fun h => Outcome.noConfusion h, fun ⟨a, h, _⟩ => Outcome.noConfusion h⟩

theorem SimpleVector.PushBack_size_capacity (v w : SimpleVector α) (m : Allocation α) (x : α)
    (h : v.PushBack m x = .ok w) :
    w.size_ = v.size_ + 1 ∧
    w.capacity_ = if v.size_ < v.capacity_ then v.capacity_
                  else max (v.size_ + 1) (v.capacity_ * 2) := by
  unfold PushBack at h
  split_ifs at h with hlt
  · simp only [Outcome.bind_eq_ok, Outcome.pure_eq, Outcome.ok.injEq] at h
    obtain ⟨a, -, rfl⟩ := h
    simp [hlt]
  · simp only [Outcome.bind_eq_ok, Outcome.pure_eq, Outcome.ok.injEq] at h
    obtain ⟨a, -, b, -, rfl⟩ := h
    simp [hlt]

theorem SimpleVector.PushBack_move_size_capacity [Element α] (v w : SimpleVector α)
    (m : Allocation α) (x : α) (h : v.PushBack_move m x = .ok w) :
    w.size_ = v.size_ + 1 ∧
    w.capacity_ = if v.size_ < v.capacity_ then v.capacity_
                  else max (v.size_ + 1) (v.capacity_ * 2) := by
  unfold PushBack_move at h
  split_ifs at h with hlt
  · simp only [Outcome.bind_eq_ok, Outcome.pure_eq, Outcome.ok.injEq] at h
    obtain ⟨a, -, rfl⟩ := h
    simp [hlt]
  · simp only [Outcome.bind_eq_ok, Outcome.pure_eq, Outcome.ok.injEq, Prod.exists] at h
    obtain ⟨a, b, -, c, -, rfl⟩ := h
    simp [hlt]

theorem SimpleVector.Insert_size_capacity (v w : SimpleVector α) (m : Allocation α)
    (pos it : Iterator) (x : α) (h : v.Insert m pos x = .ok (it, w)) :
    w.size_ = v.size_ + 1 ∧
    w.capacity_ = if v.size_ = v.capacity_ then max (v.size_ + 1) (v.capacity_ * 2)
                  else v.capacity_ := by
  unfold Insert at h
  split_ifs at h with hr hfull
  · simp only [Outcome.bind_eq_ok, Outcome.pure_eq, Outcome.ok.injEq, Prod.mk.injEq] at h
    obtain ⟨a, -, b, -, c, -, -, rfl⟩ := h
    simp [hfull]
  · simp only [Outcome.bind_eq_ok, Outcome.pure_eq, Outcome.ok.injEq, Prod.mk.injEq] at h
    obtain ⟨a, -, b, -, -, rfl⟩ := h
    simp [hfull]

theorem SimpleVector.Insert_move_size_capacity [Element α] (v w : SimpleVector α)
    (m : Allocation α) (pos it : Iterator) (x : α) (h : v.Insert_move m pos x = .ok (it, w)) :
    w.size_ = v.size_ + 1 ∧
    w.capacity_ = if v.size_ = v.capacity_ then max (v.size_ + 1) (v.capacity_ * 2)
                  else v.capacity_ := by
  unfold Insert_move at h
  split_ifs at h with hr hfull
  · simp only [Outcome.bind_eq_ok, Outcome.pure_eq, Outcome.ok.injEq, Prod.mk.injEq,
      Prod.exists] at h
    obtain ⟨a, b, -, c, d, -, e, -, -, rfl⟩ := h
    simp [hfull]
  · simp only [Outcome.bind_eq_ok, Outcome.pure_eq, Outcome.ok.injEq, Prod.mk.injEq] at h
    obtain ⟨a, -, b, -, -, rfl⟩ := h
    simp [hfull]

theorem SimpleVector.Erase_size_capacity [Element α] (v w : SimpleVector α)
    (pos it : Iterator) (h : v.Erase pos = .ok (it, w)) :
    w.size_ = v.size_ - 1 ∧ w.capacity_ = v.capacity_ := by
  unfold Erase at h
  dsimp only at h
  split_ifs at h with hr h0 he
  · simp only [Outcome.pure_eq, Outcome.ok.injEq, Prod.mk.injEq] at h
    obtain ⟨-, rfl⟩ := h
    omega
  · simp only [Outcome.pure_eq, Outcome.ok.injEq, Prod.mk.injEq] at h
    obtain ⟨-, rfl⟩ := h
    simp
  · simp only [Outcome.bind_eq_ok, Outcome.pure_eq, Outcome.ok.injEq, Prod.mk.injEq] at h
    obtain ⟨a, -, -, rfl⟩ := h
    simp

theorem SimpleVector.Resize_size_capacity [Element α] (v w : SimpleVector α)
    (m : Allocation α) (n : Nat) (h : v.Resize m n = .ok w) :
    w.size_ = n ∧
    w.capacity_ = if n ≤ v.size_ ∨ n ≤ v.capacity_ then v.capacity_
                  else max n (v.capacity_ * 2) := by
  unfold Resize at h
  split_ifs at h with h1 h2 h3
  · simp only [Outcome.pure_eq, Outcome.ok.injEq] at h
    subst h
    simp [h1]
  · simp only [Outcome.bind_eq_ok, Outcome.pure_eq, Outcome.ok.injEq] at h
    obtain ⟨a, -, rfl⟩ := h
    simp [h2]
  · simp only [Outcome.bind_eq_ok, Outcome.pure_eq, Outcome.ok.injEq, Prod.exists] at h
    obtain ⟨a, b, -, rfl⟩ := h
    simp [h1, h2]
  · omega

theorem SimpleVector.Reserve_size_capacity (v w : SimpleVector α) (m : Allocation α)
    (n : Nat) (h : v.Reserve m n = .ok w) :
    w.size_ = v.size_ ∧ w.capacity_ = max v.capacity_ n := by
  unfold Reserve at h
  split_ifs at h with h1
  · simp only [Outcome.bind_eq_ok, Outcome.pure_eq, Outcome.ok.injEq] at h
    obtain ⟨a, -, rfl⟩ := h
    simp only [true_and]
    omega
  · simp only [Outcome.pure_eq, Outcome.ok.injEq] at h
    subst h
    simp only [true_and]
    omega

theorem SimpleVector.mk_size_size_capacity [Element α] (w : SimpleVector α)
    (m : Allocation α) (n : Nat) (h : mk_size m n = .ok w) :
    w.size_ = n ∧ w.capacity_ = n := by
  unfold mk_size at h
  simp only [Outcome.bind_eq_ok, Outcome.pure_eq, Outcome.ok.injEq] at h
  obtain ⟨a, -, rfl⟩ := h
  simp

theorem SimpleVector.mk_fill_size_capacity (w : SimpleVector α)
    (m : Allocation α) (n : Nat) (x : α) (h : mk_fill m n x = .ok w) :
    w.size_ = n ∧ w.capacity_ = n := by
  unfold mk_fill at h
  simp only [Outcome.bind_eq_ok, Outcome.pure_eq, Outcome.ok.injEq] at h
  obtain ⟨a, -, rfl⟩ := h
  simp

theorem SimpleVector.mk_init_size_capacity (w : SimpleVector α)
    (m : Allocation α) (l : List α) (h : mk_init m l = .ok w) :
    w.size_ = l.length ∧ w.capacity_ = l.length := by
  unfold mk_init at h
  simp only [Outcome.bind_eq_ok, Outcome.pure_eq, Outcome.ok.injEq] at h
  obtain ⟨a, -, rfl⟩ := h
  simp

theorem SimpleVector.mk_copy_size_capacity (other w o : SimpleVector α)
    (m : Allocation α) (h : mk_copy m other = .ok (w, o)) :
    w.size_ = other.size_ ∧ w.capacity_ = other.capacity_ ∧ o = other := by
  unfold mk_copy at h
  split_ifs at h with h1
  · simp only [Outcome.bind_eq_ok, Outcome.pure_eq, Outcome.ok.injEq, Prod.mk.injEq] at h
    obtain ⟨a, -, rfl, rfl⟩ := h
    simp
  · simp only [Outcome.pure_eq, Outcome.ok.injEq, Prod.mk.injEq] at h
    obtain ⟨rfl, rfl⟩ := h
    simp

theorem SimpleVector.assign_size_capacity [Element α] (v rhs w o : SimpleVector α)
    (m : Allocation α) (same_object : Bool) (h : v.assign m rhs same_object = .ok (w, o)) :
    (w.size_ = v.size_ ∧ w.capacity_ = v.capacity_ ∧ same_object = true) ∨
    (w.size_ = 0 ∧ w.capacity_ = v.capacity_ ∧ rhs.size_ = 0 ∧ o = rhs) ∨
    (w.size_ = rhs.size_ ∧ w.capacity_ = rhs.capacity_ ∧ o = rhs) := by
  unfold assign at h
  split_ifs at h with h1 h2
  · simp only [Outcome.pure_eq, Outcome.ok.injEq, Prod.mk.injEq] at h
    obtain ⟨rfl, -⟩ := h
    exact Or.inl ⟨rfl, rfl, h1⟩
  · simp only [Outcome.pure_eq, Outcome.ok.injEq, Prod.mk.injEq] at h
    obtain ⟨rfl, rfl⟩ := h
    exact Or.inr (Or.inl ⟨rfl, rfl, by simpa [SimpleVector.IsEmpty] using h2, rfl⟩)
  · simp only [Outcome.bind_eq_ok, Outcome.pure_eq, Outcome.ok.injEq, Prod.mk.injEq] at h
    obtain ⟨t, ht, a, -, rfl, rfl⟩ := h
    obtain ⟨hts, -⟩ := mk_size_size_capacity t m rhs.size_ ht
    exact Or.inr (Or.inr ⟨by simp [swap, hts], by simp [swap], rfl⟩)

theorem SimpleVector.assign_move_size_capacity [Element α] (v rhs w o : SimpleVector α)
    (m : Allocation α) (same_object : Bool)
    (h : v.assign_move m rhs same_object = .ok (w, o)) :
    (w.size_ = v.size_ ∧ w.capacity_ = v.capacity_ ∧ same_object = true) ∨
    (w.size_ = 0 ∧ w.capacity_ = v.capacity_ ∧ rhs.size_ = 0 ∧ o = rhs) ∨
    (w.size_ = rhs.size_ ∧ w.capacity_ = rhs.capacity_ ∧ o = rhs) := by
  unfold assign_move at h
  split_ifs at h with h1 h2
  · simp only [Outcome.pure_eq, Outcome.ok.injEq, Prod.mk.injEq] at h
    obtain ⟨rfl, -⟩ := h
    exact Or.inl ⟨rfl, rfl, h1⟩
  · simp only [Outcome.pure_eq, Outcome.ok.injEq, Prod.mk.injEq] at h
    obtain ⟨rfl, rfl⟩ := h
    exact Or.inr (Or.inl ⟨rfl, rfl, by simpa [SimpleVector.IsEmpty] using h2, rfl⟩)
  · simp only [Outcome.bind_eq_ok, Outcome.pure_eq, Outcome.ok.injEq, Prod.mk.injEq] at h
    obtain ⟨t, ht, a, -, rfl, rfl⟩ := h
    obtain ⟨hts, -⟩ := mk_size_size_capacity t m rhs.size_ ht
    exact Or.inr (Or.inr ⟨by simp [swap, hts], by simp [swap], rfl⟩)

end SizeCapacity

/-! ## The size never exceeds the capacity -/

section Invariant
variable {α : Type} [Element α]
open SimpleVector

/-- C7: `size_ ≤ capacity_` is an invariant.  Every constructor that completes
yields a vector with `size_ ≤ capacity_` (the copy and the move constructor when
their argument has it), and every public mutating operation that completes on
vectors with `size_ ≤ capacity_` leaves `size_ ≤ capacity_` in every vector it
touches. -/
theorem size_le_capacity_invariant (v other : SimpleVector α)
    (hv : v.size_le_capacity) (ho : other.size_le_capacity) :
    (mk_default : SimpleVector α).size_le_capacity ∧
    (∀ m n (w : SimpleVector α), mk_size m n = .ok w → w.size_le_capacity) ∧
    (∀ m n (x : α) (w : SimpleVector α), mk_fill m n x = .ok w → w.size_le_capacity) ∧
    (∀ m (l : List α) (w : SimpleVector α), mk_init m l = .ok w → w.size_le_capacity) ∧
    (∀ m w o, mk_copy m other = .ok (w, o) → w.size_le_capacity ∧ o.size_le_capacity) ∧
    ((mk_move other).1.size_le_capacity ∧ (mk_move other).2.size_le_capacity) ∧
    (∀ p, (mk_reserve p : SimpleVector α).size_le_capacity) ∧
    (∀ m x w, v.PushBack m x = .ok w → w.size_le_capacity) ∧
    (∀ m x w, v.PushBack_move m x = .ok w → w.size_le_capacity) ∧
    v.PopBack.size_le_capacity ∧
    (∀ m pos x it w, v.Insert m pos x = .ok (it, w) → w.size_le_capacity) ∧
    (∀ m pos x it w, v.Insert_move m pos x = .ok (it, w) → w.size_le_capacity) ∧
    (∀ pos it w, v.Erase pos = .ok (it, w) → w.size_le_capacity) ∧
    (∀ m n w, v.Resize m n = .ok w → w.size_le_capacity) ∧
    (∀ m n w, v.Reserve m n = .ok w → w.size_le_capacity) ∧
    v.Clear.size_le_capacity ∧
    ((v.swap other).1.size_le_capacity ∧ (v.swap other).2.size_le_capacity) ∧
    (∀ m same w o, v.assign m other same = .ok (w, o) →
      w.size_le_capacity ∧ o.size_le_capacity) ∧
    (∀ m same w o, v.assign_move m other same = .ok (w, o) →
      w.size_le_capacity ∧ o.size_le_capacity) := by
  simp only [size_le_capacity, GetSize, GetCapacity] at *
  refine ⟨le_refl _, ?_, ?_, ?_, ?_, ⟨ho, le_refl _⟩, fun p => Nat.zero_le _, ?_, ?_, ?_, ?_,
    ?_, ?_, ?_, ?_, Nat.zero_le _, ⟨ho, hv⟩, ?_, ?_⟩
  · intro m n w h
    obtain ⟨h1, h2⟩ := mk_size_size_capacity w m n h
    omega
  · intro m n x w h
    obtain ⟨h1, h2⟩ := mk_fill_size_capacity w m n x h
    omega
  · intro m l w h
    obtain ⟨h1, h2⟩ := mk_init_size_capacity w m l h
    omega
  · intro m w o h
    obtain ⟨h1, h2, rfl⟩ := mk_copy_size_capacity other w o m h
    exact ⟨by omega, ho⟩
  · intro m x w h
    obtain ⟨h1, h2⟩ := PushBack_size_capacity v w m x h
    rw [h1, h2]
    split_ifs <;> omega
  · intro m x w h
    obtain ⟨h1, h2⟩ := PushBack_move_size_capacity v w m x h
    rw [h1, h2]
    split_ifs <;> omega
  · unfold PopBack
    split_ifs
    · show v.size_ - 1 ≤ v.capacity_
      omega
    · exact hv
  · intro m pos x it w h
    obtain ⟨h1, h2⟩ := Insert_size_capacity v w m pos it x h
    rw [h1, h2]
    split_ifs <;> omega
  · intro m pos x it w h
    obtain ⟨h1, h2⟩ := Insert_move_size_capacity v w m pos it x h
    rw [h1, h2]
    split_ifs <;> omega
  · intro pos it w h
    obtain ⟨h1, h2⟩ := Erase_size_capacity v w pos it h
    omega
  · intro m n w h
    obtain ⟨h1, h2⟩ := Resize_size_capacity v w m n h
    rw [h1, h2]
    split_ifs <;> omega
  · intro m n w h
    obtain ⟨h1, h2⟩ := Reserve_size_capacity v w m n h
    omega
  · intro m same w o h
    rcases assign_size_capacity v other w o m same h with ⟨h1, h2, h3⟩ | ⟨h1, h2, h3, rfl⟩ |
      ⟨h1, h2, rfl⟩
    · subst h3
      simp only [assign, if_true, Outcome.pure_eq, Outcome.ok.injEq, Prod.mk.injEq] at h
      obtain ⟨rfl, rfl⟩ := h
      exact ⟨hv, hv⟩
    · exact ⟨by omega, ho⟩
    · exact ⟨by omega, ho⟩
  · intro m same w o h
    rcases assign_move_size_capacity v other w o m same h with ⟨h1, h2, h3⟩ |
      ⟨h1, h2, h3, rfl⟩ | ⟨h1, h2, rfl⟩
    · subst h3
      simp only [assign_move, if_true, Outcome.pure_eq, Outcome.ok.injEq, Prod.mk.injEq] at h
      obtain ⟨rfl, rfl⟩ := h
      exact ⟨hv, hv⟩
    · exact ⟨by omega, ho⟩
    · exact ⟨by omega, ho⟩

end Invariant

/-- Witness of C7: a push into the full vector 1, 2, 3 and an assignment from
the vector 5. -/
theorem size_le_capacity_invariant_witness :
    (⟨⟨2, [1, 2, 3, 9, 7, 7]⟩, 4, 6⟩ : SimpleVector Nat).size_le_capacity ∧
    (⟨⟨2, [5]⟩, 1, 1⟩ : SimpleVector Nat).size_le_capacity := by
  obtain ⟨-, -, -, -, -, -, -, hpush, -, -, -, -, -, -, -, -, -, hassign, -⟩ :=
    size_le_capacity_invariant (⟨⟨1, [1, 2, 3]⟩, 3, 3⟩ : SimpleVector Nat)
      (⟨⟨3, [5]⟩, 1, 1⟩ : SimpleVector Nat) (by decide) (by decide)
  exact ⟨hpush ⟨2, fun _ => 7⟩ 9 _ rfl, (hassign ⟨2, fun _ => 7⟩ false _ _ rfl).1⟩

/-! ## Resize into a new block, and the capacity recorded by a copy -/

/-- C6 (failing input): `Resize(3)` on a default-constructed vector of `Nat`
(capacity 0) takes the reallocating branch; when the block that `new` hands out
holds 7 in every slot the three new elements are 7, 7, 7 and not `Type()`,
which is 0: that branch never writes the slots from the old size on.  The
in-place branch on the same request writes `Type()` into them. -/
theorem resize_realloc_leaves_block_content :
    (SimpleVector.mk_default : SimpleVector Nat).Resize ⟨1, fun _ => 7⟩ 3
      = .ok ⟨⟨1, [7, 7, 7]⟩, 3, 3⟩ ∧
    (⟨⟨1, [7, 7, 7]⟩, 3, 3⟩ : SimpleVector Nat).live ≠ List.replicate 3 Element.init ∧
    (⟨⟨1, [7, 7, 7]⟩, 0, 3⟩ : SimpleVector Nat).Resize ⟨2, fun _ => 7⟩ 3
      = .ok ⟨⟨1, [0, 0, 0]⟩, 3, 3⟩ := by
  refine ⟨rfl, by decide, rfl⟩

/-- C8 (failing input): the vector built from the list 1, 2, 3 and pushed 4 has
size 4 and capacity 6 in a block of 6 slots; the vector copy-constructed from
it reports capacity 6 while its block has 4 slots, and `PushBack` on the copy
writes slot 4 of that block, which is outside of it. -/
theorem copy_capacity_exceeds_block :
    ∃ v c : SimpleVector Nat,
      (do let v0 ← SimpleVector.mk_init ⟨1, fun _ => 0⟩ [1, 2, 3]
          v0.PushBack ⟨2, fun _ => 0⟩ 4) = .ok v ∧
      v.GetCapacity = 6 ∧ v.slots = 6 ∧
      SimpleVector.mk_copy ⟨3, fun _ => 0⟩ v = .ok (c, v) ∧
      c.GetSize = 4 ∧ c.GetCapacity = 6 ∧ c.slots = 4 ∧
      c.PushBack ⟨4, fun _ => 0⟩ 5 = .undefined :=
  ⟨⟨⟨2, [1, 2, 3, 4, 0, 0]⟩, 4, 6⟩, ⟨⟨3, [1, 2, 3, 4]⟩, 4, 6⟩, rfl, rfl, rfl, rfl, rfl, rfl,
    rfl, rfl⟩

/-! ## Copy and move construction -/

section CopyMove
variable {α : Type}
open SimpleVector

theorem SimpleVector.eq_true_of_live_eq [DecidableEq α] (v c : SimpleVector α)
    (hfit : v.size_ ≤ v.slots) (hsz : c.size_ = v.size_) (h : c.live = v.live) :
    eq v c = .ok true := by
  unfold slots at hfit
  have hb : v.begin.index = 0 := rfl
  have hcb : c.begin.index = 0 := rfl
  have he : v.end_.index = v.size_ := by simp [end_, ArrayPtr.Get, Iterator.add_def]
  rw [eq, std_equal, hb, hcb, he, if_neg (by omega), Nat.sub_zero]
  apply equal_loop_true _ _ _ _ _ (by omega)
  intro t ht
  rw [Nat.zero_add, ← live_get v t ht, ← live_get c t (by omega), h]

theorem SimpleVector.mk_copy_spec (v : SimpleVector α) (m : Allocation α)
    (hfit : v.size_ ≤ v.slots) (hnull : v.array_.raw_ptr_ = 0 → v.array_.cells = []) :
    ∃ c, mk_copy m v = .ok (c, v) ∧ c.size_ = v.size_ ∧ c.capacity_ = v.capacity_ ∧
      c.live = v.live ∧ c.slots = v.size_ ∧
      (c.array_.raw_ptr_ = 0 ∨ c.array_.raw_ptr_ = m.addr) := by
  unfold slots at hfit
  by_cases hb : v.begin ≠ nullptr
  · obtain ⟨r, hr, hlen, hk⟩ := copy_loop_spec v.size_ v.array_.cells 0
      (ArrayPtr.alloc m v.size_).cells 0 (by omega) (by rw [alloc_cells_length]; omega)
    rw [alloc_cells_length] at hlen
    refine ⟨{ array_ := { ArrayPtr.alloc m v.size_ with cells := r }, size_ := v.size_,
              capacity_ := v.capacity_ }, ?_, rfl, rfl, ?_, ?_, ?_⟩
    · simp only [mk_copy, if_pos hb, std_copy, Nat.not_lt_zero, if_false, Nat.sub_zero, hr,
        Outcome.ok_bind, Outcome.pure_eq]
    · apply take_ext
      intro k
      simp only [live, List.getElem?_take, hk k]
      split_ifs <;> first | omega | rfl | (congr 1; omega)
    · simp [slots, hlen]
    · by_cases h0 : v.size_ = 0
      · left; simp [ArrayPtr.alloc, h0, ArrayPtr.null]
      · right; simp [ArrayPtr.alloc, h0]
  · have hraw : v.array_.raw_ptr_ = 0 := by
      by_contra hne
      apply hb
      intro h
      exact hne (congrArg Iterator.base h)
    have hcells := hnull hraw
    have hsz : v.size_ = 0 := by
      rw [hcells] at hfit
      simpa using hfit
    refine ⟨{ array_ := ArrayPtr.null, size_ := v.size_, capacity_ := v.capacity_ },
      ?_, rfl, rfl, ?_, ?_, Or.inl rfl⟩
    · simp only [mk_copy, if_neg hb, Outcome.pure_eq]
    · simp [live, hsz]
    · simp [slots, ArrayPtr.null, hsz]

/-- What copy construction does establish: for a vector `v` whose live elements
lie inside its block (and whose block pointer is null only when there is no
block), and for a fresh block handed out by `new`, the copy constructor succeeds
with a vector `c` that has the size of `v`, holds at every index below that size
the value `v` holds, and satisfies `v == c`; `v` is as it was; and `c` owns no
block of `v`.  What a later mutation of `c` does is not covered here. -/
theorem copy_constructed_equal [DecidableEq α] (v : SimpleVector α) (m : Allocation α)
    (hfit : v.size_ ≤ v.slots) (hnull : v.array_.raw_ptr_ = 0 → v.array_.cells = [])
    (hfresh : m.addr ≠ v.array_.raw_ptr_) :
    ∃ c v_after, mk_copy m v = .ok (c, v_after) ∧ c.GetSize = v.GetSize ∧
      c.live = v.live ∧ (∀ i, i < v.GetSize → c.index i = v.index i) ∧
      eq v c = .ok true ∧ v_after = v ∧
      (c.array_.raw_ptr_ ≠ 0 → c.array_.raw_ptr_ ≠ v.array_.raw_ptr_) := by
  obtain ⟨c, hc, hsz, -, hlive, -, hraw⟩ := mk_copy_spec v m hfit hnull
  refine ⟨c, v, hc, hsz, hlive, fun i hi => index_eq_of_live_eq v c hlive hsz i hi,
    eq_true_of_live_eq v c hfit hsz hlive, rfl, fun hne => ?_⟩
  rcases hraw with h | h
  · exact absurd h hne
  · rw [h]; exact hfresh

/-- C10: the move constructor leaves the new vector with the size, the capacity
and the block of the source, hence with exactly its elements in order, and
leaves the source with size 0, capacity 0 and no block. -/
theorem move_constructed_takes_all (v : SimpleVector α) :
    (mk_move v).1.GetSize = v.GetSize ∧ (mk_move v).1.GetCapacity = v.GetCapacity ∧
    (mk_move v).1.live = v.live ∧ (mk_move v).1.array_ = v.array_ ∧
    (mk_move v).2.GetSize = 0 ∧ (mk_move v).2.GetCapacity = 0 ∧
    (mk_move v).2.IsEmpty = true ∧ (mk_move v).2.live = [] ∧
    (mk_move v).2.array_ = ArrayPtr.null :=
  ⟨rfl, rfl, rfl, rfl, rfl, rfl, rfl, rfl, rfl⟩

end CopyMove

/-- An instance of `copy_constructed_equal`: copy of the vector 1, 2, 3 with
capacity 4. -/
theorem copy_constructed_equal_witness :
    ∃ c v_after, SimpleVector.mk_copy ⟨2, fun _ => 7⟩
        (⟨⟨1, [1, 2, 3, 0]⟩, 3, 4⟩ : SimpleVector Nat) = .ok (c, v_after) ∧
      c.GetSize = 3 ∧ c.live = [1, 2, 3] ∧
      SimpleVector.eq (⟨⟨1, [1, 2, 3, 0]⟩, 3, 4⟩ : SimpleVector Nat) c = .ok true ∧
      v_after = ⟨⟨1, [1, 2, 3, 0]⟩, 3, 4⟩ := by
  obtain ⟨c, v_after, h1, h2, h3, -, h5, h6, -⟩ :=
    copy_constructed_equal (⟨⟨1, [1, 2, 3, 0]⟩, 3, 4⟩ : SimpleVector Nat) ⟨2, fun _ => 7⟩
      (by decide) (by decide) (by decide)
  exact ⟨c, v_after, h1, h2, h3, h5, h6⟩

/-! ## What a loop that completed has touched -/

section Completed
variable {α : Type}

theorem store_eq_ok {l r : List α} {i : Nat} {x : α} (h : store l i x = .ok r) :
    i < l.length ∧ r.length = l.length := by
  unfold store at h
  split_ifs at h with hi
  simp only [Outcome.ok.injEq] at h
  subst h
  exact ⟨hi, by simp⟩

theorem copy_loop_completed {n : Nat} {src dst r : List α} {first d : Nat}
    (h : copy_loop n src first dst d = .ok r) :
    r.length = dst.length ∧ (n ≠ 0 → d + n ≤ dst.length) := by
  induction n generalizing first dst d with
  | zero =>
    simp only [copy_loop, Outcome.ok.injEq] at h
    subst h
    exact ⟨rfl, fun hn => absurd rfl hn⟩
  | succ n ih =>
    simp only [copy_loop, Outcome.bind_eq_ok] at h
    obtain ⟨x, -, dst1, hst, hrec⟩ := h
    obtain ⟨hd, hl⟩ := store_eq_ok hst
    obtain ⟨h1, h2⟩ := ih hrec
    refine ⟨by omega, fun _ => ?_⟩
    by_cases hn : n = 0
    · omega
    · have := h2 hn
      omega

theorem fill_loop_completed {n : Nat} {l r : List α} {first : Nat} {x : α}
    (h : fill_loop n l first x = .ok r) :
    r.length = l.length ∧ (n ≠ 0 → first + n ≤ l.length) := by
  induction n generalizing l first with
  | zero =>
    simp only [fill_loop, Outcome.ok.injEq] at h
    subst h
    exact ⟨rfl, fun hn => absurd rfl hn⟩
  | succ n ih =>
    simp only [fill_loop, Outcome.bind_eq_ok] at h
    obtain ⟨l1, hst, hrec⟩ := h
    obtain ⟨hd, hl⟩ := store_eq_ok hst
    obtain ⟨h1, h2⟩ := ih hrec
    refine ⟨by omega, fun _ => ?_⟩
    by_cases hn : n = 0
    · omega
    · have := h2 hn
      omega

theorem move_loop_completed [Element α] {n : Nat} {src dst s r : List α} {first d : Nat}
    (h : move_loop n src first dst d = .ok (s, r)) :
    r.length = dst.length ∧ s.length = src.length := by
  induction n generalizing src first dst d with
  | zero =>
    simp only [move_loop, Outcome.ok.injEq, Prod.mk.injEq] at h
    obtain ⟨rfl, rfl⟩ := h
    exact ⟨rfl, rfl⟩
  | succ n ih =>
    simp only [move_loop, Outcome.bind_eq_ok] at h
    obtain ⟨x, -, dst1, hst, src1, hst2, hrec⟩ := h
    obtain ⟨-, hl⟩ := store_eq_ok hst
    obtain ⟨-, hl2⟩ := store_eq_ok hst2
    obtain ⟨h1, h2⟩ := ih hrec
    exact ⟨by omega, by omega⟩

theorem move_backward_loop_completed [Element α] {n : Nat} {src dst s r : List α}
    {first d : Nat} (h : move_backward_loop n src first dst d = .ok (s, r)) :
    r.length = dst.length := by
  induction n generalizing src dst with
  | zero =>
    simp only [move_backward_loop, Outcome.ok.injEq, Prod.mk.injEq] at h
    obtain ⟨rfl, rfl⟩ := h
    rfl
  | succ n ih =>
    simp only [move_backward_loop, Outcome.bind_eq_ok] at h
    obtain ⟨x, -, dst1, hst, src1, hst2, hrec⟩ := h
    obtain ⟨-, hl⟩ := store_eq_ok hst
    have := ih hrec
    omega

theorem copy_backward_within_loop_completed {n : Nat} {l r : List α} {first d : Nat}
    (h : copy_backward_within_loop n l first d = .ok r) :
    r.length = l.length ∧ (n ≠ 0 → d + n ≤ l.length) := by
  induction n generalizing l with
  | zero =>
    simp only [copy_backward_within_loop, Outcome.ok.injEq] at h
    subst h
    exact ⟨rfl, fun hn => absurd rfl hn⟩
  | succ n ih =>
    simp only [copy_backward_within_loop, Outcome.bind_eq_ok] at h
    obtain ⟨x, -, l1, hst, hrec⟩ := h
    obtain ⟨hd, hl⟩ := store_eq_ok hst
    obtain ⟨h1, -⟩ := ih hrec
    exact ⟨by omega, fun _ => by omega⟩

theorem move_backward_within_loop_completed [Element α] {n : Nat} {l r : List α}
    {first d : Nat} (h : move_backward_within_loop n l first d = .ok r) :
    r.length = l.length ∧ (n ≠ 0 → d + n ≤ l.length) := by
  induction n generalizing l with
  | zero =>
    simp only [move_backward_within_loop, Outcome.ok.injEq] at h
    subst h
    exact ⟨rfl, fun hn => absurd rfl hn⟩
  | succ n ih =>
    simp only [move_backward_within_loop, Outcome.bind_eq_ok] at h
    obtain ⟨x, -, l1, hst, l2, hst2, hrec⟩ := h
    obtain ⟨hd, hl⟩ := store_eq_ok hst
    obtain ⟨-, hl2⟩ := store_eq_ok hst2
    obtain ⟨h1, -⟩ := ih hrec
    exact ⟨by omega, fun _ => by omega⟩

theorem move_within_loop_completed [Element α] {n : Nat} {l r : List α} {first d : Nat}
    (h : move_within_loop n l first d = .ok r) : r.length = l.length := by
  induction n generalizing l first d with
  | zero =>
    simp only [move_within_loop, Outcome.ok.injEq] at h
    subst h
    rfl
  | succ n ih =>
    simp only [move_within_loop, Outcome.bind_eq_ok] at h
    obtain ⟨x, -, l1, hst, l2, hst2, hrec⟩ := h
    obtain ⟨-, hl⟩ := store_eq_ok hst
    obtain ⟨-, hl2⟩ := store_eq_ok hst2
    have := ih hrec
    omega

end Completed

/-! ## Every vector a program can hold is well formed -/

section WellFormed
variable {α : Type}
open SimpleVector

theorem alloc_well_formed (m : Allocation α) (n : Nat) (hm : m.addr ≠ 0) (cells : List α)
    (hlen : cells.length = n) :
    ((ArrayPtr.alloc m n).raw_ptr_ = 0 → cells = []) := by
  intro h
  unfold ArrayPtr.alloc at h
  split_ifs at h with hn
  · subst hn
    exact List.length_eq_zero.mp hlen
  · exact absurd h hm

theorem SimpleVector.well_formed_of_set (v : SimpleVector α) (cells : List α) (n cap : Nat)
    (hv : v.well_formed) (hlen : cells.length = v.array_.cells.length)
    (hn : n ≤ cells.length) :
    well_formed { array_ := { raw_ptr_ := v.array_.raw_ptr_, cells := cells }, size_ := n,
                  capacity_ := cap } := by
  refine ⟨hn, fun h => ?_⟩
  have := hv.2 h
  rw [this] at hlen
  exact List.length_eq_zero.mp hlen

theorem SimpleVector.PushBack_well_formed (v w : SimpleVector α) (m : Allocation α) (x : α)
    (hm : m.addr ≠ 0) (hv : v.well_formed) (h : v.PushBack m x = .ok w) : w.well_formed := by
  unfold PushBack at h
  split_ifs at h with hlt
  · simp only [Outcome.bind_eq_ok, Outcome.pure_eq, Outcome.ok.injEq, ArrayPtr.write] at h
    obtain ⟨a, ⟨c, hst, rfl⟩, rfl⟩ := h
    obtain ⟨hi, hl⟩ := store_eq_ok hst
    exact well_formed_of_set v c _ _ hv hl (by omega)
  · simp only [Outcome.bind_eq_ok, Outcome.pure_eq, Outcome.ok.injEq, std_copy,
      Nat.not_lt_zero, if_false] at h
    obtain ⟨a, hcp, b, hst, rfl⟩ := h
    obtain ⟨hl, -⟩ := copy_loop_completed hcp
    obtain ⟨hi, hl2⟩ := store_eq_ok hst
    rw [alloc_cells_length] at hl
    exact ⟨by simp only [slots]; omega, alloc_well_formed m _ hm b (by omega)⟩

theorem SimpleVector.PushBack_move_well_formed [Element α] (v w : SimpleVector α)
    (m : Allocation α) (x : α) (hm : m.addr ≠ 0) (hv : v.well_formed)
    (h : v.PushBack_move m x = .ok w) : w.well_formed := by
  unfold PushBack_move at h
  split_ifs at h with hlt
  · simp only [Outcome.bind_eq_ok, Outcome.pure_eq, Outcome.ok.injEq, ArrayPtr.write] at h
    obtain ⟨a, ⟨c, hst, rfl⟩, rfl⟩ := h
    obtain ⟨hi, hl⟩ := store_eq_ok hst
    exact well_formed_of_set v c _ _ hv hl (by omega)
  · simp only [Outcome.bind_eq_ok, Outcome.pure_eq, Outcome.ok.injEq, std_move,
      Nat.not_lt_zero, if_false, Prod.exists] at h
    obtain ⟨s, a, hmv, b, hst, rfl⟩ := h
    obtain ⟨hl, -⟩ := move_loop_completed hmv
    obtain ⟨hi, hl2⟩ := store_eq_ok hst
    rw [alloc_cells_length] at hl
    exact ⟨by simp only [slots]; omega, alloc_well_formed m _ hm b (by omega)⟩

theorem SimpleVector.in_range_index (v : SimpleVector α) (pos : Iterator)
    (h : v.in_range pos = true) : pos.index ≤ v.size_ := by
  simp only [in_range, begin, end_, ArrayPtr.Get, Iterator.add_def, Bool.and_eq_true,
    decide_eq_true_eq] at h
  omega

theorem SimpleVector.Insert_well_formed (v w : SimpleVector α) (m : Allocation α)
    (pos it : Iterator) (x : α) (hm : m.addr ≠ 0) (hv : v.well_formed)
    (h : v.Insert m pos x = .ok (it, w)) : w.well_formed := by
  unfold Insert at h
  split_ifs at h with hr hfull
  · simp only [Outcome.bind_eq_ok, Outcome.pure_eq, Outcome.ok.injEq, Prod.mk.injEq,
      std_copy] at h
    obtain ⟨a, ha, b, hst, c, hc, -, rfl⟩ := h
    split_ifs at ha hc
    obtain ⟨hl, -⟩ := copy_loop_completed ha
    obtain ⟨-, hl2⟩ := store_eq_ok hst
    obtain ⟨hl3, -⟩ := copy_loop_completed hc
    rw [alloc_cells_length] at hl
    exact ⟨by simp only [slots]; omega, alloc_well_formed m _ hm c (by omega)⟩
  · simp only [Outcome.bind_eq_ok, Outcome.pure_eq, Outcome.ok.injEq, Prod.mk.injEq,
      std_copy_backward_within] at h
    obtain ⟨a, ha, b, hst, -, rfl⟩ := h
    split_ifs at ha with hg
    obtain ⟨hl, hb⟩ := copy_backward_within_loop_completed ha
    obtain ⟨hi, hl2⟩ := store_eq_ok hst
    have hidx := in_range_index v pos hr
    have he : v.end_.index = v.size_ := by simp [end_, ArrayPtr.Get, Iterator.add_def]
    have hb0 : v.begin.index = 0 := rfl
    rw [he] at hb hg
    rw [hb0] at hi
    apply well_formed_of_set v b _ _ hv (by omega)
    by_cases hn : v.size_ - pos.index = 0
    · omega
    · have := hb hn
      omega

theorem SimpleVector.Insert_move_well_formed [Element α] (v w : SimpleVector α)
    (m : Allocation α) (pos it : Iterator) (x : α) (hm : m.addr ≠ 0) (hv : v.well_formed)
    (h : v.Insert_move m pos x = .ok (it, w)) : w.well_formed := by
  unfold Insert_move at h
  split_ifs at h with hr hfull
  · simp only [Outcome.bind_eq_ok, Outcome.pure_eq, Outcome.ok.injEq, Prod.mk.injEq,
      std_move, std_move_backward, Prod.exists] at h
    obtain ⟨s1, a, ha, s2, b, hb, c, hst, -, rfl⟩ := h
    split_ifs at ha hb
    obtain ⟨hl, -⟩ := move_loop_completed ha
    have hl2 := move_backward_loop_completed hb
    obtain ⟨-, hl3⟩ := store_eq_ok hst
    rw [alloc_cells_length] at hl
    exact ⟨by simp only [slots]; omega, alloc_well_formed m _ hm c (by omega)⟩
  · simp only [Outcome.bind_eq_ok, Outcome.pure_eq, Outcome.ok.injEq, Prod.mk.injEq,
      std_move_backward_within] at h
    obtain ⟨a, ha, b, hst, -, rfl⟩ := h
    split_ifs at ha with hg
    obtain ⟨hl, hb⟩ := move_backward_within_loop_completed ha
    obtain ⟨hi, hl2⟩ := store_eq_ok hst
    have hidx := in_range_index v pos hr
    have he : v.end_.index = v.size_ := by simp [end_, ArrayPtr.Get, Iterator.add_def]
    have hb0 : v.begin.index = 0 := rfl
    rw [he] at hb hg
    rw [hb0] at hi
    apply well_formed_of_set v b _ _ hv (by omega)
    by_cases hn : v.size_ - pos.index = 0
    · omega
    · have := hb hn
      omega

theorem SimpleVector.Erase_well_formed [Element α] (v w : SimpleVector α)
    (pos it : Iterator) (hv : v.well_formed) (h : v.Erase pos = .ok (it, w)) :
    w.well_formed := by
  have hfit : v.size_ ≤ v.array_.cells.length := hv.1
  unfold Erase at h
  dsimp only at h
  split_ifs at h with hr h0 he
  · simp only [Outcome.pure_eq, Outcome.ok.injEq, Prod.mk.injEq] at h
    obtain ⟨-, rfl⟩ := h
    exact hv
  · simp only [Outcome.pure_eq, Outcome.ok.injEq, Prod.mk.injEq] at h
    obtain ⟨-, rfl⟩ := h
    exact well_formed_of_set v _ _ _ hv rfl (Nat.le_trans (Nat.sub_le _ _) hfit)
  · simp only [Outcome.bind_eq_ok, Outcome.pure_eq, Outcome.ok.injEq, Prod.mk.injEq,
      std_move_within] at h
    obtain ⟨a, ha, -, rfl⟩ := h
    split_ifs at ha
    have hl := move_within_loop_completed ha
    exact well_formed_of_set v a _ _ hv hl (by omega)

theorem SimpleVector.Resize_well_formed [Element α] (v w : SimpleVector α)
    (m : Allocation α) (n : Nat) (hm : m.addr ≠ 0) (hv : v.well_formed)
    (h : v.Resize m n = .ok w) : w.well_formed := by
  have hfit : v.size_ ≤ v.array_.cells.length := hv.1
  unfold Resize at h
  split_ifs at h with h1 h2 h3
  · simp only [Outcome.pure_eq, Outcome.ok.injEq] at h
    subst h
    exact well_formed_of_set v _ _ _ hv rfl (Nat.le_trans h1 hfit)
  · simp only [Outcome.bind_eq_ok, Outcome.pure_eq, Outcome.ok.injEq] at h
    obtain ⟨a, ha, rfl⟩ := h
    obtain ⟨hl, hb⟩ := fill_loop_completed ha
    have := hb (by omega)
    exact well_formed_of_set v a _ _ hv hl (by omega)
  · simp only [Outcome.bind_eq_ok, Outcome.pure_eq, Outcome.ok.injEq, Prod.exists,
      std_move, Nat.not_lt_zero, if_false] at h
    obtain ⟨s, a, ha, rfl⟩ := h
    obtain ⟨hl, -⟩ := move_loop_completed ha
    rw [alloc_cells_length] at hl
    exact ⟨by simp only [slots]; omega, alloc_well_formed m _ hm a (by omega)⟩
  · omega

theorem SimpleVector.Reserve_well_formed (v w : SimpleVector α) (m : Allocation α) (n : Nat)
    (hm : m.addr ≠ 0) (hv : v.well_formed) (h : v.Reserve m n = .ok w) :
    w.well_formed := by
  unfold Reserve at h
  split_ifs at h with h1
  · simp only [Outcome.bind_eq_ok, Outcome.pure_eq, Outcome.ok.injEq, std_copy,
      Nat.not_lt_zero, if_false, Nat.sub_zero] at h
    obtain ⟨a, ha, rfl⟩ := h
    obtain ⟨hl, hb⟩ := copy_loop_completed ha
    rw [alloc_cells_length] at hl hb
    refine ⟨?_, alloc_well_formed m _ hm a (by omega)⟩
    simp only [slots]
    by_cases hz : v.size_ = 0
    · omega
    · have := hb hz
      omega
  · simp only [Outcome.pure_eq, Outcome.ok.injEq] at h
    subst h
    exact hv

theorem SimpleVector.mk_fill_well_formed (w : SimpleVector α) (m : Allocation α) (n : Nat)
    (x : α) (hm : m.addr ≠ 0) (h : mk_fill m n x = .ok w) :
    w.well_formed ∧ w.slots = n := by
  simp only [mk_fill, Outcome.bind_eq_ok, Outcome.pure_eq, Outcome.ok.injEq, std_fill,
    Nat.not_lt_zero, if_false, Nat.sub_zero] at h
  obtain ⟨a, ha, rfl⟩ := h
  obtain ⟨hl, -⟩ := fill_loop_completed ha
  rw [alloc_cells_length] at hl
  exact ⟨⟨by simp only [slots]; omega, alloc_well_formed m _ hm a (by omega)⟩, hl⟩

theorem SimpleVector.mk_size_well_formed [Element α] (w : SimpleVector α) (m : Allocation α)
    (n : Nat) (hm : m.addr ≠ 0) (h : mk_size m n = .ok w) :
    w.well_formed ∧ w.slots = n := by
  simp only [mk_size, Outcome.bind_eq_ok, Outcome.pure_eq, Outcome.ok.injEq, std_fill,
    Nat.not_lt_zero, if_false, Nat.sub_zero] at h
  obtain ⟨a, ha, rfl⟩ := h
  obtain ⟨hl, -⟩ := fill_loop_completed ha
  rw [alloc_cells_length] at hl
  exact ⟨⟨by simp only [slots]; omega, alloc_well_formed m _ hm a (by omega)⟩, hl⟩

theorem SimpleVector.mk_init_well_formed (w : SimpleVector α) (m : Allocation α)
    (l : List α) (hm : m.addr ≠ 0) (h : mk_init m l = .ok w) : w.well_formed := by
  simp only [mk_init, Outcome.bind_eq_ok, Outcome.pure_eq, Outcome.ok.injEq, std_copy,
    Nat.not_lt_zero, if_false, Nat.sub_zero] at h
  obtain ⟨a, ha, rfl⟩ := h
  obtain ⟨hl, -⟩ := copy_loop_completed ha
  rw [alloc_cells_length] at hl
  exact ⟨by simp only [slots]; omega, alloc_well_formed m _ hm a (by omega)⟩

theorem SimpleVector.mk_copy_well_formed (other w o : SimpleVector α) (m : Allocation α)
    (hm : m.addr ≠ 0) (ho : other.well_formed) (h : mk_copy m other = .ok (w, o)) :
    w.well_formed := by
  obtain ⟨c, hc, hsz, -, -, hslots, -⟩ := mk_copy_spec other m ho.1 ho.2
  rw [hc] at h
  simp only [Outcome.ok.injEq, Prod.mk.injEq] at h
  obtain ⟨rfl, -⟩ := h
  refine ⟨by rw [hslots, hsz], fun hraw => ?_⟩
  unfold mk_copy at hc
  split_ifs at hc with hb
  · simp only [Outcome.bind_eq_ok, Outcome.pure_eq, Outcome.ok.injEq, Prod.mk.injEq,
      std_copy, Nat.not_lt_zero, if_false, Nat.sub_zero] at hc
    obtain ⟨a, ha, rfl, -⟩ := hc
    obtain ⟨hl, -⟩ := copy_loop_completed ha
    rw [alloc_cells_length] at hl
    exact alloc_well_formed m _ hm a hl hraw
  · simp only [Outcome.pure_eq, Outcome.ok.injEq, Prod.mk.injEq] at hc
    obtain ⟨rfl, -⟩ := hc
    rfl

theorem SimpleVector.assign_well_formed [Element α] (v rhs w o : SimpleVector α)
    (m : Allocation α) (hm : m.addr ≠ 0) (hv : v.well_formed)
    (h : v.assign m rhs false = .ok (w, o)) : w.well_formed := by
  unfold assign at h
  simp only [Bool.false_eq_true, if_false] at h
  split_ifs at h with h2
  · simp only [Outcome.pure_eq, Outcome.ok.injEq, Prod.mk.injEq] at h
    obtain ⟨rfl, -⟩ := h
    exact well_formed_of_set v _ _ _ hv rfl (Nat.zero_le _)
  · simp only [Outcome.bind_eq_ok, Outcome.pure_eq, Outcome.ok.injEq, Prod.mk.injEq,
      std_copy, Nat.not_lt_zero, if_false, Nat.sub_zero] at h
    obtain ⟨t, ht, a, ha, rfl, -⟩ := h
    obtain ⟨htw, hts⟩ := mk_size_well_formed t m rhs.size_ hm ht
    obtain ⟨htsz, -⟩ := mk_size_size_capacity t m rhs.size_ ht
    obtain ⟨hl, -⟩ := copy_loop_completed ha
    have := well_formed_of_set t a t.size_ rhs.capacity_ htw hl
      (by simp only [slots] at hts; omega)
    exact this

theorem SimpleVector.assign_move_well_formed [Element α] (v rhs w o : SimpleVector α)
    (m : Allocation α) (hm : m.addr ≠ 0) (hv : v.well_formed)
    (h : v.assign_move m rhs false = .ok (w, o)) : w.well_formed := by
  unfold assign_move at h
  simp only [Bool.false_eq_true, if_false] at h
  split_ifs at h with h2
  · simp only [Outcome.pure_eq, Outcome.ok.injEq, Prod.mk.injEq] at h
    obtain ⟨rfl, -⟩ := h
    exact well_formed_of_set v _ _ _ hv rfl (Nat.zero_le _)
  · simp only [Outcome.bind_eq_ok, Outcome.pure_eq, Outcome.ok.injEq, Prod.mk.injEq,
      std_copy, Nat.not_lt_zero, if_false, Nat.sub_zero] at h
    obtain ⟨t, ht, a, ha, rfl, -⟩ := h
    obtain ⟨htw, hts⟩ := mk_size_well_formed t m rhs.size_ hm ht
    obtain ⟨htsz, -⟩ := mk_size_size_capacity t m rhs.size_ ht
    obtain ⟨hl, -⟩ := copy_loop_completed ha
    have := well_formed_of_set t a t.size_ rhs.capacity_ htw hl
      (by simp only [slots] at hts; omega)
    exact this

/-- Every vector a program can hold has its live elements inside its block, and
a null block pointer only when it has no block. -/
theorem SimpleVector.Reachable.well_formed [Element α] {v : SimpleVector α}
    (h : Reachable v) : v.well_formed := by
  induction h with
  | mk_default => exact ⟨Nat.le_refl _, fun _ => rfl⟩
  | mk_size m n w hm h => exact (mk_size_well_formed w m n hm h).1
  | mk_fill m n x w hm h => exact (mk_fill_well_formed w m n x hm h).1
  | mk_init m l w hm h => exact mk_init_well_formed w m l hm h
  | mk_copy m other w o hm _ h ih => exact mk_copy_well_formed other w o m hm ih h
  | mk_move_target other _ ih => exact ih
  | mk_move_source other _ _ => exact ⟨Nat.le_refl _, fun _ => rfl⟩
  | mk_reserve p => exact ⟨Nat.le_refl _, fun _ => rfl⟩
  | PushBack m v w x hm _ h ih => exact PushBack_well_formed v w m x hm ih h
  | PushBack_move m v w x hm _ h ih => exact PushBack_move_well_formed v w m x hm ih h
  | PopBack v _ ih =>
    unfold SimpleVector.PopBack
    split_ifs
    · exact well_formed_of_set v _ _ _ ih rfl (Nat.le_trans (Nat.sub_le _ _) ih.1)
    · exact ih
  | Insert m v w pos it x hm _ h ih => exact Insert_well_formed v w m pos it x hm ih h
  | Insert_move m v w pos it x hm _ h ih =>
    exact Insert_move_well_formed v w m pos it x hm ih h
  | Erase v w pos it _ h ih => exact Erase_well_formed v w pos it ih h
  | Resize m v w n hm _ h ih => exact Resize_well_formed v w m n hm ih h
  | Reserve m v w n hm _ h ih => exact Reserve_well_formed v w m n hm ih h
  | Clear v _ ih => exact well_formed_of_set v _ _ _ ih rfl (Nat.zero_le _)
  | swap_left v other _ _ _ ih2 => exact ih2
  | swap_right v other _ _ ih1 _ => exact ih1
  | assign m v rhs w o hm _ _ h ih1 _ => exact assign_well_formed v rhs w o m hm ih1 h
  | assign_move m v rhs w o hm _ _ h ih1 _ =>
    exact assign_move_well_formed v rhs w o m hm ih1 h

end WellFormed

section ReachableCapacity
variable {α : Type} [Element α]
open SimpleVector

/-- Every vector a program can hold has `size_ ≤ capacity_`. -/
theorem SimpleVector.Reachable.size_le {v : SimpleVector α}
    (h : Reachable v) : v.size_ ≤ v.capacity_ := by
  induction h with
  | mk_default => exact Nat.le_refl _
  | mk_size m n w _ h =>
    obtain ⟨h1, h2⟩ := mk_size_size_capacity w m n h
    omega
  | mk_fill m n x w _ h =>
    obtain ⟨h1, h2⟩ := mk_fill_size_capacity w m n x h
    omega
  | mk_init m l w _ h =>
    obtain ⟨h1, h2⟩ := mk_init_size_capacity w m l h
    omega
  | mk_copy m other w o _ _ h ih =>
    obtain ⟨h1, h2, -⟩ := mk_copy_size_capacity other w o m h
    omega
  | mk_move_target other _ ih => exact ih
  | mk_move_source other _ _ => exact Nat.le_refl _
  | mk_reserve p => exact Nat.zero_le _
  | PushBack m v w x _ _ h ih =>
    obtain ⟨h1, h2⟩ := PushBack_size_capacity v w m x h
    rw [h1, h2]
    split_ifs <;> omega
  | PushBack_move m v w x _ _ h ih =>
    obtain ⟨h1, h2⟩ := PushBack_move_size_capacity v w m x h
    rw [h1, h2]
    split_ifs <;> omega
  | PopBack v _ ih =>
    unfold SimpleVector.PopBack
    split_ifs
    · exact Nat.le_trans (Nat.sub_le _ _) ih
    · exact ih
  | Insert m v w pos it x _ _ h ih =>
    obtain ⟨h1, h2⟩ := Insert_size_capacity v w m pos it x h
    rw [h1, h2]
    split_ifs <;> omega
  | Insert_move m v w pos it x _ _ h ih =>
    obtain ⟨h1, h2⟩ := Insert_move_size_capacity v w m pos it x h
    rw [h1, h2]
    split_ifs <;> omega
  | Erase v w pos it _ h ih =>
    obtain ⟨h1, h2⟩ := Erase_size_capacity v w pos it h
    omega
  | Resize m v w n _ _ h ih =>
    obtain ⟨h1, h2⟩ := Resize_size_capacity v w m n h
    rw [h1, h2]
    split_ifs <;> omega
  | Reserve m v w n _ _ h ih =>
    obtain ⟨h1, h2⟩ := Reserve_size_capacity v w m n h
    omega
  | Clear v _ _ => exact Nat.zero_le _
  | swap_left v other _ _ _ ih2 => exact ih2
  | swap_right v other _ _ ih1 _ => exact ih1
  | assign m v rhs w o _ _ _ h ih1 ih2 =>
    rcases assign_size_capacity v rhs w o m false h with ⟨-, -, h3⟩ | ⟨h1, h2, -, -⟩ |
      ⟨h1, h2, -⟩
    · exact absurd h3 (by decide)
    · omega
    · omega
  | assign_move m v rhs w o _ _ _ h ih1 ih2 =>
    rcases assign_move_size_capacity v rhs w o m false h with ⟨-, -, h3⟩ | ⟨h1, h2, -, -⟩ |
      ⟨h1, h2, -⟩
    · exact absurd h3 (by decide)
    · omega
    · omega

/-- When the block that `new` hands out has its slots default-constructed, as
for a class type, the reallocating branch of `Resize` does leave `Type()` in the
new elements. -/
theorem SimpleVector.Resize_realloc_constructed (v : SimpleVector α) (addr n : Nat)
    (h1 : v.size_ ≤ v.capacity_) (h2 : v.capacity_ < n) (hfit : v.size_ ≤ v.slots) :
    ∃ w, v.Resize (Allocation.constructed addr) n = .ok w ∧ w.size_ = n ∧
      w.live = v.live ++ List.replicate (n - v.size_) Element.init := by
  obtain ⟨w, hw, hsz, -, -, hlive⟩ := Resize_realloc v (Allocation.constructed addr) n h1 h2 hfit
  refine ⟨w, hw, hsz, ?_⟩
  rw [hlive]
  congr 1
  apply List.ext_getElem?
  intro k
  simp only [List.getElem?_map, List.getElem?_replicate, Allocation.constructed]
  split_ifs with hk
  · rw [List.getElem?_range hk]; rfl
  · rw [List.getElem?_eq_none (by simp; omega)]; rfl

end ReachableCapacity

/-! ## Erase followed by Insert, Resize up and down -/

section ListFacts
variable {α : Type}

theorem take_drop_reinsert (L : List α) (i : Nat) (x : α) (hx : L[i]? = some x) :
    (L.take i ++ L.drop (i + 1)).take i ++ x :: (L.take i ++ L.drop (i + 1)).drop i = L := by
  have hi : i < L.length := by
    by_contra hn
    rw [List.getElem?_eq_none (by omega)] at hx
    exact Option.noConfusion hx
  apply List.ext_getElem?
  intro k
  have hlen : (L.take i).length = i := by simp; omega
  simp only [List.getElem?_append, List.getElem?_take, List.length_take, List.length_append,
    List.getElem?_drop, List.length_drop, List.getElem?_cons]
  rw [Nat.min_eq_left (by omega)]
  split_ifs <;> first | omega | rfl | (congr 1; omega) | (rw [← hx]; congr 1; omega)

end ListFacts

section EraseInsert
variable {α : Type} [Element α]
open SimpleVector

/-- C11: on a non-empty vector with `size_ ≤ capacity_` whose capacity is the
number of allocated slots, and for `i < size_` with `x` the element at index
`i`: `Erase(begin() + i)` succeeds and returns `begin() + i`, and `Insert` of
`x` at that position (copying or moving overload) succeeds and yields a vector
with the size, the capacity and the live elements, in order, that the vector
had before the two calls. -/
theorem erase_then_insert_restores (v : SimpleVector α) (m : Allocation α) (i : Nat) (x : α)
    (hs : v.size_ ≤ v.capacity_) (hc : v.capacity_ = v.slots) (hi : i < v.size_)
    (hx : v.live[i]? = some x) :
    ∃ u, v.Erase (v.begin + i) = .ok (v.begin + i, u) ∧
      (∃ it w, u.Insert m (v.begin + i) x = .ok (it, w) ∧ w.GetSize = v.GetSize ∧
        w.GetCapacity = v.GetCapacity ∧ w.live = v.live) ∧
      (∃ it w, u.Insert_move m (v.begin + i) x = .ok (it, w) ∧ w.GetSize = v.GetSize ∧
        w.GetCapacity = v.GetCapacity ∧ w.live = v.live) := by
  obtain ⟨u, hu, husz, hulive, hucap, huslots, huraw⟩ := Erase_spec v i (by omega) hi
  have hbegin : u.begin = v.begin := by simp [begin, ArrayPtr.Get, huraw]
  have hus : u.size_ ≤ u.capacity_ := by omega
  have huc : u.capacity_ = u.slots := by omega
  have hne : ¬ u.size_ = u.capacity_ := by omega
  obtain ⟨w, hw, hwsz, hwlive, -, hwcap, -⟩ := Insert_spec u m i x hus huc (by omega)
  obtain ⟨w2, hw2, hwsz2, hwlive2, -, hwcap2, -⟩ := Insert_move_spec u m i x hus huc (by omega)
  rw [hbegin] at hw hw2
  rw [if_neg hne] at hwcap hwcap2
  simp only [GetSize, GetCapacity]
  refine ⟨u, hu, ⟨_, w, hw, by omega, by omega, ?_⟩, ⟨_, w2, hw2, by omega, by omega, ?_⟩⟩
  · rw [hwlive, hulive]
    exact take_drop_reinsert v.live i x hx
  · rw [hwlive2, hulive]
    exact take_drop_reinsert v.live i x hx

end EraseInsert

/-- Witness of C11: erasing index 1 of the vector 1, 2, 3 (capacity 4) and
inserting 2 again at index 1. -/
theorem erase_then_insert_restores_witness :
    ∃ u, (⟨⟨1, [1, 2, 3, 0]⟩, 3, 4⟩ : SimpleVector Nat).Erase
        ((⟨⟨1, [1, 2, 3, 0]⟩, 3, 4⟩ : SimpleVector Nat).begin + 1)
        = .ok ((⟨⟨1, [1, 2, 3, 0]⟩, 3, 4⟩ : SimpleVector Nat).begin + 1, u) ∧
      ∃ it w, u.Insert ⟨2, fun _ => 7⟩
          ((⟨⟨1, [1, 2, 3, 0]⟩, 3, 4⟩ : SimpleVector Nat).begin + 1) 2 = .ok (it, w) ∧
        w.GetSize = 3 ∧ w.GetCapacity = 4 ∧ w.live = [1, 2, 3] := by
  obtain ⟨u, h1, h2, -⟩ :=
    erase_then_insert_restores (⟨⟨1, [1, 2, 3, 0]⟩, 3, 4⟩ : SimpleVector Nat) ⟨2, fun _ => 7⟩
      1 2 (by decide) (by decide) (by decide) (by decide)
  exact ⟨u, h1, h2⟩

section ResizeUpDown
variable {α : Type} [Element α]
open SimpleVector

/-- `Resize(n)` with `n ≥ size_` followed by `Resize` back to the old size gives
back the old live elements, as long as the in-place branch stays inside the
block: when `n ≤ capacity_`, the block has `n` slots. -/
theorem SimpleVector.Resize_grow_then_shrink (v : SimpleVector α) (m1 m2 : Allocation α)
    (n : Nat) (hs : v.size_ ≤ v.capacity_) (hfit : v.size_ ≤ v.slots)
    (hroom : n ≤ v.capacity_ → n ≤ v.slots) (hn : v.size_ ≤ n) :
    ∃ w u, v.Resize m1 n = .ok w ∧ w.Resize m2 v.size_ = .ok u ∧ u.size_ = v.size_ ∧
      u.live = v.live := by
  have key : ∀ w : SimpleVector α, w.size_ = n → (∃ t, w.live = v.live ++ t) →
      ∃ u, w.Resize m2 v.size_ = .ok u ∧ u.size_ = v.size_ ∧ u.live = v.live := by
    intro w hwsz ⟨t, ht⟩
    refine ⟨{ w with size_ := v.size_ }, Resize_shrink w m2 v.size_ (by omega), rfl, ?_⟩
    have h1 : ({ w with size_ := v.size_ } : SimpleVector α).live = w.live.take v.size_ := by
      simp only [live, List.take_take]
      rw [Nat.min_eq_left (by omega)]
    rw [h1, ht, List.take_left' (length_live v hfit)]
  by_cases h1 : n ≤ v.size_
  · have hw := Resize_shrink v m1 n h1
    have hnv : n = v.size_ := by omega
    obtain ⟨u, hu, husz, hulive⟩ := key { v with size_ := n } rfl
      ⟨[], by subst hnv; simp⟩
    exact ⟨_, u, hw, hu, husz, hulive⟩
  · by_cases h2 : n ≤ v.capacity_
    · obtain ⟨w, hw, hwsz, -, -, hwlive⟩ := Resize_in_place v m1 n (by omega) h2 (hroom h2)
      obtain ⟨u, hu, husz, hulive⟩ := key w hwsz ⟨_, hwlive⟩
      exact ⟨w, u, hw, hu, husz, hulive⟩
    · obtain ⟨w, hw, hwsz, -, -, hwlive⟩ := Resize_realloc v m1 n hs (by omega) hfit
      obtain ⟨u, hu, husz, hulive⟩ := key w hwsz ⟨_, hwlive⟩
      exact ⟨w, u, hw, hu, husz, hulive⟩

end ResizeUpDown

/-- C12 (failing input): the vector built from the list 1, 2, 3 and pushed 4 has
size 4 and capacity 6; its copy `c` has size 4, records capacity 6 and owns a
block of 4 slots.  `c.Resize(5)` takes the in-place branch, since 5 is at most
the recorded capacity, and writes `Type()` into slot 4, outside the block: the
pair `Resize(5)`, `Resize(4)` does not run to its end.  On the original vector,
whose block has 6 slots, the same pair gives back 1, 2, 3, 4. -/
theorem resize_within_recorded_capacity_leaves_block :
    ∃ v c : SimpleVector Nat,
      (do let v0 ← SimpleVector.mk_init ⟨1, fun _ => 0⟩ [1, 2, 3]
          v0.PushBack ⟨2, fun _ => 0⟩ 4) = .ok v ∧
      SimpleVector.mk_copy ⟨3, fun _ => 0⟩ v = .ok (c, v) ∧
      c.GetSize = 4 ∧ c.GetCapacity = 6 ∧ c.slots = 4 ∧
      c.Resize ⟨4, fun _ => 0⟩ 5 = .undefined ∧
      (do let c1 ← c.Resize ⟨4, fun _ => 0⟩ 5
          c1.Resize ⟨5, fun _ => 0⟩ 4) = .undefined ∧
      (do let v1 ← v.Resize ⟨4, fun _ => 0⟩ 5
          let v2 ← v1.Resize ⟨5, fun _ => 0⟩ 4
          pure v2.live) = .ok [1, 2, 3, 4] :=
  ⟨⟨⟨2, [1, 2, 3, 4, 0, 0]⟩, 4, 6⟩, ⟨⟨3, [1, 2, 3, 4]⟩, 4, 6⟩, rfl, rfl, rfl, rfl, rfl, rfl,
    rfl, rfl⟩

/-! ## The growth policy -/

section Growth
variable {α : Type}
open SimpleVector

theorem SimpleVector.PushBack_full_completes (v : SimpleVector α) (m : Allocation α) (x : α)
    (hfull : v.size_ = v.capacity_) (hfit : v.size_ ≤ v.slots) :
    ∃ w, v.PushBack m x = .ok w := by
  unfold slots at hfit
  obtain ⟨r, hr, hlen, -⟩ := copy_loop_spec v.size_ v.array_.cells 0
    (ArrayPtr.alloc m (max (v.size_ + 1) (v.capacity_ * 2))).cells 0 (by omega)
    (by rw [alloc_cells_length]; omega)
  rw [alloc_cells_length] at hlen
  simp only [PushBack, if_neg (show ¬ v.size_ < v.capacity_ by omega), std_copy,
    Nat.not_lt_zero, if_false, Nat.sub_zero, hr, Outcome.ok_bind,
    store_ok _ _ x (show v.size_ < r.length by omega), Outcome.pure_eq]
  exact ⟨_, rfl⟩

theorem SimpleVector.PushBack_move_full_completes [Element α] (v : SimpleVector α)
    (m : Allocation α) (x : α) (hfull : v.size_ = v.capacity_) (hfit : v.size_ ≤ v.slots) :
    ∃ w, v.PushBack_move m x = .ok w := by
  unfold slots at hfit
  obtain ⟨s, r, hr, hlen, -⟩ := move_loop_spec v.size_ v.array_.cells 0
    (ArrayPtr.alloc m (max (v.size_ + 1) (v.capacity_ * 2))).cells 0 (by omega)
    (by rw [alloc_cells_length]; omega)
  rw [alloc_cells_length] at hlen
  simp only [PushBack_move, if_neg (show ¬ v.size_ < v.capacity_ by omega), std_move,
    Nat.not_lt_zero, if_false, Nat.sub_zero, hr, Outcome.ok_bind,
    store_ok _ _ x (show v.size_ < r.length by omega), Outcome.pure_eq]
  exact ⟨_, rfl⟩

theorem SimpleVector.Insert_full_completes (v : SimpleVector α) (m : Allocation α) (i : Nat)
    (x : α) (hfull : v.size_ = v.capacity_) (hfit : v.size_ ≤ v.slots) (hi : i ≤ v.size_) :
    ∃ it w, v.Insert m (v.begin + i) x = .ok (it, w) := by
  unfold slots at hfit
  have hidx : (v.begin + i).index = i := by simp [begin, ArrayPtr.Get, Iterator.add_def]
  have hb : v.begin.index = 0 := rfl
  have he : v.end_.index = v.size_ := by simp [end_, ArrayPtr.Get, Iterator.add_def]
  obtain ⟨r1, hr1, hlen1, -⟩ := copy_loop_spec i v.array_.cells 0
    (ArrayPtr.alloc m (max (v.size_ + 1) (v.capacity_ * 2))).cells 0 (by omega)
    (by rw [alloc_cells_length]; omega)
  rw [alloc_cells_length] at hlen1
  obtain ⟨r2, hr2, -, -⟩ := copy_loop_spec (v.size_ - i) v.array_.cells i
    (r1.set i x) (i + 1) (by omega) (by simp; omega)
  simp only [Insert, in_range_begin_add v i hi, if_true, hidx, hb, he, Nat.sub_zero,
    if_pos hfull, std_copy, Nat.not_lt_zero, if_false, hr1, Outcome.ok_bind, copy,
    store_ok _ _ x (show i < r1.length by omega), if_neg (not_lt.mpr hi), hr2,
    Outcome.pure_eq]
  exact ⟨_, _, rfl⟩

theorem SimpleVector.Insert_move_full_completes [Element α] (v : SimpleVector α)
    (m : Allocation α) (i : Nat) (x : α) (hfull : v.size_ = v.capacity_)
    (hfit : v.size_ ≤ v.slots) (hi : i ≤ v.size_) :
    ∃ it w, v.Insert_move m (v.begin + i) x = .ok (it, w) := by
  unfold slots at hfit
  have hidx : (v.begin + i).index = i := by simp [begin, ArrayPtr.Get, Iterator.add_def]
  have hb : v.begin.index = 0 := rfl
  have he : v.end_.index = v.size_ := by simp [end_, ArrayPtr.Get, Iterator.add_def]
  obtain ⟨s1, r1, hr1, hlen1, hslen1, -, -⟩ := move_loop_spec i v.array_.cells 0
    (ArrayPtr.alloc m (max (v.size_ + 1) (v.capacity_ * 2))).cells 0 (by omega)
    (by rw [alloc_cells_length]; omega)
  rw [alloc_cells_length] at hlen1
  have hd : v.size_ + 1 - (v.size_ - i) = i + 1 := by omega
  obtain ⟨s2, r2, hr2, hlen2, -⟩ := move_backward_loop_spec (v.size_ - i) s1 i
    r1 (i + 1) (by omega) (by omega)
  simp only [Insert_move, in_range_begin_add v i hi, if_true, hidx, hb, he, Nat.sub_zero,
    if_pos hfull, std_move, Nat.not_lt_zero, if_false, hr1, Outcome.ok_bind,
    std_move_backward, if_neg (show ¬(v.size_ < i ∨ v.size_ + 1 < v.size_ - i) by omega),
    hd, hr2, store_ok _ _ x (show i < r2.length by omega), Outcome.pure_eq]
  exact ⟨_, _, rfl⟩

/-- C13: on a vector whose live elements lie inside its block, `PushBack` and
`Insert` (copying and moving overloads, any position `begin() + i` with
`i ≤ size_`) called when `size_ == capacity_`, and `Resize(n)` called with
`n > capacity_`, complete and leave the capacity equal to
`max (required minimum) (2 * old capacity)`, the required minimum being
`size_ + 1` for `PushBack` and `Insert` and `n` for `Resize`; for `PushBack` and
`Insert` that is `2 * c` on a full vector of capacity `c ≥ 1` and 1 on a vector
of capacity 0. -/
theorem growth_policy [Element α] (v : SimpleVector α) (m : Allocation α) (x : α)
    (i n : Nat) (hfit : v.size_ ≤ v.slots) (hs : v.size_ ≤ v.capacity_) :
    (v.size_ = v.capacity_ → i ≤ v.size_ →
      ∃ w1 w2 it3 w3 it4 w4,
        v.PushBack m x = .ok w1 ∧ v.PushBack_move m x = .ok w2 ∧
        v.Insert m (v.begin + i) x = .ok (it3, w3) ∧
        v.Insert_move m (v.begin + i) x = .ok (it4, w4) ∧
        w1.GetCapacity = max (v.GetSize + 1) (2 * v.GetCapacity) ∧
        w2.GetCapacity = w1.GetCapacity ∧ w3.GetCapacity = w1.GetCapacity ∧
        w4.GetCapacity = w1.GetCapacity ∧
        (1 ≤ v.GetCapacity → w1.GetCapacity = 2 * v.GetCapacity) ∧
        (v.GetCapacity = 0 → w1.GetCapacity = 1)) ∧
    (v.capacity_ < n →
      ∃ w, v.Resize m n = .ok w ∧ w.GetCapacity = max n (2 * v.GetCapacity)) := by
  simp only [GetSize, GetCapacity]
  constructor
  · intro hfull hi
    obtain ⟨w1, h1⟩ := PushBack_full_completes v m x hfull hfit
    obtain ⟨w2, h2⟩ := PushBack_move_full_completes v m x hfull hfit
    obtain ⟨it3, w3, h3⟩ := Insert_full_completes v m i x hfull hfit hi
    obtain ⟨it4, w4, h4⟩ := Insert_move_full_completes v m i x hfull hfit hi
    obtain ⟨-, c1⟩ := PushBack_size_capacity v w1 m x h1
    obtain ⟨-, c2⟩ := PushBack_move_size_capacity v w2 m x h2
    obtain ⟨-, c3⟩ := Insert_size_capacity v w3 m _ it3 x h3
    obtain ⟨-, c4⟩ := Insert_move_size_capacity v w4 m _ it4 x h4
    rw [if_neg (by omega)] at c1 c2
    rw [if_pos hfull] at c3 c4
    refine ⟨w1, w2, it3, w3, it4, w4, h1, h2, h3, h4, ?_, ?_, ?_, ?_, ?_, ?_⟩ <;> omega
  · intro hn
    obtain ⟨w, hw, -, hcap, -, -⟩ := Resize_realloc v m n hs hn hfit
    exact ⟨w, hw, by omega⟩

end Growth

/-- Witness of C13: the full vector 1, 2, 3 of capacity 3 grows to capacity 6, and
`Resize(10)` of it to capacity 10. -/
theorem growth_policy_witness :
    (∃ w1 it3 w3, (⟨⟨1, [1, 2, 3]⟩, 3, 3⟩ : SimpleVector Nat).PushBack ⟨2, fun _ => 7⟩ 9
        = .ok w1 ∧
      (⟨⟨1, [1, 2, 3]⟩, 3, 3⟩ : SimpleVector Nat).Insert ⟨2, fun _ => 7⟩
        ((⟨⟨1, [1, 2, 3]⟩, 3, 3⟩ : SimpleVector Nat).begin + 1) 9 = .ok (it3, w3) ∧
      w1.GetCapacity = 6 ∧ w3.GetCapacity = w1.GetCapacity) ∧
    (∃ w, (⟨⟨1, [1, 2, 3]⟩, 3, 3⟩ : SimpleVector Nat).Resize ⟨2, fun _ => 7⟩ 10 = .ok w ∧
      w.GetCapacity = 10) := by
  obtain ⟨hfull, hres⟩ := growth_policy (⟨⟨1, [1, 2, 3]⟩, 3, 3⟩ : SimpleVector Nat)
    ⟨2, fun _ => 7⟩ 9 1 10 (by decide) (by decide)
  obtain ⟨w1, w2, it3, w3, it4, w4, h1, -, h3, -, -, -, c3, -, c5, -⟩ :=
    hfull (by decide) (by decide)
  exact ⟨⟨w1, it3, w3, h1, h3, c5 (by decide), c3⟩, hres (by decide)⟩

/-! ## Appends into reserved storage -/

section Reserved
variable {α : Type} [Element α]
open SimpleVector

theorem SimpleVector.push_in_place (v : SimpleVector α) (p : Push α)
    (hlt : v.size_ < v.capacity_) (hroom : v.size_ < v.slots) :
    v.push p = .ok { v with array_ := { v.array_ with cells := v.array_.cells.set v.size_ p.item },
                            size_ := v.size_ + 1 } := by
  unfold slots at hroom
  unfold push
  split
  · simp only [PushBack_move, if_pos hlt, ArrayPtr.write, store_ok _ _ p.item hroom,
      Outcome.ok_bind, Outcome.pure_eq]
  · simp only [PushBack, if_pos hlt, ArrayPtr.write, store_ok _ _ p.item hroom,
      Outcome.ok_bind, Outcome.pure_eq]

theorem SimpleVector.push_all_in_place (ps : List (Push α)) (v : SimpleVector α)
    (hroom : v.size_ + ps.length ≤ v.capacity_) (hc : v.capacity_ = v.slots) :
    ∃ w, v.push_all ps = .ok w ∧ w.size_ = v.size_ + ps.length ∧
      w.capacity_ = v.capacity_ ∧ w.array_.raw_ptr_ = v.array_.raw_ptr_ ∧
      w.slots = v.slots ∧ w.live = v.live ++ ps.map Push.item := by
  induction ps generalizing v with
  | nil => exact ⟨v, rfl, rfl, rfl, rfl, rfl, by simp⟩
  | cons p ps ih =>
    simp only [List.length_cons] at hroom
    have hstep := push_in_place v p (by omega) (by omega)
    obtain ⟨w1, hw1, hsz, hlive, -, -⟩ := push_spec v p (by omega) hc
    rw [hstep] at hw1
    simp only [Outcome.ok.injEq] at hw1
    obtain ⟨u, hu, husz, hucap, huraw, huslots, hulive⟩ :=
      ih w1 (by rw [hsz, ← hw1]; simp only []; omega)
        (by rw [← hw1]; simp only [slots, List.length_set]; exact hc)
    refine ⟨u, ?_, ?_, ?_, ?_, ?_, ?_⟩
    · rw [push_all, hstep, Outcome.ok_bind, hw1, hu]
    · rw [husz, hsz, List.length_cons]; omega
    · rw [hucap, ← hw1]
    · rw [huraw, ← hw1]
    · rw [huslots, ← hw1]; simp [slots]
    · rw [hulive, hlive]; simp

/-- C14: for every `c` and every list of at most `c` pushes, `Reserve(c)` on a
default-constructed vector succeeds and leaves size 0 and capacity `c`; after
each of the pushes that follow (after the first `j` of them, for every `j`) the
size is `j`, the capacity is still `c` and the block is still the one that
`Reserve` installed, so no push reallocated, and the `j` pushed values are the
live elements, readable at their indices in insertion order. -/
theorem reserve_then_push_keeps_capacity (m : Allocation α) (c : Nat) (ps : List (Push α))
    (hk : ps.length ≤ c) :
    ∃ r, (mk_default : SimpleVector α).Reserve m c = .ok r ∧ r.GetSize = 0 ∧
      r.GetCapacity = c ∧
      ∀ j, j ≤ ps.length → ∃ w, r.push_all (ps.take j) = .ok w ∧ w.GetSize = j ∧
        w.GetCapacity = c ∧ w.array_.raw_ptr_ = r.array_.raw_ptr_ ∧
        w.live = (ps.take j).map Push.item ∧
        ∀ i, i < j → ∃ x, ((ps.take j).map Push.item)[i]? = some x ∧
          w.index i = .ok x := by
  obtain ⟨r, hr, hrsz, hrlive, hrcap, hrslots, hrsame⟩ :=
    Reserve_spec (mk_default : SimpleVector α) m c (Nat.le_refl _) (Nat.le_refl _)
  have hrsz0 : r.size_ = 0 := hrsz
  have hrcapc : r.capacity_ = c := by rw [hrcap]; simp [mk_default]
  have hrc : r.capacity_ = r.slots := by
    by_cases h0 : c = 0
    · rw [hrsame (by simp [mk_default]; exact h0)]; rfl
    · rw [hrslots (by simp [mk_default]; omega), hrcapc]
  have hrl : r.live = [] := by rw [hrlive]; rfl
  refine ⟨r, hr, hrsz0, hrcapc, fun j hj => ?_⟩
  have hlen : (ps.take j).length = j := by simp; omega
  obtain ⟨w, hw, hwsz, hwcap, hwraw, -, hwlive⟩ :=
    push_all_in_place (ps.take j) r (by rw [hrsz0, hlen, hrcapc]; omega) hrc
  rw [hrl, List.nil_append] at hwlive
  refine ⟨w, hw, by simp only [GetSize]; omega, by simp only [GetCapacity]; omega, hwraw,
    hwlive, fun i h => ?_⟩
  have hi : i < ((ps.take j).map Push.item).length := by simp; omega
  refine ⟨((ps.take j).map Push.item)[i], List.getElem?_eq_getElem hi, ?_⟩
  apply index_of_live
  rw [hwlive]
  exact List.getElem?_eq_getElem hi

end Reserved

/-- Witness of C14: `Reserve(3)` and then the pushes of 10, 20, 30. -/
theorem reserve_then_push_keeps_capacity_witness :
    ∃ r, (SimpleVector.mk_default : SimpleVector Nat).Reserve ⟨1, fun _ => 7⟩ 3 = .ok r ∧
      r.GetSize = 0 ∧ r.GetCapacity = 3 ∧
      ∃ w, r.push_all [⟨false, ⟨2, fun _ => 7⟩, 10⟩, ⟨true, ⟨3, fun _ => 7⟩, 20⟩,
          ⟨false, ⟨4, fun _ => 7⟩, 30⟩] = .ok w ∧
        w.GetSize = 3 ∧ w.GetCapacity = 3 ∧ w.live = [10, 20, 30] := by
  obtain ⟨r, h1, h2, h3, h4⟩ := reserve_then_push_keeps_capacity (⟨1, fun _ => 7⟩ : Allocation Nat)
    3 [⟨false, ⟨2, fun _ => 7⟩, 10⟩, ⟨true, ⟨3, fun _ => 7⟩, 20⟩, ⟨false, ⟨4, fun _ => 7⟩, 30⟩]
    (by decide)
  obtain ⟨w, hw, hsz, hcap, -, hlive, -⟩ := h4 3 (by decide)
  exact ⟨r, h1, h2, h3, w, hw, hsz, hcap, hlive⟩

/-! ## The order of two vectors -/

section Order
variable {α : Type} [LinearOrder α]
open SimpleVector

/-- The order worded in the spec is the lexicographic order of Mathlib. -/
theorem lexicographically_smaller_iff_lex (xs ys : List α) :
    lexicographically_smaller xs ys ↔ List.Lex (fun x y : α => x < y) xs ys := by
  induction xs generalizing ys with
  | nil =>
    cases ys with
    | nil => exact ⟨fun h => h.elim, fun h => by cases h⟩
    | cons y ys => exact ⟨fun _ => List.Lex.nil, fun _ => trivial⟩
  | cons x xs ih =>
    cases ys with
    | nil => exact ⟨fun h => h.elim, fun h => by cases h⟩
    | cons y ys =>
      constructor
      · intro h
        rcases h with h | ⟨rfl, h⟩
        · exact List.Lex.rel h
        · exact List.Lex.cons ((ih ys).mp h)
      · intro h
        cases h with
        | cons h => exact Or.inr ⟨rfl, (ih ys).mpr h⟩
        | rel h => exact Or.inl h

theorem lexicographically_smaller_append (xs t : List α) (ht : t ≠ []) :
    lexicographically_smaller xs (xs ++ t) := by
  induction xs with
  | nil =>
    cases t with
    | nil => exact absurd rfl ht
    | cons y ys => trivial
  | cons x xs ih => exact Or.inr ⟨rfl, ih⟩

theorem lexicographical_compare_loop_spec (xs ys a b : List α) (i j : Nat)
    (ha : ∀ t, t < xs.length → a[i + t]? = xs[t]?)
    (hb : ∀ t, t < ys.length → b[j + t]? = ys[t]?) :
    ∃ r, lexicographical_compare_loop xs.length ys.length a i b j = .ok r ∧
      (r = true ↔ lexicographically_smaller xs ys) := by
  induction xs generalizing ys i j with
  | nil =>
    cases ys with
    | nil => exact ⟨false, rfl, by simp [lexicographically_smaller]⟩
    | cons y ys => exact ⟨true, rfl, by simp [lexicographically_smaller]⟩
  | cons x xs ih =>
    cases ys with
    | nil => exact ⟨false, rfl, by simp [lexicographically_smaller]⟩
    | cons y ys =>
      have hx : load a i = .ok x := by
        have := ha 0 (by simp)
        simp only [Nat.add_zero, List.getElem?_cons_zero] at this
        simp [load, this]
      have hy : load b j = .ok y := by
        have := hb 0 (by simp)
        simp only [Nat.add_zero, List.getElem?_cons_zero] at this
        simp [load, this]
      simp only [List.length_cons, lexicographical_compare_loop, hx, hy, Outcome.ok_bind,
        Outcome.pure_eq]
      by_cases h1 : x < y
      · rw [if_pos h1]
        exact ⟨true, rfl, by simp [lexicographically_smaller, h1]⟩
      · rw [if_neg h1]
        by_cases h2 : y < x
        · rw [if_pos h2]
          refine ⟨false, rfl, ?_⟩
          simp only [lexicographically_smaller, h1, false_or, Bool.false_eq_true, false_iff,
            not_and]
          intro hxy
          exact absurd (hxy ▸ h2) (lt_irrefl _)
        · rw [if_neg h2]
          have hxy : x = y := by
            rcases lt_trichotomy x y with h | h | h
            · exact absurd h h1
            · exact h
            · exact absurd h h2
          obtain ⟨r, hr, hiff⟩ := ih ys (i + 1) (j + 1)
            (fun t ht => by
              have := ha (t + 1) (by simp; omega)
              rw [show i + 1 + t = i + (t + 1) by omega, this, List.getElem?_cons_succ])
            (fun t ht => by
              have := hb (t + 1) (by simp; omega)
              rw [show j + 1 + t = j + (t + 1) by omega, this, List.getElem?_cons_succ])
          refine ⟨r, hr, ?_⟩
          rw [hiff]
          simp [lexicographically_smaller, h1, hxy]

theorem SimpleVector.lt_spec (a b : SimpleVector α)
    (ha : a.size_ ≤ a.slots) (hb : b.size_ ≤ b.slots) :
    ∃ r, lt a b = .ok r ∧ (r = true ↔ lexicographically_smaller a.live b.live) := by
  have hab : a.begin.index = 0 := rfl
  have hbb : b.begin.index = 0 := rfl
  have hae : a.end_.index = a.size_ := by simp [end_, ArrayPtr.Get, Iterator.add_def]
  have hbe : b.end_.index = b.size_ := by simp [end_, ArrayPtr.Get, Iterator.add_def]
  obtain ⟨r, hr, hiff⟩ := lexicographical_compare_loop_spec a.live b.live a.array_.cells
    b.array_.cells 0 0
    (fun t ht => by
      rw [length_live a ha] at ht
      rw [Nat.zero_add, live_get a t ht])
    (fun t ht => by
      rw [length_live b hb] at ht
      rw [Nat.zero_add, live_get b t ht])
  rw [length_live a ha, length_live b hb] at hr
  refine ⟨r, ?_, hiff⟩
  rw [lt, std_lexicographical_compare, hab, hbb, hae, hbe, if_neg (by omega), Nat.sub_zero,
    Nat.sub_zero, hr]

/-- C15: for two vectors whose live elements lie inside their blocks, over an
element type with a strict total order, `a < b` runs to its end and is true
exactly when the list of the live elements of `a` is lexicographically smaller
than that of `b`; it is true whenever the live elements of `a` are a proper
prefix of those of `b`; and two vectors with the same live elements as `a` and
`b` compare the same way, whatever their other slots hold. -/
theorem less_is_lexicographic (a b : SimpleVector α)
    (ha : a.size_ ≤ a.slots) (hb : b.size_ ≤ b.slots) :
    ∃ r, lt a b = .ok r ∧ (r = true ↔ lexicographically_smaller a.live b.live) ∧
      (∀ t, t ≠ [] → b.live = a.live ++ t → r = true) ∧
      (∀ a2 b2 : SimpleVector α, a2.size_ ≤ a2.slots → b2.size_ ≤ b2.slots →
        a2.live = a.live → b2.live = b.live → lt a2 b2 = .ok r) := by
  obtain ⟨r, hr, hiff⟩ := lt_spec a b ha hb
  refine ⟨r, hr, hiff, fun t ht hbt => ?_, fun a2 b2 ha2 hb2 hal hbl => ?_⟩
  · rw [hiff, hbt]
    exact lexicographically_smaller_append a.live t ht
  · obtain ⟨r2, hr2, hiff2⟩ := lt_spec a2 b2 ha2 hb2
    rw [hal, hbl, ← hiff] at hiff2
    rw [hr2]
    congr 1
    cases r <;> cases r2 <;> simp_all

end Order

/-- Witness of C15: the vectors 1, 2 and 1, 2, 3, the first with a stale slot. -/
theorem less_is_lexicographic_witness :
    ∃ r, SimpleVector.lt (⟨⟨1, [1, 2, 9]⟩, 2, 3⟩ : SimpleVector Nat)
        (⟨⟨2, [1, 2, 3]⟩, 3, 3⟩ : SimpleVector Nat) = .ok r ∧
      (r = true ↔ lexicographically_smaller [1, 2] [1, 2, 3]) ∧ r = true := by
  obtain ⟨r, h1, h2, h3, -⟩ := less_is_lexicographic
    (⟨⟨1, [1, 2, 9]⟩, 2, 3⟩ : SimpleVector Nat) (⟨⟨2, [1, 2, 3]⟩, 3, 3⟩ : SimpleVector Nat)
    (by decide) (by decide)
  exact ⟨r, h1, h2, h3 [3] (by decide) rfl⟩

/-! ## The iterator returned by Insert -/

section InsertIterator
variable {α : Type}
open SimpleVector

theorem get_insert_at (L : List α) (i : Nat) (x : α) (hi : i ≤ L.length) :
    (L.take i ++ x :: L.drop i)[i]? = some x := by
  rw [List.getElem?_append_right (by simp)]
  simp [Nat.min_eq_left hi]

/-- Where the iterator returned by `Insert` points: in the moving overload, and
in the copying overload when the vector was not full, to slot `i` of the block
the vector owns after the call, which holds the value; in the copying overload
when the vector was full, to slot `i` of the block the vector owned before the
call, which is another block than the one it owns afterwards. -/
theorem SimpleVector.Insert_returned_iterator [Element α] (v : SimpleVector α)
    (m : Allocation α) (i : Nat) (value : α)
    (hs : v.size_ ≤ v.capacity_) (hc : v.capacity_ = v.slots) (hi : i ≤ v.size_)
    (hfresh : m.addr ≠ v.array_.raw_ptr_) :
    (∃ w, v.Insert_move m (v.begin + i) value = .ok (w.begin + i, w) ∧
      w.index i = .ok value) ∧
    (v.size_ < v.capacity_ → ∃ w, v.Insert m (v.begin + i) value = .ok (w.begin + i, w) ∧
      w.index i = .ok value) ∧
    (v.size_ = v.capacity_ → ∃ it w, v.Insert m (v.begin + i) value = .ok (it, w) ∧
      it = v.begin + i ∧ it.base ≠ w.begin.base ∧ w.index i = .ok value) := by
  have hfit : v.size_ ≤ v.slots := by omega
  have hlen := length_live v hfit
  obtain ⟨w, hw, -, hwlive, -, -, hwraw⟩ := Insert_spec v m i value hs hc hi
  obtain ⟨u, hu, -, hulive, -⟩ := Insert_move_spec v m i value hs hc hi
  have hget : ∀ z : SimpleVector α, z.live = v.live.take i ++ value :: v.live.drop i →
      z.index i = .ok value := by
    intro z hz
    apply index_of_live
    rw [hz]
    exact get_insert_at v.live i value (by omega)
  refine ⟨⟨u, hu, hget u hulive⟩, fun hlt => ?_, fun hfull => ?_⟩
  · rw [if_neg (by omega)] at hwraw
    have hbegin : w.begin = v.begin := by simp [begin, ArrayPtr.Get, hwraw]
    exact ⟨w, by rw [hbegin]; exact hw, hget w hwlive⟩
  · rw [if_pos hfull] at hwraw
    refine ⟨_, w, hw, rfl, ?_, hget w hwlive⟩
    simp only [begin, ArrayPtr.Get, Iterator.add_def, hwraw]
    exact fun h => hfresh h.symm

end InsertIterator

/-- C16 (failing input): the copying `Insert(begin() + 1, 99)` on the full vector
1, 2, 3 (size 3, capacity 3, block 1) moves the elements into the new block 2 and
returns the position it was given, slot 1 of block 1, which the vector no longer
owns; slot 1 of the block it owns now is `begin() + 1` of the vector after the
call, and that is what the moving overload returns on the same input.  On a
default-constructed vector the copying overload returns the null pointer. -/
theorem insert_copy_returns_old_position :
    (⟨⟨1, [1, 2, 3]⟩, 3, 3⟩ : SimpleVector Nat).Insert ⟨2, fun _ => 7⟩
        ((⟨⟨1, [1, 2, 3]⟩, 3, 3⟩ : SimpleVector Nat).begin + 1) 99
      = .ok (⟨1, 1⟩, ⟨⟨2, [1, 99, 2, 3, 7, 7]⟩, 4, 6⟩) ∧
    (⟨⟨2, [1, 99, 2, 3, 7, 7]⟩, 4, 6⟩ : SimpleVector Nat).begin + 1 = ⟨2, 1⟩ ∧
    (⟨⟨1, [1, 2, 3]⟩, 3, 3⟩ : SimpleVector Nat).Insert_move ⟨2, fun _ => 7⟩
        ((⟨⟨1, [1, 2, 3]⟩, 3, 3⟩ : SimpleVector Nat).begin + 1) 99
      = .ok (⟨2, 1⟩, ⟨⟨2, [1, 99, 2, 3, 7, 7]⟩, 4, 6⟩) ∧
    (SimpleVector.mk_default : SimpleVector Nat).Insert ⟨2, fun _ => 7⟩
        ((SimpleVector.mk_default : SimpleVector Nat).begin + 0) 99
      = .ok (nullptr, ⟨⟨2, [99]⟩, 1, 1⟩) :=
  ⟨rfl, rfl, rfl, rfl⟩

/-! ## Assignment -/

section Assignment
variable {α : Type} [Element α]
open SimpleVector

theorem SimpleVector.mk_size_spec (m : Allocation α) (n : Nat) :
    ∃ t : SimpleVector α, mk_size m n = .ok t ∧ t.size_ = n ∧ t.capacity_ = n ∧ t.slots = n ∧
      t.array_.raw_ptr_ = (ArrayPtr.alloc m n).raw_ptr_ ∧
      t.live = List.replicate n Element.init := by
  obtain ⟨r, hr, hlen, hk⟩ := fill_loop_spec n (ArrayPtr.alloc m n).cells 0
    (Element.init : α) (by rw [alloc_cells_length]; omega)
  rw [alloc_cells_length] at hlen
  refine ⟨{ array_ := { ArrayPtr.alloc m n with cells := r }, size_ := n, capacity_ := n },
    ?_, rfl, rfl, hlen, rfl, ?_⟩
  · simp only [mk_size, std_fill, Nat.not_lt_zero, if_false, Nat.sub_zero, hr,
      Outcome.ok_bind, Outcome.pure_eq]
  · apply take_ext
    intro k
    simp only [hk k, List.getElem?_replicate]
    split_ifs <;> first | omega | rfl

theorem SimpleVector.assign_spec (v rhs : SimpleVector α) (m : Allocation α)
    (hne : rhs.size_ ≠ 0) (hfit : rhs.size_ ≤ rhs.slots) :
    ∃ w, v.assign m rhs false = .ok (w, rhs) ∧ w.size_ = rhs.size_ ∧
      w.capacity_ = rhs.capacity_ ∧ w.live = rhs.live ∧ w.slots = rhs.size_ := by
  unfold slots at hfit
  obtain ⟨t, ht, htsz, -, htslots, -, -⟩ := mk_size_spec m rhs.size_
  unfold slots at htslots
  obtain ⟨r, hr, hlen, hk⟩ := copy_loop_spec rhs.size_ rhs.array_.cells 0 t.array_.cells 0
    (by omega) (by omega)
  refine ⟨{ array_ := { t.array_ with cells := r }, size_ := t.size_,
            capacity_ := rhs.capacity_ }, ?_, htsz, rfl, ?_, ?_⟩
  · have hemp : rhs.IsEmpty = false := by simp [SimpleVector.IsEmpty, hne]
    simp only [assign, Bool.false_eq_true, if_false, hemp, ht, Outcome.ok_bind, std_copy,
      Nat.not_lt_zero, Nat.sub_zero, hr, Outcome.pure_eq, swap]
  · apply take_ext
    intro k
    simp only [live, List.getElem?_take, hk k, htsz]
    split_ifs <;> first | omega | rfl | (congr 1; omega)
  · simp only [slots, hlen, htslots]

/-- C17: for a receiver `a` and a distinct right-hand side `b` whose live
elements lie inside its block, copy assignment and move assignment have the same
outcome and leave `b` as it was; when `b` is not empty `a` ends with the size of
`b`, the capacity recorded in `b` and the live elements of `b` in order; when `b`
is empty `a` ends with size 0 and its own earlier capacity (and block). -/
theorem assignment_copies (a b : SimpleVector α) (m : Allocation α)
    (hfit : b.size_ ≤ b.slots) :
    a.assign m b false = a.assign_move m b false ∧
    ∃ a_after, a.assign m b false = .ok (a_after, b) ∧
      (b.IsEmpty = false → a_after.GetSize = b.GetSize ∧
        a_after.GetCapacity = b.GetCapacity ∧ a_after.live = b.live) ∧
      (b.IsEmpty = true → a_after.GetSize = 0 ∧ a_after.GetCapacity = a.GetCapacity ∧
        a_after.array_ = a.array_) := by
  refine ⟨rfl, ?_⟩
  by_cases hne : b.size_ = 0
  · have hemp : b.IsEmpty = true := by simp [SimpleVector.IsEmpty, hne]
    refine ⟨a.Clear, ?_, fun h => ?_, fun _ => ⟨rfl, rfl, rfl⟩⟩
    · simp only [assign, Bool.false_eq_true, if_false, hemp, if_true, Outcome.pure_eq]
    · rw [hemp] at h
      exact Bool.noConfusion h
  · have hemp : b.IsEmpty = false := by simp [SimpleVector.IsEmpty, hne]
    obtain ⟨w, hw, hsz, hcap, hlive, -⟩ := assign_spec a b m hne hfit
    refine ⟨w, hw, fun _ => ⟨hsz, hcap, hlive⟩, fun h => ?_⟩
    rw [hemp] at h
    exact Bool.noConfusion h

end Assignment

/-- Witness of C17: assigning the vector 5, 6 of capacity 4 to the vector 1. -/
theorem assignment_copies_witness :
    ∃ a_after, (⟨⟨1, [1]⟩, 1, 1⟩ : SimpleVector Nat).assign ⟨3, fun _ => 7⟩
        (⟨⟨2, [5, 6, 0, 0]⟩, 2, 4⟩ : SimpleVector Nat) false
        = .ok (a_after, ⟨⟨2, [5, 6, 0, 0]⟩, 2, 4⟩) ∧
      a_after.GetSize = 2 ∧ a_after.GetCapacity = 4 ∧ a_after.live = [5, 6] := by
  obtain ⟨-, a_after, h1, h2, -⟩ := assignment_copies (⟨⟨1, [1]⟩, 1, 1⟩ : SimpleVector Nat)
    (⟨⟨2, [5, 6, 0, 0]⟩, 2, 4⟩ : SimpleVector Nat) ⟨3, fun _ => 7⟩ (by decide)
  exact ⟨a_after, h1, h2 rfl⟩

/-! ## Equality of vectors of different sizes -/

section Equality
variable {α : Type} [DecidableEq α]
open SimpleVector

theorem equal_loop_spec (xs ys a b : List α) (i j : Nat) (hlen : ys.length = xs.length)
    (ha : ∀ t, t < xs.length → a[i + t]? = xs[t]?)
    (hb : ∀ t, t < xs.length → b[j + t]? = ys[t]?) :
    equal_loop xs.length a i b j = .ok (decide (xs = ys)) := by
  induction xs generalizing ys i j with
  | nil =>
    cases ys with
    | nil => rfl
    | cons y ys => simp at hlen
  | cons x xs ih =>
    cases ys with
    | nil => simp at hlen
    | cons y ys =>
      have hx : load a i = .ok x := by
        have := ha 0 (by simp)
        simp only [Nat.add_zero, List.getElem?_cons_zero] at this
        simp [load, this]
      have hy : load b j = .ok y := by
        have := hb 0 (by simp)
        simp only [Nat.add_zero, List.getElem?_cons_zero] at this
        simp [load, this]
      simp only [List.length_cons, equal_loop, hx, hy, Outcome.ok_bind, Outcome.pure_eq]
      by_cases hxy : x = y
      · rw [if_pos hxy]
        rw [ih ys (i + 1) (j + 1) (by simpa using hlen)
          (fun t ht => by
            have := ha (t + 1) (by simp; omega)
            rw [show i + 1 + t = i + (t + 1) by omega, this, List.getElem?_cons_succ])
          (fun t ht => by
            have := hb (t + 1) (by simp; omega)
            rw [show j + 1 + t = j + (t + 1) by omega, this, List.getElem?_cons_succ])]
        simp [hxy]
      · rw [if_neg hxy]
        simp [hxy]

theorem SimpleVector.eq_spec (a b : SimpleVector α) (ha : a.size_ ≤ a.slots)
    (hb : a.size_ ≤ b.slots) :
    eq a b = .ok (decide (a.live = b.array_.cells.take a.size_)) := by
  have hab : a.begin.index = 0 := rfl
  have hbb : b.begin.index = 0 := rfl
  have hae : a.end_.index = a.size_ := by simp [end_, ArrayPtr.Get, Iterator.add_def]
  have hla := length_live a ha
  have hlb : (b.array_.cells.take a.size_).length = a.live.length := by
    unfold slots at hb
    rw [hla, List.length_take]; omega
  have h := equal_loop_spec a.live (b.array_.cells.take a.size_) a.array_.cells
    b.array_.cells 0 0 hlb
    (fun t ht => by
      rw [hla] at ht
      rw [Nat.zero_add, live_get a t ht])
    (fun t ht => by
      rw [hla] at ht
      rw [Nat.zero_add, List.getElem?_take, if_pos ht])
  rw [hla] at h
  rw [eq, std_equal, hab, hbb, hae, if_neg (by omega), Nat.sub_zero, h]

/-- Where `a == b` is decided by live elements, and where it is not: `a == b`
traverses as many slots as `a` has live elements.  For
two vectors whose live elements lie inside their blocks: when
`size of a ≤ size of b` the comparison runs to its end and is true exactly when
`a` and `b` hold equal values at every index below the size of `a`, which is then
the smaller size, so it is decided by live elements alone; for equal sizes it is
the equality of the two live sequences; when `a` is the longer one and the block
of `b` has that many slots, it is true exactly when the live elements of `a`
equal the first `size of a` slots of `b`, those at or beyond the size of `b`
included. -/
theorem equality_traverses_left_operand (a b : SimpleVector α)
    (ha : a.size_ ≤ a.slots) (hb : b.size_ ≤ b.slots) :
    (a.size_ ≤ b.size_ → eq a b = .ok (decide (a.live = b.live.take a.size_))) ∧
    (a.size_ = b.size_ → eq a b = .ok (decide (a.live = b.live))) ∧
    (b.size_ < a.size_ → a.size_ ≤ b.slots →
      eq a b = .ok (decide (a.live = b.array_.cells.take a.size_))) := by
  have htake : a.size_ ≤ b.size_ → b.live.take a.size_ = b.array_.cells.take a.size_ := by
    intro h
    rw [live, List.take_take, Nat.min_eq_left h]
  refine ⟨fun h => ?_, fun h => ?_, fun _ h => eq_spec a b ha h⟩
  · rw [htake h]
    exact eq_spec a b ha (by omega)
  · rw [eq_spec a b ha (by omega), ← htake (by omega), h,
      List.take_of_length_le (by rw [length_live b hb])]

end Equality

/-- C18 (failing input): `a` is the vector 1, 2, 3.  Compared with the vector
1, 2 that owns a block of two slots, `a == b` reads slot 2 of `b`, which is
outside the block of `b`.  Compared with a vector `b` of size 2 that holds 1, 2 and
a stale third slot 9 (the vector 1, 2, 9 after `PopBack`), `a` and `b` hold equal
values at every index below the smaller size 2 and yet `a == b` is false; with a
stale third slot 3 instead, and so the same live elements, `a == b` is true: the
result is decided by the slot of the right operand at index 2, beyond its
size. -/
theorem equality_reads_beyond_shorter_operand :
    SimpleVector.mk_init ⟨2, fun _ => 0⟩ [1, 2] = .ok (⟨⟨2, [1, 2]⟩, 2, 2⟩ : SimpleVector Nat) ∧
    SimpleVector.eq (⟨⟨1, [1, 2, 3]⟩, 3, 3⟩ : SimpleVector Nat) ⟨⟨2, [1, 2]⟩, 2, 2⟩
      = .undefined ∧
    (⟨⟨2, [1, 2, 9]⟩, 3, 3⟩ : SimpleVector Nat).PopBack = ⟨⟨2, [1, 2, 9]⟩, 2, 3⟩ ∧
    min (⟨⟨1, [1, 2, 3]⟩, 3, 3⟩ : SimpleVector Nat).GetSize
        (⟨⟨2, [1, 2, 9]⟩, 2, 3⟩ : SimpleVector Nat).GetSize = 2 ∧
    (⟨⟨1, [1, 2, 3]⟩, 3, 3⟩ : SimpleVector Nat).index 0
      = (⟨⟨2, [1, 2, 9]⟩, 2, 3⟩ : SimpleVector Nat).index 0 ∧
    (⟨⟨1, [1, 2, 3]⟩, 3, 3⟩ : SimpleVector Nat).index 1
      = (⟨⟨2, [1, 2, 9]⟩, 2, 3⟩ : SimpleVector Nat).index 1 ∧
    SimpleVector.eq (⟨⟨1, [1, 2, 3]⟩, 3, 3⟩ : SimpleVector Nat) ⟨⟨2, [1, 2, 9]⟩, 2, 3⟩
      = .ok false ∧
    (⟨⟨2, [1, 2, 3]⟩, 2, 3⟩ : SimpleVector Nat).live
      = (⟨⟨2, [1, 2, 9]⟩, 2, 3⟩ : SimpleVector Nat).live ∧
    SimpleVector.eq (⟨⟨1, [1, 2, 3]⟩, 3, 3⟩ : SimpleVector Nat) ⟨⟨2, [1, 2, 3]⟩, 2, 3⟩
      = .ok true :=
  ⟨rfl, rfl, rfl, rfl, rfl, rfl, rfl, rfl, rfl⟩

/-- An instance of `equality_traverses_left_operand`: the vector 1, 2 compared
with the vector 1, 2, 3. -/
theorem equality_traverses_left_operand_witness :
    SimpleVector.eq (⟨⟨1, [1, 2]⟩, 2, 2⟩ : SimpleVector Nat) ⟨⟨2, [1, 2, 3]⟩, 3, 3⟩
      = .ok (decide ((⟨⟨1, [1, 2]⟩, 2, 2⟩ : SimpleVector Nat).live
          = (⟨⟨2, [1, 2, 3]⟩, 3, 3⟩ : SimpleVector Nat).live.take 2)) :=
  (equality_traverses_left_operand (⟨⟨1, [1, 2]⟩, 2, 2⟩ : SimpleVector Nat)
    ⟨⟨2, [1, 2, 3]⟩, 3, 3⟩ (by decide) (by decide)).1 (by decide)

/-! ## The iterator returned by Erase -/

section EraseIterator
variable {α : Type} [Element α]
open SimpleVector

/-- C20 (amended): on a non-empty vector whose live elements lie inside its
block, `Erase(begin() + i)` with `i < size_` succeeds and returns an iterator
that lies within `[begin(), end()]` of the vector after the call; `Erase(end())`
passes the assertion, removes the last live element (the size drops by one, the
elements before it stay) and returns the old `end()`, which is one past `end()`
of the vector after the call and so outside `[begin(), end()]`. -/
theorem erase_returned_iterator (v : SimpleVector α) (hfit : v.size_ ≤ v.slots)
    (hne : v.size_ ≠ 0) :
    (∀ i, i < v.size_ → ∃ it w, v.Erase (v.begin + i) = .ok (it, w) ∧
      w.in_range it = true) ∧
    (∃ w, v.Erase v.end_ = .ok (v.end_, w) ∧ w.GetSize + 1 = v.GetSize ∧
      w.live = v.live.take (v.GetSize - 1) ∧ v.end_ = w.end_ + 1 ∧
      w.in_range v.end_ = false) := by
  constructor
  · intro i hi
    obtain ⟨w, hw, hsz, -, -, -, hraw⟩ := Erase_spec v i hfit hi
    have hbegin : w.begin = v.begin := by simp [begin, ArrayPtr.Get, hraw]
    refine ⟨_, w, hw, ?_⟩
    rw [← hbegin]
    exact in_range_begin_add w i (by omega)
  · have hin : v.in_range v.end_ = true := by
      simp [in_range, begin, end_, ArrayPtr.Get, Iterator.add_def]
    refine ⟨{ v with size_ := v.size_ - 1 }, ?_, ?_, ?_, ?_, ?_⟩
    · simp only [Erase, hin, if_true, if_neg hne, Outcome.pure_eq]
    · simp only [GetSize]; omega
    · simp only [live, GetSize, List.take_take]
      rw [Nat.min_eq_left (Nat.sub_le _ _)]
    · simp only [end_, ArrayPtr.Get, Iterator.add_def, Nat.zero_add]
      congr 1
      omega
    · simp only [in_range, begin, end_, ArrayPtr.Get, Iterator.add_def, Nat.zero_add]
      simp
      omega

end EraseIterator

/-- C20 (counterexample): on the vector 1, 2, 3 the position `end()` is admitted
by the assertion of `Erase`; `Erase(end())` returns slot 3 of the block while the
vector after the call has `end()` at slot 2, so the returned iterator is outside
`[begin(), end()]`, and the live elements are 1, 2: the last one was removed. -/
theorem erase_at_end_leaves_range :
    (⟨⟨1, [1, 2, 3]⟩, 3, 3⟩ : SimpleVector Nat).in_range
        (⟨⟨1, [1, 2, 3]⟩, 3, 3⟩ : SimpleVector Nat).end_ = true ∧
    (⟨⟨1, [1, 2, 3]⟩, 3, 3⟩ : SimpleVector Nat).Erase
        (⟨⟨1, [1, 2, 3]⟩, 3, 3⟩ : SimpleVector Nat).end_
      = .ok (⟨1, 3⟩, ⟨⟨1, [1, 2, 3]⟩, 2, 3⟩) ∧
    (⟨⟨1, [1, 2, 3]⟩, 2, 3⟩ : SimpleVector Nat).end_ = ⟨1, 2⟩ ∧
    (⟨⟨1, [1, 2, 3]⟩, 2, 3⟩ : SimpleVector Nat).in_range ⟨1, 3⟩ = false ∧
    (⟨⟨1, [1, 2, 3]⟩, 3, 3⟩ : SimpleVector Nat).live = [1, 2, 3] ∧
    (⟨⟨1, [1, 2, 3]⟩, 2, 3⟩ : SimpleVector Nat).live = [1, 2] :=
  ⟨rfl, rfl, rfl, rfl, rfl, rfl⟩

/-- Witness of C20 (amended): `Erase(begin() + 1)` and `Erase(end())` on the
vector 1, 2, 3. -/
theorem erase_returned_iterator_witness :
    (∃ it w, (⟨⟨1, [1, 2, 3]⟩, 3, 3⟩ : SimpleVector Nat).Erase
        ((⟨⟨1, [1, 2, 3]⟩, 3, 3⟩ : SimpleVector Nat).begin + 1) = .ok (it, w) ∧
      w.in_range it = true) ∧
    (∃ w, (⟨⟨1, [1, 2, 3]⟩, 3, 3⟩ : SimpleVector Nat).Erase
        (⟨⟨1, [1, 2, 3]⟩, 3, 3⟩ : SimpleVector Nat).end_
        = .ok ((⟨⟨1, [1, 2, 3]⟩, 3, 3⟩ : SimpleVector Nat).end_, w) ∧
      w.GetSize + 1 = 3 ∧ w.live = [1, 2]) := by
  obtain ⟨h1, w, h2, h3, h4, -⟩ :=
    erase_returned_iterator (⟨⟨1, [1, 2, 3]⟩, 3, 3⟩ : SimpleVector Nat) (by decide) (by decide)
  exact ⟨h1 1 (by decide), w, h2, h3, h4⟩

/-! ## The capacities visited by consecutive appends -/

section Doubling
variable {α : Type} [Element α]
open SimpleVector

theorem SimpleVector.push_doubling (v : SimpleVector α) (p : Push α)
    (hc : v.capacity_ = v.slots)
    (h : (v.size_ = 0 ∧ v.capacity_ = 0) ∨
      ∃ k, v.capacity_ = 2 ^ k ∧ v.size_ ≤ 2 ^ k ∧ 2 ^ k < 2 * v.size_) :
    ∃ w, v.push p = .ok w ∧ w.size_ = v.size_ + 1 ∧ w.capacity_ = w.slots ∧
      (∃ k, w.capacity_ = 2 ^ k ∧ w.size_ ≤ 2 ^ k ∧ 2 ^ k < 2 * w.size_) ∧
      (w.capacity_ ≠ v.capacity_ ↔ ¬ v.size_ < v.capacity_) := by
  have hs : v.size_ ≤ v.capacity_ := by
    rcases h with ⟨h1, h2⟩ | ⟨k, h1, h2, -⟩ <;> omega
  obtain ⟨w, hw, hsz, -, hwc, hcap⟩ := push_spec v p hs hc
  refine ⟨w, hw, hsz, hwc, ?_, ?_⟩
  · rcases h with ⟨h1, h2⟩ | ⟨k, h1, h2, h3⟩
    · refine ⟨0, ?_, ?_, ?_⟩ <;> rw [hcap, if_neg (by omega)] at * <;> simp <;> omega
    · by_cases hlt : v.size_ < v.capacity_
      · rw [if_pos hlt] at hcap
        exact ⟨k, by omega, by omega, by omega⟩
      · rw [if_neg hlt] at hcap
        have hp : 2 ^ (k + 1) = 2 * 2 ^ k := by rw [Nat.pow_succ]; omega
        exact ⟨k + 1, by omega, by omega, by omega⟩
  · by_cases hlt : v.size_ < v.capacity_
    · rw [if_pos hlt] at hcap
      exact ⟨fun hne => absurd hcap hne, fun hn => absurd hlt hn⟩
    · rw [if_neg hlt] at hcap
      exact ⟨fun _ => hlt, fun _ => by omega⟩

theorem SimpleVector.push_all_doubling (ps : List (Push α)) (v : SimpleVector α)
    (hc : v.capacity_ = v.slots)
    (h : (v.size_ = 0 ∧ v.capacity_ = 0) ∨
      ∃ k, v.capacity_ = 2 ^ k ∧ v.size_ ≤ 2 ^ k ∧ 2 ^ k < 2 * v.size_) :
    ∃ w, v.push_all ps = .ok w ∧ w.size_ = v.size_ + ps.length ∧ w.capacity_ = w.slots ∧
      ((w.size_ = 0 ∧ w.capacity_ = 0) ∨
        ∃ k, w.capacity_ = 2 ^ k ∧ w.size_ ≤ 2 ^ k ∧ 2 ^ k < 2 * w.size_) := by
  induction ps generalizing v with
  | nil => exact ⟨v, rfl, rfl, hc, h⟩
  | cons p ps ih =>
    obtain ⟨w, hw, hsz, hwc, hgood, -⟩ := push_doubling v p hc h
    obtain ⟨u, hu, husz, huc, hugood⟩ := ih w hwc (Or.inr hgood)
    refine ⟨u, ?_, ?_, huc, hugood⟩
    · rw [push_all, hw, Outcome.ok_bind, hu]
    · rw [husz, hsz, List.length_cons]; omega

theorem two_pow_unique (N k j : Nat) (h2 : 2 ^ k < 2 * N) (h3 : N ≤ 2 ^ j) :
    k ≤ j := by
  have hp : 2 ^ (j + 1) = 2 * 2 ^ j := by rw [Nat.pow_succ]; omega
  have hlt : 2 ^ k < 2 ^ (j + 1) := by omega
  have := (Nat.pow_lt_pow_iff_right (by decide : 1 < 2)).mp hlt
  omega

/-- C19: for every list of pushes on a default-constructed vector (capacity 0),
followed by one more push: all the calls succeed; if the list has `N ≥ 1` pushes,
the capacity after them is the smallest power of two that is at least `N`; and
the push that follows, push number `N + 1`, reallocates (it finds
`size_ == capacity_` and changes the capacity) exactly when `N = 0` or `N` is a
power of two, that is at the pushes numbered 1 and `2 ^ k + 1`. -/
theorem push_back_capacity_power_of_two (ps : List (Push α)) (p : Push α) :
    ∃ w w2, (mk_default : SimpleVector α).push_all ps = .ok w ∧ w.push p = .ok w2 ∧
      (1 ≤ ps.length → ∃ k, w.GetCapacity = 2 ^ k ∧ ps.length ≤ 2 ^ k ∧
        ∀ j, ps.length ≤ 2 ^ j → k ≤ j) ∧
      (w2.GetCapacity ≠ w.GetCapacity ↔ ps.length = 0 ∨ ∃ k, ps.length = 2 ^ k) ∧
      (¬ w.GetSize < w.GetCapacity ↔ ps.length = 0 ∨ ∃ k, ps.length = 2 ^ k) := by
  obtain ⟨w, hw, hsz, hwc, hgood⟩ := push_all_doubling ps (mk_default : SimpleVector α) rfl
    (Or.inl ⟨rfl, rfl⟩)
  have hN : w.size_ = ps.length := by rw [hsz]; simp [mk_default]
  obtain ⟨w2, hw2, -, -, -, hchange⟩ := push_doubling w p hwc hgood
  have hfull : ¬ w.size_ < w.capacity_ ↔ ps.length = 0 ∨ ∃ k, ps.length = 2 ^ k := by
    rcases hgood with ⟨h1, h2⟩ | ⟨k, h1, h2, h3⟩
    · exact ⟨fun _ => Or.inl (by omega), fun _ => by omega⟩
    · constructor
      · intro hn
        exact Or.inr ⟨k, by omega⟩
      · rintro (h0 | ⟨j, hj⟩)
        · omega
        · have hkj := two_pow_unique w.size_ k j h3 (by omega)
          have hjk : 2 ^ j ≤ 2 ^ k := by omega
          have := (Nat.pow_le_pow_iff_right (by decide : 1 < 2)).mp hjk
          have hkeq : k = j := by omega
          subst hkeq
          omega
  simp only [GetSize, GetCapacity]
  refine ⟨w, w2, hw, hw2, fun h1 => ?_, hchange.trans hfull, hfull⟩
  rcases hgood with ⟨h0, -⟩ | ⟨k, hk1, hk2, hk3⟩
  · omega
  · exact ⟨k, hk1, by omega, fun j hj => two_pow_unique w.size_ k j hk3 (by omega)⟩

end Doubling

/-- Witness of C19: after five pushes the capacity is 8, and the sixth push does
not reallocate. -/
theorem push_back_capacity_power_of_two_witness :
    ∃ w w2, (SimpleVector.mk_default : SimpleVector Nat).push_all
        [⟨false, ⟨1, fun _ => 7⟩, 10⟩, ⟨true, ⟨2, fun _ => 7⟩, 20⟩,
         ⟨false, ⟨3, fun _ => 7⟩, 30⟩, ⟨false, ⟨4, fun _ => 7⟩, 40⟩,
         ⟨true, ⟨5, fun _ => 7⟩, 50⟩] = .ok w ∧
      w.push ⟨false, ⟨6, fun _ => 7⟩, 60⟩ = .ok w2 ∧
      ∃ k, w.GetCapacity = 2 ^ k ∧ 5 ≤ 2 ^ k ∧ ∀ j, 5 ≤ 2 ^ j → k ≤ j := by
  obtain ⟨w, w2, h1, h2, h3, -⟩ := push_back_capacity_power_of_two
    ([⟨false, ⟨1, fun _ => 7⟩, 10⟩, ⟨true, ⟨2, fun _ => 7⟩, 20⟩,
      ⟨false, ⟨3, fun _ => 7⟩, 30⟩, ⟨false, ⟨4, fun _ => 7⟩, 40⟩,
      ⟨true, ⟨5, fun _ => 7⟩, 50⟩] : List (SimpleVector.Push Nat))
    ⟨false, ⟨6, fun _ => 7⟩, 60⟩
  exact ⟨w, w2, h1, h2, h3 (by decide)⟩

/-! ## Mutating a copy -/

/-- C9 (failing input): the vector `v` built from the list 1, 2, 3 and pushed 4
has size 4 and capacity 6.  Its copy `c` has the live elements of `v` and
`v == c` holds, but `c` records capacity 6 over a block of 4 slots, so the
mutations of `c` that rely on the recorded capacity write outside the block of
`c`: `PushBack` (either overload) writes slot 4, and `Insert` at `begin()`
(either overload) shifts the last element into slot 4.  What such a write hits
is not under the control of the program, `v` included. -/
theorem copy_then_mutation_leaves_block :
    ∃ v c : SimpleVector Nat,
      (do let v0 ← SimpleVector.mk_init ⟨1, fun _ => 0⟩ [1, 2, 3]
          v0.PushBack ⟨2, fun _ => 0⟩ 4) = .ok v ∧
      SimpleVector.mk_copy ⟨3, fun _ => 0⟩ v = .ok (c, v) ∧
      c.live = v.live ∧ SimpleVector.eq v c = .ok true ∧
      c.GetSize = 4 ∧ c.GetCapacity = 6 ∧ c.slots = 4 ∧
      c.PushBack ⟨4, fun _ => 0⟩ 5 = .undefined ∧
      c.PushBack_move ⟨4, fun _ => 0⟩ 5 = .undefined ∧
      c.Insert ⟨4, fun _ => 0⟩ (c.begin + 0) 5 = .undefined ∧
      c.Insert_move ⟨4, fun _ => 0⟩ (c.begin + 0) 5 = .undefined :=
  ⟨⟨⟨2, [1, 2, 3, 4, 0, 0]⟩, 4, 6⟩, ⟨⟨3, [1, 2, 3, 4]⟩, 4, 6⟩, rfl, rfl, rfl, rfl, rfl, rfl,
    rfl, rfl, rfl, rfl, rfl⟩
